import Mathlib

/-!
# Verification of the MST kernel (`src/mst.c`)

A shallow embedding, in Lean 4, of the core data structures and algorithms of
the distributed minimum-spanning-tree program `mst.c`:

* the disjoint-set forest (`Set`, `findSet`, `unionSet`, `newSet`),
* the in-place merge sort over the edge list (`merge`, `mergeSort`),
* the indexed binary min-heap (`BinaryMinHeap` and its operations),
* the indexed Fibonacci min-heap (pointer structure modelled as a store of
  nodes addressed by natural-number ids),
* the edge-list scatter precondition check (`scatterEdgeList`),
* the sequential (cohort size 1) executions of Kruskal's and Borůvka's
  algorithms.

Modelling conventions:

* C `int` values that are always non-negative in every well-defined execution
  (sizes, heap indices, vertex ids, ranks) are modelled as `Nat`; values that
  use `-1` (`UNSET_ELEMENT`) or negative intermediate values (merge-sort
  bounds) are modelled as `Int`.
* C loops whose termination depends on the heap's pointer structure, and the
  recursions of `findSet`, `mergeSort` and `cutFibonacciMinHeap`, take an
  explicit fuel argument so that every definition is structurally recursive
  and computable by `decide`/`rfl`; theorems hypothesise enough fuel.
* Arrays are Lean lists; an element beyond the tracked size stays in the list,
  exactly as a C array keeps stale values beyond the logical size (this
  matters: `heapifyDownBinaryMinHeap` really reads index `heap->size`).
* Out parameters written through pointers become returned tuples; a C function
  that leaves its out parameters unwritten returns `none` for them.
-/

namespace MST

/-- `UNSET_ELEMENT` from `mst.c` (line 16). -/
def UNSET_ELEMENT : Int := -1

/-- `INT_MAX` of the target platform, the sentinel weight used by the
algorithms (`<limits.h>`, 32-bit `int`). -/
def INT_MAX : Int := 2147483647

/-- One edge of the flat `int` edge list: `EDGE_MEMBERS = 3` consecutive ints
`from`, `to`, `weight` (`mst.c` stores edge `i` at indices `3*i .. 3*i+2`).
`from` and `to` are Lean keywords, hence the field names `from_` and `to_`. -/
structure Edge where
  from_ : Int
  to_ : Int
  weight : Int
deriving Repr, DecidableEq

/-- `struct WeightedGraph` (`mst.c` lines 82–86): `edges` and `vertices`
counts plus the flat edge list, modelled as a list of `Edge`. -/
structure WeightedGraph where
  edges : Nat
  vertices : Nat
  edgeList : List Edge
deriving Repr, DecidableEq

/-! ## Disjoint-set forest (`struct Set`, `newSet`, `findSet`, `unionSet`) -/

/-- `struct Set` (`mst.c` lines 45–49).  `canonicalElements[v]` is the parent
slot of `v` (`UNSET_ELEMENT` marks a root); `rank` is the union-by-rank
bookkeeping array. -/
structure Set where
  elements : Nat
  canonicalElements : List Int
  rank : List Int
deriving Repr, DecidableEq

/-- `newSet` (`mst.c` lines 1029–1034): parents all `UNSET_ELEMENT` (the
`memset` with `-1` bytes), ranks all `0` (`calloc`). -/
def newSet (elements : Nat) : Set :=
  { elements := elements
    canonicalElements := List.replicate elements UNSET_ELEMENT
    rank := List.replicate elements 0 }

/-- The parent slot of `v`, as the C code reads it. -/
def parentSlot (s : Set) (v : Nat) : Int :=
  s.canonicalElements.getD v UNSET_ELEMENT

/-- The parent slot of `v` interpreted: `none` for a root. -/
def parentOf (s : Set) (v : Nat) : Option Nat :=
  if parentSlot s v = UNSET_ELEMENT then none else some (parentSlot s v).toNat

/-- `findSet` (`mst.c` lines 512–520) with explicit recursion fuel: returns
the updated forest (path compression writes every traversed parent slot) and
the canonical element.  With fuel `0` the traversal is cut short and the
current vertex is returned unchanged; all theorems supply enough fuel. -/
def findSet : Nat → Set → Nat → Set × Nat
  | 0, s, v => (s, v)
  | fuel + 1, s, v =>
    if parentSlot s v = UNSET_ELEMENT then (s, v)
    else
      let sr := findSet fuel s (parentSlot s v).toNat
      ({ sr.1 with canonicalElements := sr.1.canonicalElements.set v (Int.ofNat sr.2) }, sr.2)

/-- `unionSet` (`mst.c` lines 1525–1539): two `findSet` calls (their path
compression included), then union by rank; on a rank tie `root2` becomes the
parent and its rank is bumped. -/
def unionSet (fuel : Nat) (s : Set) (parent1 parent2 : Nat) : Set :=
  let sr1 := findSet fuel s parent1
  let sr2 := findSet fuel sr1.1 parent2
  let s2 := sr2.1
  let root1 := sr1.2
  let root2 := sr2.2
  if root1 = root2 then s2
  else if s2.rank.getD root1 0 < s2.rank.getD root2 0 then
    { s2 with canonicalElements := s2.canonicalElements.set root1 (Int.ofNat root2) }
  else if s2.rank.getD root2 0 < s2.rank.getD root1 0 then
    { s2 with canonicalElements := s2.canonicalElements.set root2 (Int.ofNat root1) }
  else
    { s2 with
      canonicalElements := s2.canonicalElements.set root1 (Int.ofNat root2)
      rank := s2.rank.set root2 (s2.rank.getD root1 0 + 1) }

/-- The parent chain from `v` up to (and including) its root. -/
inductive PathTo (s : Set) : Nat → List Nat → Prop
  | root {v : Nat} : parentOf s v = none → PathTo s v [v]
  | up {v p : Nat} {l : List Nat} : parentOf s v = some p → PathTo s p l →
      PathTo s v (v :: l)

/-- `r` is the canonical element (root) of `v`'s component. -/
inductive Rooted (s : Set) : Nat → Nat → Prop
  | root {v : Nat} : parentOf s v = none → Rooted s v v
  | up {v p r : Nat} : parentOf s v = some p → Rooted s p r → Rooted s v r

/-- Well-formedness of a forest state: the two arrays have the advertised
length, every parent slot is `-1` or a vertex id below `elements`, and every
vertex reaches a root along a duplicate-free in-range parent chain. -/
def WF (s : Set) : Prop :=
  s.canonicalElements.length = s.elements ∧
  s.rank.length = s.elements ∧
  (∀ v, v < s.elements → parentSlot s v = UNSET_ELEMENT ∨
    (0 ≤ parentSlot s v ∧ (parentSlot s v).toNat < s.elements)) ∧
  (∀ v, v < s.elements → ∃ l, PathTo s v l ∧ l.Nodup ∧ ∀ w ∈ l, w < s.elements)

/-- The set of canonical elements (roots) among the `elements` vertices. -/
def rootsFinset (s : Set) : Finset Nat :=
  (Finset.range s.elements).filter (fun v => parentSlot s v = UNSET_ELEMENT)

/-- The canonical element of `v`, read off without keeping the compressed
state (specification-side abbreviation, not code). -/
def rootD (s : Set) (v : Nat) : Nat := (findSet s.elements s v).2

/-- The parent chain of `v`, computed with fuel (specification-side). -/
def chainD : Nat → Set → Nat → Option (List Nat)
  | 0, _, _ => none
  | fuel + 1, s, v =>
    match parentOf s v with
    | none => some [v]
    | some p => (chainD fuel s p).map (v :: ·)

/-- Decidable sufficient check for `WF`, used to discharge well-formedness at
concrete inputs. -/
def wfB (s : Set) : Bool :=
  (s.canonicalElements.length == s.elements) &&
  (s.rank.length == s.elements) &&
  ((List.range s.elements).all fun v =>
    (decide (parentSlot s v = UNSET_ELEMENT) ||
      (decide (0 ≤ parentSlot s v) && decide ((parentSlot s v).toNat < s.elements))) &&
    (match chainD (s.elements + 1) s v with
     | none => false
     | some l => decide l.Nodup && l.all (fun w => decide (w < s.elements))))

/-! ## Edge-list scatter (`scatterEdgeList`), merge sort (`merge`, `mergeSort`),
sequential `sort` and Kruskal -/

/-- The abstract error kinds of spec section 7 raised by the modelled core. -/
inductive CoreError
  | UnsupportedTopology
deriving Repr, DecidableEq

/-- `scatterEdgeList` (`mst.c` lines 1408–1431), observable behaviour on one
rank: the `MPI_Scatter` itself is communication and is not modelled; after it,
the last rank's element count is fixed up to the remainder, and then the
unsupported-topology check fires.  Returns the rank's effective element count
or the fatal diagnostic.  (In C, `elements % *elementsPart` with
`*elementsPart == 0` is undefined; Lean's `% 0` is total and returns the left
operand, which never triggers the fix-up, matching no well-defined
C execution.) -/
def scatterEdgeList (rank size elements elementsPart : Nat) : Except CoreError Nat :=
  let elementsPart' :=
    if rank = size - 1 ∧ elements % elementsPart ≠ 0 then elements % elementsPart
    else elementsPart
  if elements / 2 + 1 < size ∧ elements ≠ size then
    Except.error CoreError.UnsupportedTopology
  else
    Except.ok elementsPart'

instance : Inhabited Edge := ⟨⟨0, 0, 0⟩⟩

/-- The sub-list of edges at indices `lo .. hi` (inclusive). -/
def edgeSlice (edgeList : List Edge) (lo hi : Nat) : List Edge :=
  (edgeList.drop lo).take (hi + 1 - lo)

/-- The write-back loop of `merge` (`mst.c` lines 605–618): `k` entries remain
to write; take from the `right` cursor when its weight is strictly smaller,
else from the `left` cursor (so the left element wins ties). -/
def mergeLoop (working : List Edge) : Nat → Nat → Nat → List Edge
  | 0, _, _ => []
  | k + 1, left, right =>
    if (working.getD right default).weight < (working.getD left default).weight then
      working.getD right default :: mergeLoop working k left (right - 1)
    else
      working.getD left default :: mergeLoop working k (left + 1) right

/-- `merge` (`mst.c` lines 590–621): copy `[start..pivot]` forward and
`[pivot+1..end]` reversed into a scratch buffer, then write the two-cursor
merge back over `[start..end]`.  Indices are C `int`s; the callers inside
`mergeSort` only pass `0 ≤ start ≤ pivot < end`. -/
def merge (edgeList : List Edge) (start end_ pivot : Int) : List Edge :=
  let s := start.toNat
  let e := end_.toNat
  let working := edgeSlice edgeList s pivot.toNat ++ (edgeSlice edgeList (pivot.toNat + 1) e).reverse
  let out := mergeLoop working (e + 1 - s) 0 (e - s)
  edgeList.take s ++ out ++ edgeList.drop (e + 1)

/-- `mergeSort` (`mst.c` lines 665–674): inclusive `int` bounds, recursion
guarded by `start != end` only.  The C recursion does not terminate when
`start > end` (e.g. `mergeSort(edgeList, 0, -1)` for an empty edge list), so
the embedding carries fuel and returns `none` when the fuel runs out; a
`none` for every fuel is a divergence of the C code. -/
def mergeSort : Nat → List Edge → Int → Int → Option (List Edge)
  | 0, _, _, _ => none
  | fuel + 1, edgeList, start, end_ =>
    if start ≠ end_ then
      let pivot := Int.tdiv (start + end_) 2
      match mergeSort fuel edgeList start pivot with
      | none => none
      | some l1 =>
        match mergeSort fuel l1 (pivot + 1) end_ with
        | none => none
        | some l2 => some (merge l2 start end_ pivot)
    else some edgeList

/-- `sort` (`mst.c` lines 1436–1507) on a cohort of size 1 (the `parallel ==
false` path): `elementsPart = (elements + size - 1) / size = elements`, the
whole edge list is merge-sorted in place and reinstalled in the graph. -/
def sort (fuel : Nat) (graph : WeightedGraph) : Option WeightedGraph :=
  let elements := graph.edges
  let elementsPart := (elements + 1 - 1) / 1
  match mergeSort fuel graph.edgeList 0 ((elementsPart : Int) - 1) with
  | none => none
  | some l => some { graph with edgeList := l }

/-- The rank-0 greedy loop of `mstKruskal` (`mst.c` lines 827–846).  The loop
guard is the disjunction from the source, `edgesMST < V-1 || currentEdge < E`;
`findSet`/`unionSet` receive fuel `vertices`, which suffices on well-formed
forests.  The MST buffer is written in place via `List.set`, as the C code
writes `mst->edgeList[edgesMST]`. -/
def mstKruskalLoop (fuelLoop : Nat) (vertices : Nat) (edgeList : List Edge) (edges : Nat)
    (s : Set) (mstList : List Edge) (edgesMST currentEdge : Nat) :
    Option (Set × List Edge × Nat) :=
  match fuelLoop with
  | 0 => none
  | fuel + 1 =>
    if edgesMST < vertices - 1 ∨ currentEdge < edges then
      let e := edgeList.getD currentEdge default
      let sr1 := findSet vertices s e.from_.toNat
      let sr2 := findSet vertices sr1.1 e.to_.toNat
      if sr1.2 ≠ sr2.2 then
        mstKruskalLoop fuel vertices edgeList edges
          (unionSet vertices sr2.1 sr1.2 sr2.2)
          (mstList.set edgesMST e) (edgesMST + 1) (currentEdge + 1)
      else
        mstKruskalLoop fuel vertices edgeList edges sr2.1 mstList edgesMST (currentEdge + 1)
    else some (s, mstList, edgesMST)

/-- `mstKruskal` (`mst.c` lines 815–850) on a cohort of size 1: build the
forest, run the (sequential) sort, then the rank-0 greedy loop.  `none`
signals fuel exhaustion; a `none` for every fuel is a divergence of the C
code. -/
def mstKruskal (fuel : Nat) (graph : WeightedGraph) (mst : WeightedGraph) :
    Option (WeightedGraph × WeightedGraph) :=
  let s := newSet graph.vertices
  match sort fuel graph with
  | none => none
  | some graph' =>
    match mstKruskalLoop fuel graph'.vertices graph'.edgeList graph'.edges s
        mst.edgeList 0 0 with
    | none => none
    | some (_, mstList, _) => some (graph', { mst with edgeList := mstList })

/-- Sorted by edge weight, the order `mergeSort` establishes. -/
def sortedByWeight (l : List Edge) : Prop :=
  l.Sorted (fun a b => a.weight ≤ b.weight)

instance (l : List Edge) : Decidable (sortedByWeight l) :=
  List.decidableSorted l

/-- Specification-side view of `mergeLoop`: pop repeatedly from whichever end
of the scratch list is lighter (the back on a strict win, the front
otherwise). -/
def bitonicPop : Nat → List Edge → List Edge
  | 0, _ => []
  | _ + 1, [] => []
  | k + 1, x :: xs =>
    if ((x :: xs).getLastD default).weight < x.weight then
      (x :: xs).getLastD default :: bitonicPop k (x :: xs).dropLast
    else
      x :: bitonicPop k xs

/-! ## Sequential Borůvka (`mstBoruvka`, `mst.c` lines 679–810, the
`size == 1` path: `edgesPart = edges`, `edgeListPart = graph->edgeList`, no
MPI exchange).  The `closestEdge` array holds one candidate edge per vertex
slot; each phase resets only the weight member to `INT_MAX` (`mst.c` lines
726–728), so the `from`/`to` members of a slot are stale until the slot is
copied over.  The initial `malloc` contents are modelled as `default`
edges — they are never consulted while the weight is the `INT_MAX`
sentinel. -/

def resetClosest : List Edge → List Edge
  | [] => []
  | e :: r => { e with weight := INT_MAX } :: resetClosest r

/-- The closest-edge search loop (`mst.c` lines 731–751): for every edge whose
endpoints have different canonical elements, update both endpoints' slots when
the slot is unset (`weight == INT_MAX`) or the edge is strictly lighter.  The
`findSet` calls compress paths, so the forest is threaded through. -/
def boruvkaFindClosest (fuel : Nat) : Set → List Edge → List Edge → Set × List Edge
  | s, closest, [] => (s, closest)
  | s, closest, e :: rest =>
    let f0 := findSet fuel s e.from_.toNat
    let f1 := findSet fuel f0.1 e.to_.toNat
    if f0.2 ≠ f1.2 then
      let closest1 :=
        if (closest.getD f0.2 default).weight = INT_MAX ∨
            e.weight < (closest.getD f0.2 default).weight then
          closest.set f0.2 e
        else closest
      let closest2 :=
        if (closest1.getD f1.2 default).weight = INT_MAX ∨
            e.weight < (closest1.getD f1.2 default).weight then
          closest1.set f1.2 e
        else closest1
      boruvkaFindClosest fuel f1.1 closest2 rest
    else boruvkaFindClosest fuel f1.1 closest rest

/-- The add-to-MST loop (`mst.c` lines 785–801): for every vertex slot whose
weight is not the `INT_MAX` sentinel, re-check the canonical elements and on a
difference record the edge (rank 0 writes the MST list), bump `edgesMST` and
union the endpoints.  A genuine edge of weight `INT_MAX` is skipped here even
though the search loop stored it. -/
def boruvkaAddLoop (fuel : Nat) (closest : List Edge) :
    Nat → Nat → Set → Nat → List Edge → Set × Nat × List Edge
  | 0, _, s, edgesMST, mstList => (s, edgesMST, mstList)
  | count + 1, j, s, edgesMST, mstList =>
    if (closest.getD j default).weight ≠ INT_MAX then
      let f0 := findSet fuel s (closest.getD j default).from_.toNat
      let f1 := findSet fuel f0.1 (closest.getD j default).to_.toNat
      if f0.2 ≠ f1.2 then
        boruvkaAddLoop fuel closest count (j + 1)
          (unionSet fuel f1.1 (closest.getD j default).from_.toNat
            (closest.getD j default).to_.toNat)
          (edgesMST + 1) (mstList.set edgesMST (closest.getD j default))
      else boruvkaAddLoop fuel closest count (j + 1) f1.1 edgesMST mstList
    else boruvkaAddLoop fuel closest count (j + 1) s edgesMST mstList

/-- One phase of the Borůvka loop body: reset, search, add.  The running
state is `(set, edgesMST, mstList, closestEdge)`. -/
def mstBoruvkaPhase (fuel vertices : Nat) (edgeList : List Edge)
    (st : Set × Nat × List Edge × List Edge) : Set × Nat × List Edge × List Edge :=
  let closest0 := resetClosest st.2.2.2
  let fc := boruvkaFindClosest fuel st.1 closest0 edgeList
  let ad := boruvkaAddLoop fuel fc.2 vertices 0 fc.1 st.2.1 st.2.2.1
  (ad.1, ad.2.1, ad.2.2, fc.2)

/-- The phase loop `for (int i = 1; i < vertices && edgesMST < vertices - 1;
i *= 2)` (`mst.c` line 724), with one unit of fuel per phase; `none` means
more phases were attempted than the fuel allows. -/
def mstBoruvkaLoop (fuelFind vertices : Nat) (edgeList : List Edge) :
    Nat → Nat → Set × Nat × List Edge × List Edge →
    Option (Set × Nat × List Edge × List Edge)
  | 0, i, st => if i < vertices ∧ st.2.1 < vertices - 1 then none else some st
  | fuelPhase + 1, i, st =>
    if i < vertices ∧ st.2.1 < vertices - 1 then
      mstBoruvkaLoop fuelFind vertices edgeList fuelPhase (i * 2)
        (mstBoruvkaPhase fuelFind vertices edgeList st)
    else some st

/-- `mstBoruvka` on one process: fresh disjoint-set forest, uninitialised
closest-edge array, phase loop from `i = 1`.  Returns the final forest,
`edgesMST`, the MST edge list and the closest-edge scratch. -/
def mstBoruvka (fuelPhase : Nat) (graph : WeightedGraph) (mst : WeightedGraph) :
    Option (Set × Nat × List Edge × List Edge) :=
  mstBoruvkaLoop graph.vertices graph.vertices graph.edgeList fuelPhase 1
    (newSet graph.vertices, 0, mst.edgeList,
      List.replicate graph.vertices (default : Edge))

/-- Specification-side connectivity of the input graph (claim C9's "connected
input"): every nonempty proper subset of the vertices has an edge with
exactly one endpoint inside. -/
def connectedOn (vertices : Nat) (edgeList : List Edge) : Prop :=
  ∀ A : Finset Nat, A ⊆ Finset.range vertices → A.Nonempty →
    ¬Finset.range vertices ⊆ A →
    ∃ e ∈ edgeList, (e.from_.toNat ∈ A ∧ e.to_.toNat ∉ A) ∨
      (e.to_.toNat ∈ A ∧ e.from_.toNat ∉ A)

/-- Specification-side description of one `closestEdge` slot: either still
the `INT_MAX` sentinel, or a stored edge of weight below `INT_MAX` whose
endpoints lie in distinct components, one of them the component of the slot's
root `r` (components read in the reference forest `s0`). -/
def closestSlotOK (s0 : Set) (closest : List Edge) (r : Nat) : Prop :=
  (closest.getD r default).weight = INT_MAX ∨
  ((closest.getD r default).weight < INT_MAX ∧
    (closest.getD r default).from_.toNat < s0.elements ∧
    (closest.getD r default).to_.toNat < s0.elements ∧
    rootD s0 (closest.getD r default).from_.toNat ≠
      rootD s0 (closest.getD r default).to_.toNat ∧
    (rootD s0 (closest.getD r default).from_.toNat = r ∨
      rootD s0 (closest.getD r default).to_.toNat = r))

/-! ## Binary min-heap (`struct BinaryMinHeap`, `mst.c` lines 56–62) and its
operations.  `alloced` only drives `realloc` growth and has no observable
effect on stored values, so it is not modelled; `elements` is the backing
array including stale slots at indices `≥ size`, `positions` is the
vertex-indexed position array of C `int`s (`UNSET_ELEMENT = -1`).  Writes one
slot past the current end of the backing array (the `realloc`-backed
`elements[heap->size] = …` of `push`) are modelled by `setPad`, which extends
the list as the C reallocation does. -/

structure BinaryHeapElement where
  vertex : Nat
  via : Int
  weight : Int
deriving DecidableEq

instance : Inhabited BinaryHeapElement := ⟨⟨0, 0, 0⟩⟩

structure BinaryMinHeap where
  size : Nat
  positions : List Int
  elements : List BinaryHeapElement
deriving DecidableEq

/-- Array write that grows the backing store when the index is one past the
end, as the C `realloc` in `pushBinaryMinHeap` does. -/
def setPad (l : List BinaryHeapElement) (i : Nat) (a : BinaryHeapElement) :
    List BinaryHeapElement :=
  (l ++ List.replicate (i + 1 - l.length) default).set i a

/-- `swapBinaryHeapElement` (`mst.c` lines 1512–1521): update the two
position entries from the pre-swap elements, then exchange the elements. -/
def swapBinaryHeapElement (h : BinaryMinHeap) (position1 position2 : Nat) :
    BinaryMinHeap :=
  let e1 := h.elements.getD position1 default
  let e2 := h.elements.getD position2 default
  { h with
    positions := (h.positions.set e1.vertex (Int.ofNat position2)).set e2.vertex
      (Int.ofNat position1),
    elements := (h.elements.set position1 e2).set position2 e1 }

/-- `heapifyBinaryMinHeap` (`mst.c` lines 525–536): sift up.  The C loop
condition `position >= 0` is always true; the loop exits through `break`.
`(position - 1) / 2` on Nat equals the C truncated `int` division here
(`(0 - 1) / 2 = 0` in C).  Fuel `position + 1` always suffices since the
position strictly decreases on every swap. -/
def heapifyBinaryMinHeap : Nat → BinaryMinHeap → Nat → BinaryMinHeap
  | 0, h, _ => h
  | fuel + 1, h, position =>
    let positionParent := (position - 1) / 2
    if (h.elements.getD position default).weight <
        (h.elements.getD positionParent default).weight then
      heapifyBinaryMinHeap fuel (swapBinaryHeapElement h position positionParent)
        positionParent
    else h

/-- `heapifyDownBinaryMinHeap` (`mst.c` lines 541–564): sift down.  Note the
source compares the child indices with `<= heap->size`, not `< heap->size`,
so the stale slot at index `size` participates in the smallest-child
selection. -/
def heapifyDownBinaryMinHeap : Nat → BinaryMinHeap → Nat → BinaryMinHeap
  | 0, h, _ => h
  | fuel + 1, h, position =>
    if position < h.size then
      let positionLeft := (position + 1) * 2 - 1
      let positionRight := (position + 1) * 2
      let positionSmallest := position
      let positionSmallest :=
        if positionLeft ≤ h.size ∧
            (h.elements.getD positionLeft default).weight <
              (h.elements.getD positionSmallest default).weight then
          positionLeft
        else positionSmallest
      let positionSmallest :=
        if positionRight ≤ h.size ∧
            (h.elements.getD positionRight default).weight <
              (h.elements.getD positionSmallest default).weight then
          positionRight
        else positionSmallest
      if (h.elements.getD positionSmallest default).weight <
          (h.elements.getD position default).weight then
        heapifyDownBinaryMinHeap fuel (swapBinaryHeapElement h position positionSmallest)
          positionSmallest
      else h
    else h

/-- `pushBinaryMinHeap` (`mst.c` lines 1328–1344): write the new element at
index `size`, record its position, sift up from `size`, then increment
`size`. -/
def pushBinaryMinHeap (fuel : Nat) (h : BinaryMinHeap) (vertex : Nat)
    (via weight : Int) : BinaryMinHeap :=
  let h1 := { h with
    elements := setPad h.elements h.size ⟨vertex, via, weight⟩,
    positions := h.positions.set vertex (Int.ofNat h.size) }
  let h2 := heapifyBinaryMinHeap fuel h1 h.size
  { h2 with size := h2.size + 1 }

/-- `decreaseBinaryMinHeap` (`mst.c` lines 439–447): when the vertex is in the
heap and the new weight is strictly smaller, overwrite `via` and `weight` in
place and sift up from the vertex's position. -/
def decreaseBinaryMinHeap (fuel : Nat) (h : BinaryMinHeap) (vertex : Nat)
    (via weight : Int) : BinaryMinHeap :=
  let p := h.positions.getD vertex 0
  if p ≠ UNSET_ELEMENT ∧ weight < (h.elements.getD p.toNat default).weight then
    let e := h.elements.getD p.toNat default
    heapifyBinaryMinHeap fuel
      { h with elements := h.elements.set p.toNat ⟨e.vertex, via, weight⟩ } p.toNat
  else h

/-- `popBinaryMinHeap` (`mst.c` lines 1048–1057), in source statement order:
read the root out-parameters, unset the root vertex's position, move the last
element to the root, record position `0` for the element now at the root,
decrement `size`, sift down from the root.  Returns the updated heap and the
popped element. -/
def popBinaryMinHeap (fuel : Nat) (h : BinaryMinHeap) :
    BinaryMinHeap × BinaryHeapElement :=
  let e0 := h.elements.getD 0 default
  let h1 := { h with positions := h.positions.set e0.vertex UNSET_ELEMENT }
  let h2 := { h1 with elements := h1.elements.set 0 (h1.elements.getD (h1.size - 1) default) }
  let h3 := { h2 with
    positions := h2.positions.set (h2.elements.getD 0 default).vertex (Int.ofNat 0) }
  let h4 := { h3 with size := h3.size - 1 }
  (heapifyDownBinaryMinHeap fuel h4 0, e0)

/-- The position-index invariant of the specification, stated with an explicit
logical size bound `b`: every element slot below `b` has an in-range vertex
whose position entry points back at the slot, and a position entry is
`UNSET_ELEMENT` exactly when no slot below `b` holds that vertex. -/
def heapInvAt (h : BinaryMinHeap) (b : Nat) : Prop :=
  b ≤ h.elements.length ∧
  (∀ i, i < b → (h.elements.getD i default).vertex < h.positions.length ∧
    h.positions.getD (h.elements.getD i default).vertex 0 = Int.ofNat i) ∧
  (∀ v, v < h.positions.length →
    (h.positions.getD v 0 = UNSET_ELEMENT ↔
      ∀ i, i < b → (h.elements.getD i default).vertex ≠ v))

/-- The position-index invariant at the heap's current size. -/
def heapInv (h : BinaryMinHeap) : Prop := heapInvAt h h.size

instance (h : BinaryMinHeap) (b : Nat) : Decidable (heapInvAt h b) := by
  unfold heapInvAt
  infer_instance

instance (h : BinaryMinHeap) : Decidable (heapInv h) := by
  unfold heapInv
  infer_instance

/-! ## Fibonacci min-heap (`struct FibonacciMinHeap`, `mst.c` lines 63–80).
Heap nodes live in a store `nodes`; C pointers become `Option Nat` indices
into the store (`none` = `NULL`).  Every pointer dereference in the source is
modelled by a `match`; `none` where the source dereferences means undefined
behaviour and the operation returns `none`.  `free`d nodes simply stay in the
store (their index is no longer reachable). -/

structure FibonacciHeapElement where
  marked : Bool
  childrens : Int
  vertex : Nat
  via : Int
  weight : Int
  parent : Option Nat
  child : Option Nat
  left : Option Nat
  right : Option Nat
deriving DecidableEq

instance : Inhabited FibonacciHeapElement :=
  ⟨⟨false, 0, 0, 0, 0, none, none, none, none⟩⟩

structure FibState where
  nodes : List FibonacciHeapElement
  size : Int
  minimum : Option Nat
  positions : List (Option Nat)
deriving DecidableEq

def getNode (s : FibState) (i : Nat) : FibonacciHeapElement :=
  s.nodes.getD i default

def setNode (s : FibState) (i : Nat) (e : FibonacciHeapElement) : FibState :=
  { s with nodes := s.nodes.set i e }

/-- `insertFibonacciMinHeap` (`mst.c` lines 569–585): splice the element into
the circular root list immediately left of the minimum and update the minimum
on a strictly smaller weight. -/
def insertFibonacciMinHeap (s : FibState) (element : Nat) : Option FibState :=
  match s.minimum with
  | none => some { s with minimum := some element }
  | some m =>
    match (getNode s m).left with
    | none => none
    | some endHeap =>
      let s1 := setNode s m { getNode s m with left := some element }
      let s2 := setNode s1 element { getNode s1 element with left := some endHeap }
      let s3 := setNode s2 endHeap { getNode s2 endHeap with right := some element }
      let s4 := setNode s3 element { getNode s3 element with right := some m }
      some (if (getNode s4 element).weight < (getNode s4 m).weight then
        { s4 with minimum := some element } else s4)

/-- `cutFibonacciMinHeap` (`mst.c` lines 403–434), in source statement order.
The initial `parent->childrens--` is guarded by `parent != NULL`, but the
subsequent child-list code dereferences `parent` unconditionally, so a cut of
a parentless node is undefined behaviour (`none`).  Note that the source
never clears `element->marked` for the element being cut; only a recursively
cut marked parent has its flag cleared afterwards. -/
def cutFibonacciMinHeap : Nat → FibState → Nat → Option FibState
  | 0, _, _ => none
  | fuel + 1, s, element =>
    match (getNode s element).parent with
    | none => none
    | some parent =>
      let s1 := setNode s parent
        { getNode s parent with childrens := (getNode s parent).childrens - 1 }
      let detached : Option FibState :=
        if (getNode s1 element).right = some element then
          some (setNode s1 parent { getNode s1 parent with child := none })
        else
          match (getNode s1 element).right, (getNode s1 element).left with
          | some r, some l =>
            let s2 := setNode s1 r { getNode s1 r with left := (getNode s1 element).left }
            let s3 := setNode s2 l { getNode s2 l with right := (getNode s2 element).right }
            if (getNode s3 parent).child = some element then
              some (setNode s3 parent
                { getNode s3 parent with child := (getNode s3 element).right })
            else some s3
          | _, _ => none
      match detached with
      | none => none
      | some sd =>
        match insertFibonacciMinHeap sd element with
        | none => none
        | some si =>
          let sp := setNode si element { getNode si element with parent := none }
          match (getNode sp parent).parent with
          | none => some sp
          | some _ =>
            if (getNode sp parent).marked then
              match cutFibonacciMinHeap fuel sp parent with
              | none => none
              | some sc => some (setNode sc parent
                  { getNode sc parent with marked := false })
            else
              some (setNode sp parent { getNode sp parent with marked := true })

/-- Membership in the strict parent-ancestor chain of a node, chased for at
most `fuel` steps: `chainMemF fuel s y i` holds when `i` is reached from `y`
by one or more `parent` steps.  A well-formed Fibonacci heap has acyclic
parent chains, so neither a node nor any of its ancestors re-occurs further
up its own chain. -/
def chainMemF : Nat → FibState → Nat → Nat → Bool
  | 0, _, _, _ => false
  | fuel + 1, s, y, i =>
    match (getNode s y).parent with
    | none => false
    | some q => if i = q then true else chainMemF fuel s q i

/-- The pairwise-linking `while (degree[currentDegree] != NULL)` loop inside
`consolidateFibonacciMinHeap` (`mst.c` lines 259–285 of the function body).
The degree-array read out of bounds is undefined behaviour.  A fuel of
`degree.length + 1` always suffices because `currentDegree` grows by one per
iteration. -/
def consolidateInner : Nat → FibState → List (Option Nat) → Nat → Nat →
    Option (FibState × List (Option Nat) × Nat × Nat)
  | 0, _, _, _, _ => none
  | fuel + 1, s, degree, element, currentDegree =>
    if currentDegree < degree.length then
      match degree.getD currentDegree none with
      | none => some (s, degree, element, currentDegree)
      | some d0 =>
        let e := if (getNode s element).weight > (getNode s d0).weight then d0
          else element
        let d := if (getNode s element).weight > (getNode s d0).weight then element
          else d0
        match (getNode s e).child with
        | none =>
          let sa := setNode s e { getNode s e with child := some d }
          let sb := setNode sa d { getNode sa d with parent := some e }
          let sc := setNode sb e
            { getNode sb e with childrens := (getNode sb e).childrens + 1 }
          let sdn := setNode sc d { getNode sc d with marked := false }
          consolidateInner fuel sdn (degree.set currentDegree none) e
            (currentDegree + 1)
        | some c =>
          let sa := setNode s d { getNode s d with parent := some e }
          let sb := setNode sa d { getNode sa d with right := (getNode sa e).child }
          let sc := setNode sb d { getNode sb d with left := (getNode sb c).left }
          match (getNode sc d).right with
          | some dr =>
            let se := setNode sc dr { getNode sc dr with left := some d }
            match (getNode se d).left with
            | some dl =>
              let sf := setNode se dl { getNode se dl with right := some d }
              let sg := setNode sf e
                { getNode sf e with childrens := (getNode sf e).childrens + 1 }
              let sh := setNode sg d { getNode sg d with marked := false }
              consolidateInner fuel sh (degree.set currentDegree none) e
                (currentDegree + 1)
            | none => none
          | none => none
    else none

/-- The root-collecting `do … while (element != NULL)` loop of
`consolidateFibonacciMinHeap` (`mst.c` lines 250–288 of the function body). -/
def consolidateOuter : Nat → FibState → List (Option Nat) → Nat →
    Option (FibState × List (Option Nat))
  | 0, _, _, _ => none
  | fuel + 1, s, degree, element =>
    let nextElement : Option Nat :=
      if (getNode s element).right = some element then none
      else (getNode s element).right
    match (getNode s element).right, (getNode s element).left with
    | some r, some l =>
      let s1 := setNode s r { getNode s r with left := (getNode s element).left }
      let s2 := setNode s1 l { getNode s1 l with right := (getNode s1 element).right }
      let s3 := setNode s2 element { getNode s2 element with right := some element }
      let s4 := setNode s3 element { getNode s3 element with left := some element }
      let cd := (getNode s4 element).childrens
      if cd < 0 then none
      else
        match consolidateInner (degree.length + 1) s4 degree element cd.toNat with
        | none => none
        | some (s5, degree5, element5, cd5) =>
          if cd5 < degree5.length then
            match nextElement with
            | none => some (s5, degree5.set cd5 (some element5))
            | some nx => consolidateOuter fuel s5 (degree5.set cd5 (some element5)) nx
          else none
    | _, _ => none

/-- The minimum-rebuilding `for` loop at the end of
`consolidateFibonacciMinHeap`: walk the degree array, re-linking each
surviving root into a fresh circular list and tracking the minimum. -/
def consolidateRebuild : FibState → List (Option Nat) → Option FibState
  | s, [] => some s
  | s, none :: rest => consolidateRebuild s rest
  | s, some d :: rest =>
    match s.minimum with
    | none =>
      let s1 := { s with minimum := some d }
      let s2 := setNode s1 d { getNode s1 d with right := some d }
      let s3 := setNode s2 d { getNode s2 d with left := some d }
      consolidateRebuild s3 rest
    | some m =>
      let s1 := setNode s d { getNode s d with right := some m }
      match (getNode s1 m).left with
      | none => none
      | some ml =>
        let s2 := setNode s1 d { getNode s1 d with left := some ml }
        match (getNode s2 m).left with
        | none => none
        | some ml2 =>
          let s3 := setNode s2 ml2 { getNode s2 ml2 with right := some d }
          let s4 := setNode s3 m { getNode s3 m with left := some d }
          let s5 := if (getNode s4 d).weight < (getNode s4 m).weight then
            { s4 with minimum := some d } else s4
          consolidateRebuild s5 rest

/-- `consolidateFibonacciMinHeap` (`mst.c` lines 240–344).  The C source
sizes the degree array as `(int) (2 * log2(heap->size) + 1)` over `double`
arithmetic; the embedding uses `2 * Nat.log2 size + 1`, which can differ by
one slot for sizes that are not powers of two — either bound exceeds the
maximal root degree of a Fibonacci heap, and an access past it is undefined
behaviour (`none`) in both readings.  Entering the do-while with a `NULL`
minimum dereferences it (undefined behaviour). -/
def consolidateFibonacciMinHeap (fuel : Nat) (s : FibState) : Option FibState :=
  let degreeSize := 2 * Nat.log2 s.size.toNat + 1
  let degree := List.replicate degreeSize (none : Option Nat)
  match s.minimum with
  | none => none
  | some m =>
    match consolidateOuter fuel s degree m with
    | none => none
    | some (s1, degree1) => consolidateRebuild { s1 with minimum := none } degree1

/-- The child-splicing `for` loop of `popFibonacciMinHeap` (`mst.c` lines
1071–1086): move `minimum->childrens` children of the minimum into the root
list, left of the minimum. -/
def popChildLoop : Nat → Nat → FibState → Nat → Option FibState
  | 0, _, _, _ => none
  | fuel + 1, i, s, minimum =>
    if (i : Int) < (getNode s minimum).childrens then
      match (getNode s minimum).child with
      | none => none
      | some child =>
        let detached : Option FibState :=
          if (getNode s child).right = some child then
            some (setNode s minimum { getNode s minimum with child := none })
          else
            match (getNode s child).right, (getNode s child).left with
            | some r, some l =>
              let sa := setNode s minimum
                { getNode s minimum with child := (getNode s child).right }
              let sb := setNode sa r { getNode sa r with left := (getNode sa child).left }
              let sc := setNode sb l { getNode sb l with right := (getNode sb child).right }
              some sc
            | _, _ => none
        match detached with
        | none => none
        | some sd =>
          let s2 := setNode sd child { getNode sd child with parent := none }
          let s3 := setNode s2 child { getNode s2 child with right := some minimum }
          match (getNode s3 minimum).left with
          | none => none
          | some ml =>
            let s4 := setNode s3 child { getNode s3 child with left := some ml }
            match (getNode s4 minimum).left with
            | none => none
            | some ml2 =>
              let s5 := setNode s4 ml2 { getNode s4 ml2 with right := some child }
              let s6 := setNode s5 minimum { getNode s5 minimum with left := some child }
              popChildLoop fuel (i + 1) s6 minimum
    else some s

/-- `popFibonacciMinHeap` (`mst.c` lines 1062–1103): when the heap is empty
(`minimum == NULL`) nothing at all happens and the out-parameters are not
written (`none` output); otherwise the minimum's children join the root
list, the minimum is unlinked and freed, its position entry is cleared, the
size drops, and the heap is consolidated while non-empty. -/
def popFibonacciMinHeap (fuel : Nat) (s : FibState) :
    Option (FibState × Option (Nat × Int × Int)) :=
  match s.minimum with
  | none => some (s, none)
  | some minimum =>
    let out := ((getNode s minimum).vertex, (getNode s minimum).via,
      (getNode s minimum).weight)
    match popChildLoop fuel 0 s minimum with
    | none => none
    | some sL =>
      let removed : Option FibState :=
        if (getNode sL minimum).right = some minimum then
          some { sL with minimum := none }
        else
          match (getNode sL minimum).right, (getNode sL minimum).left with
          | some r, some l =>
            let s1 := setNode sL r { getNode sL r with left := (getNode sL minimum).left }
            let s2 := setNode s1 l { getNode s1 l with right := (getNode s1 minimum).right }
            some { s2 with minimum := (getNode s2 minimum).right }
          | _, _ => none
      match removed with
      | none => none
      | some sRem =>
        let sSz := { sRem with size := sRem.size - 1 }
        let sPos := { sSz with
          positions := sSz.positions.set (getNode sSz minimum).vertex none }
        if sPos.size > 0 then
          match consolidateFibonacciMinHeap fuel sPos with
          | none => none
          | some sC => some (sC, some out)
        else some (sPos, some out)

/-! ## Theorems: disjoint-set forest basics -/

theorem parentOf_eq_none_iff (s : Set) (v : Nat) :
    parentOf s v = none ↔ parentSlot s v = UNSET_ELEMENT := by
  unfold parentOf
  split <;> simp_all

theorem parentOf_eq_some (s : Set) (v p : Nat) (h : parentOf s v = some p) :
    parentSlot s v ≠ UNSET_ELEMENT ∧ (parentSlot s v).toNat = p := by
  unfold parentOf at h
  split at h <;> simp_all

theorem parentSlot_update_ne (s : Set) (v w : Nat) (x : Int) (h : w ≠ v) :
    parentSlot { s with canonicalElements := s.canonicalElements.set v x } w =
      parentSlot s w := by
  simp [parentSlot, List.getD_eq_getElem?_getD, List.getElem?_set_ne (Ne.symm h)]

theorem parentSlot_update_self (s : Set) (v : Nat) (x : Int)
    (h : v < s.canonicalElements.length) :
    parentSlot { s with canonicalElements := s.canonicalElements.set v x } v = x := by
  simp [parentSlot, List.getD_eq_getElem?_getD, List.getElem?_set, h]

theorem parentOf_update_ne (s : Set) (v w : Nat) (x : Int) (h : w ≠ v) :
    parentOf { s with canonicalElements := s.canonicalElements.set v x } w =
      parentOf s w := by
  unfold parentOf
  rw [parentSlot_update_ne s v w x h]

theorem parentOf_update_root (s : Set) (v r : Nat) (h : v < s.canonicalElements.length) :
    parentOf { s with canonicalElements := s.canonicalElements.set v (Int.ofNat r) } v
      = some r := by
  have hs := parentSlot_update_self s v (Int.ofNat r) h
  unfold parentOf
  rw [hs]
  have h1 : (Int.ofNat r) ≠ UNSET_ELEMENT := by
    simp only [UNSET_ELEMENT, Int.ofNat_eq_coe]
    omega
  rw [if_neg h1]
  simp

theorem rooted_unique {s : Set} {v r r' : Nat} (h : Rooted s v r) (h' : Rooted s v r') :
    r = r' := by
  induction h with
  | root hroot =>
    cases h' with
    | root _ => rfl
    | up hp _ => rw [hroot] at hp; cases hp
  | up hp _ ih =>
    cases h' with
    | root hroot => rw [hroot] at hp; cases hp
    | up hp' hr' =>
      rw [hp] at hp'
      cases hp'
      exact ih hr'

theorem rooted_root_isRoot {s : Set} {v r : Nat} (h : Rooted s v r) :
    parentOf s r = none := by
  induction h with
  | root hroot => exact hroot
  | up _ _ ih => exact ih

theorem rooted_of_isRoot {s : Set} {v r : Nat} (hroot : parentOf s v = none)
    (h : Rooted s v r) : r = v := by
  cases h with
  | root _ => rfl
  | up hp _ => rw [hroot] at hp; cases hp

theorem rooted_ne_root_parent {s : Set} {v r : Nat} (h : Rooted s v r) (hne : v ≠ r) :
    ∃ p, parentOf s v = some p := by
  cases h with
  | root _ => exact absurd rfl hne
  | up hp _ => exact ⟨_, hp⟩

theorem pathTo_rooted {s : Set} {v : Nat} {l : List Nat} (h : PathTo s v l) :
    ∃ r, l.getLast? = some r ∧ Rooted s v r ∧ parentOf s r = none := by
  induction h with
  | root hroot => exact ⟨_, rfl, Rooted.root hroot, hroot⟩
  | up hp _ ih =>
    obtain ⟨r, hlast, hr, hrroot⟩ := ih
    refine ⟨r, ?_, Rooted.up hp hr, hrroot⟩
    rw [List.getLast?_cons]
    cases hl : List.getLast? _ with
    | none => rw [hl] at hlast; cases hlast
    | some x => rw [hl] at hlast; simpa [hl] using hlast

theorem pathTo_mem_rooted {s : Set} {v : Nat} {l : List Nat} (h : PathTo s v l)
    {r : Nat} (hr : Rooted s v r) : ∀ x ∈ l, Rooted s x r := by
  induction h with
  | root hroot =>
    intro x hx
    rw [List.mem_singleton] at hx
    subst hx
    exact hr
  | up hp _ ih =>
    intro x hx
    rcases List.mem_cons.mp hx with hxv | hxl
    · subst hxv; exact hr
    · cases hr with
      | root hroot => rw [hroot] at hp; cases hp
      | up hp' hr' =>
        rw [hp] at hp'
        cases hp'
        exact ih hr' x hxl

theorem pathTo_mem_self {s : Set} {v : Nat} {l : List Nat} (h : PathTo s v l) :
    v ∈ l := by
  cases h with
  | root _ => simp
  | up _ _ => simp

/-- Compression step: rewriting the parent slot of a non-root vertex `v`
directly to its own root `rv` changes nobody's canonical element. -/
theorem rooted_update_compress {s : Set} {v rv : Nat}
    (hvlen : v < s.canonicalElements.length)
    (hv : Rooted s v rv) (hne : v ≠ rv) :
    ∀ x r, Rooted { s with canonicalElements := s.canonicalElements.set v (Int.ofNat rv) } x r
      ↔ Rooted s x r := by
  have hrvroot : parentOf s rv = none := rooted_root_isRoot hv
  have hrvne : rv ≠ v := Ne.symm hne
  have hrvs' : parentOf { s with canonicalElements := s.canonicalElements.set v (Int.ofNat rv) } rv = none := by
    rw [parentOf_update_ne s v rv (Int.ofNat rv) hrvne]
    exact hrvroot
  intro x r
  constructor
  · intro h
    induction h with
    | @root x' hroot =>
      by_cases hxv : x' = v
      · have hvx := hxv.symm
        subst hvx
        rw [parentOf_update_root s v rv hvlen] at hroot
        cases hroot
      · refine Rooted.root ?_
        rw [parentOf_update_ne s v x' (Int.ofNat rv) hxv] at hroot
        exact hroot
    | @up x' p r' hp hrec ih =>
      by_cases hxv : x' = v
      · have hvx := hxv.symm
        subst hvx
        rw [parentOf_update_root s v rv hvlen] at hp
        cases hp
        have hr' : r' = rv := rooted_of_isRoot hrvs' hrec
        subst hr'
        exact hv
      · rw [parentOf_update_ne s v x' (Int.ofNat rv) hxv] at hp
        exact Rooted.up hp ih
  · intro h
    induction h with
    | @root x' hroot =>
      have hxv : x' ≠ v := by
        intro hh
        have hvx := hh.symm
        subst hvx
        obtain ⟨p, hp⟩ := rooted_ne_root_parent hv hne
        rw [hroot] at hp; cases hp
      refine Rooted.root ?_
      rw [parentOf_update_ne s v x' (Int.ofNat rv) hxv]
      exact hroot
    | @up x' p r' hp hrec ih =>
      by_cases hxv : x' = v
      · have hvx := hxv.symm
        subst hvx
        have hr' : rv = r' := (rooted_unique (Rooted.up hp hrec) hv).symm
        subst hr'
        exact Rooted.up (parentOf_update_root s v rv hvlen) (Rooted.root hrvs')
      · have hp' : parentOf { s with canonicalElements := s.canonicalElements.set v (Int.ofNat rv) } x' = some p := by
          rw [parentOf_update_ne s v x' (Int.ofNat rv) hxv]
          exact hp
        exact Rooted.up hp' ih

theorem rooted_update_union_toRv {s : Set} {v rv : Nat}
    (hvlen : v < s.canonicalElements.length)
    (hrvroot : parentOf s rv = none) (hne : v ≠ rv) :
    ∀ x w, Rooted s x w → w = v →
      Rooted { s with canonicalElements := s.canonicalElements.set v (Int.ofNat rv) } x rv := by
  have hrvne : rv ≠ v := Ne.symm hne
  have hrvs' : parentOf { s with canonicalElements := s.canonicalElements.set v (Int.ofNat rv) } rv = none := by
    rw [parentOf_update_ne s v rv (Int.ofNat rv) hrvne]
    exact hrvroot
  intro x w h
  induction h with
  | @root x' hroot =>
    intro hx'
    have hx := hx'.symm
    subst hx
    exact Rooted.up (parentOf_update_root s v rv hvlen) (Rooted.root hrvs')
  | @up x' p w' hp hrec ih =>
    intro hw'
    have hxv : x' ≠ v := by
      intro hh
      subst hw'
      have hvx := hh.symm
      subst hvx
      have hw'root : parentOf s w' = none := rooted_root_isRoot (Rooted.up hp hrec)
      rw [hw'root] at hp
      cases hp
    have hp' : parentOf { s with canonicalElements := s.canonicalElements.set v (Int.ofNat rv) } x' = some p := by
      rw [parentOf_update_ne s v x' (Int.ofNat rv) hxv]
      exact hp
    exact Rooted.up hp' (ih hw')

theorem rooted_update_union_other {s : Set} {v rv : Nat}
    (hvroot : parentOf s v = none) :
    ∀ x w, Rooted s x w → w ≠ v →
      Rooted { s with canonicalElements := s.canonicalElements.set v (Int.ofNat rv) } x w := by
  intro x w h
  induction h with
  | @root x' hroot =>
    intro hx'
    refine Rooted.root ?_
    rw [parentOf_update_ne s v x' (Int.ofNat rv) hx']
    exact hroot
  | @up x' p w' hp hrec ih =>
    intro hw'
    have hxv : x' ≠ v := by
      intro hh
      have hvx := hh.symm
      subst hvx
      rw [hvroot] at hp
      cases hp
    have hp' : parentOf { s with canonicalElements := s.canonicalElements.set v (Int.ofNat rv) } x' = some p := by
      rw [parentOf_update_ne s v x' (Int.ofNat rv) hxv]
      exact hp
    exact Rooted.up hp' (ih hw')

/-- Union step: attaching root `v` beneath root `rv` sends `v`'s class to
`rv` and leaves every other class alone. -/
theorem rooted_update_union {s : Set} {v rv : Nat}
    (hvlen : v < s.canonicalElements.length)
    (hvroot : parentOf s v = none) (hrvroot : parentOf s rv = none) (hne : v ≠ rv) :
    ∀ x r, Rooted { s with canonicalElements := s.canonicalElements.set v (Int.ofNat rv) } x r
      ↔ ((Rooted s x v ∧ r = rv) ∨ (Rooted s x r ∧ r ≠ v)) := by
  have hrvne : rv ≠ v := Ne.symm hne
  have hrvs' : parentOf { s with canonicalElements := s.canonicalElements.set v (Int.ofNat rv) } rv = none := by
    rw [parentOf_update_ne s v rv (Int.ofNat rv) hrvne]
    exact hrvroot
  intro x r
  constructor
  · intro h
    induction h with
    | @root x' hroot =>
      have hxv : x' ≠ v := by
        intro hh
        have hvx := hh.symm
        subst hvx
        rw [parentOf_update_root s v rv hvlen] at hroot
        cases hroot
      right
      constructor
      · refine Rooted.root ?_
        rw [parentOf_update_ne s v x' (Int.ofNat rv) hxv] at hroot
        exact hroot
      · exact hxv
    | @up x' p r' hp hrec ih =>
      by_cases hxv : x' = v
      · have hvx := hxv.symm
        subst hvx
        rw [parentOf_update_root s v rv hvlen] at hp
        cases hp
        have hr' : r' = rv := rooted_of_isRoot hrvs' hrec
        subst hr'
        exact Or.inl ⟨Rooted.root hvroot, rfl⟩
      · rw [parentOf_update_ne s v x' (Int.ofNat rv) hxv] at hp
        rcases ih with ⟨hpv, hrrv⟩ | ⟨hpr, hrv⟩
        · exact Or.inl ⟨Rooted.up hp hpv, hrrv⟩
        · exact Or.inr ⟨Rooted.up hp hpr, hrv⟩
  · intro h
    rcases h with ⟨hxv, hrrv⟩ | ⟨hxr, hrv⟩
    · subst hrrv
      exact rooted_update_union_toRv hvlen hrvroot hne x v hxv rfl
    · exact rooted_update_union_other hvroot x r hxr hrv

theorem pathLen_le {l : List Nat} {n : Nat} (hnd : l.Nodup) (hr : ∀ x ∈ l, x < n) :
    l.length ≤ n := by
  classical
  have h1 : l.toFinset.card = l.length := List.toFinset_card_of_nodup hnd
  have h2 : l.toFinset ⊆ Finset.range n := by
    intro x hx
    simp only [List.mem_toFinset] at hx
    simpa using hr x hx
  have h3 := Finset.card_le_card h2
  simpa [h1] using h3

theorem findSet_zero (s : Set) (v : Nat) : findSet 0 s v = (s, v) := rfl

theorem findSet_succ_root {s : Set} {v : Nat} (fuel : Nat) (hroot : parentOf s v = none) :
    findSet (fuel + 1) s v = (s, v) := by
  rw [parentOf_eq_none_iff] at hroot
  simp [findSet, hroot]

theorem findSet_succ_step {s : Set} {v p : Nat} (fuel : Nat) (hp : parentOf s v = some p) :
    findSet (fuel + 1) s v =
      ({ (findSet fuel s p).1 with canonicalElements :=
          (findSet fuel s p).1.canonicalElements.set v (Int.ofNat (findSet fuel s p).2) },
        (findSet fuel s p).2) := by
  obtain ⟨hne, htn⟩ := parentOf_eq_some s v p hp
  simp only [findSet]
  rw [if_neg hne, htn]

/-- The behaviour of `findSet` along the parent chain of `v`: it returns the
canonical element, rewrites the parent slot of every traversed non-root vertex
to the root (full path compression), leaves every other slot, the rank array
and the element count unchanged, and preserves every vertex's canonical
element. -/
theorem findSet_spec {s : Set} {v : Nat} {l : List Nat} (h : PathTo s v l) :
    l.Nodup → (∀ w ∈ l, w < s.canonicalElements.length) →
    ∀ fuel, l.length ≤ fuel →
      Rooted s v (findSet fuel s v).2 ∧
      (findSet fuel s v).1.elements = s.elements ∧
      (findSet fuel s v).1.rank = s.rank ∧
      (findSet fuel s v).1.canonicalElements.length = s.canonicalElements.length ∧
      (∀ w, w ∉ l → parentSlot (findSet fuel s v).1 w = parentSlot s w) ∧
      (∀ w ∈ l, w ≠ (findSet fuel s v).2 →
        parentSlot (findSet fuel s v).1 w = Int.ofNat (findSet fuel s v).2) ∧
      parentSlot (findSet fuel s v).1 (findSet fuel s v).2 =
        parentSlot s (findSet fuel s v).2 ∧
      (∀ x rx, Rooted (findSet fuel s v).1 x rx ↔ Rooted s x rx) := by
  induction h with
  | @root v' hroot =>
    intro _ _ fuel hfuel
    cases fuel with
    | zero => simp at hfuel
    | succ f =>
      rw [findSet_succ_root f hroot]
      refine ⟨Rooted.root hroot, rfl, rfl, rfl, fun w _ => rfl, ?_, rfl, fun x rx => Iff.rfl⟩
      intro w hw hne
      rw [List.mem_singleton] at hw
      exact absurd hw hne
  | @up v' p l' hp hrec ih =>
    intro hnd hlen fuel hfuel
    cases fuel with
    | zero => simp at hfuel
    | succ f =>
      have hnd' : l'.Nodup := (List.nodup_cons.mp hnd).2
      have hvnotin : v' ∉ l' := (List.nodup_cons.mp hnd).1
      have hlen' : ∀ w ∈ l', w < s.canonicalElements.length := by
        intro w hw
        exact hlen w (List.mem_cons_of_mem _ hw)
      have hflen : l'.length ≤ f := by
        simp only [List.length_cons] at hfuel
        omega
      obtain ⟨hrootp, helems, hrank, hlen1, hout, hin, hrslot, hiff⟩ :=
        ih hnd' hlen' f hflen
      have hvr : Rooted s v' (findSet f s p).2 := Rooted.up hp hrootp
      have hvne : v' ≠ (findSet f s p).2 := by
        intro hh
        have := rooted_root_isRoot hvr
        rw [← hh, hp] at this
        cases this
      have hvlen : v' < s.canonicalElements.length := hlen v' (List.mem_cons_self _ _)
      have hvlen1 : v' < (findSet f s p).1.canonicalElements.length := by
        rw [hlen1]; exact hvlen
      rw [findSet_succ_step f hp]
      refine ⟨hvr, helems, hrank, ?_, ?_, ?_, ?_, ?_⟩
      · simpa [List.length_set] using hlen1
      · intro w hw
        have hwv : w ≠ v' := by
          intro hh; exact hw (hh ▸ List.mem_cons_self _ _)
        have hwl : w ∉ l' := fun hh => hw (List.mem_cons_of_mem _ hh)
        rw [parentSlot_update_ne _ v' w _ hwv]
        exact hout w hwl
      · intro w hw hne
        rcases List.mem_cons.mp hw with hwv | hwl
        · rw [hwv]
          exact parentSlot_update_self _ v' _ hvlen1
        · have hwv : w ≠ v' := fun hh => hvnotin (hh ▸ hwl)
          rw [parentSlot_update_ne _ v' w _ hwv]
          exact hin w hwl hne
      · rw [parentSlot_update_ne _ v' _ _ (Ne.symm hvne)]
        exact hrslot
      · intro x rx
        have h1 := @rooted_update_compress (findSet f s p).1 v' (findSet f s p).2
          hvlen1 ((hiff v' (findSet f s p).2).mpr hvr) hvne x rx
        exact h1.trans (hiff x rx)

/-- After rewriting the parent slot of `v` to a root `rv` (either path
compression or a union), every vertex still has a duplicate-free in-range
parent chain. -/
theorem pathTo_update {s : Set} {v rv : Nat}
    (hvlen : v < s.canonicalElements.length)
    (hrvroot : parentOf s rv = none) (hvrv : v ≠ rv) (hrvn : rv < s.elements) :
    ∀ {w : Nat} {lw : List Nat}, PathTo s w lw → lw.Nodup → (∀ x ∈ lw, x < s.elements) →
      ∃ lw', PathTo { s with canonicalElements := s.canonicalElements.set v (Int.ofNat rv) } w lw' ∧
        lw'.Nodup ∧ (∀ x ∈ lw', x < s.elements) ∧ (∀ x ∈ lw', x ∈ lw ∨ x = rv) := by
  have hrvroot' : parentOf { s with canonicalElements := s.canonicalElements.set v (Int.ofNat rv) } rv = none := by
    rw [parentOf_update_ne s v rv _ (Ne.symm hvrv)]
    exact hrvroot
  intro w lw h
  induction h with
  | @root w' hroot =>
    intro _ hrange
    by_cases hwv : w' = v
    · have hvw := hwv.symm
      subst hvw
      refine ⟨[v, rv], ?_, ?_, ?_, ?_⟩
      · exact PathTo.up (parentOf_update_root s v rv hvlen) (PathTo.root hrvroot')
      · simp [hvrv]
      · intro x hx
        rcases List.mem_cons.mp hx with h1 | h1
        · subst h1; exact hrange _ (by simp)
        · rw [List.mem_singleton] at h1; subst h1; exact hrvn
      · intro x hx
        rcases List.mem_cons.mp hx with h1 | h1
        · subst h1; left; simp
        · rw [List.mem_singleton] at h1; subst h1; right; rfl
    · refine ⟨[w'], PathTo.root ?_, List.nodup_singleton _, ?_, ?_⟩
      · rw [parentOf_update_ne s v w' _ hwv]
        exact hroot
      · intro x hx; rw [List.mem_singleton] at hx; subst hx; exact hrange _ (by simp)
      · intro x hx; rw [List.mem_singleton] at hx; subst hx; left; simp
  | @up w' p lp hp hrecp ih =>
    intro hnd hrange
    by_cases hwv : w' = v
    · have hvw := hwv.symm
      subst hvw
      refine ⟨[v, rv], ?_, ?_, ?_, ?_⟩
      · exact PathTo.up (parentOf_update_root s v rv hvlen) (PathTo.root hrvroot')
      · simp [hvrv]
      · intro x hx
        rcases List.mem_cons.mp hx with h1 | h1
        · subst h1; exact hrange _ (by simp)
        · rw [List.mem_singleton] at h1; subst h1; exact hrvn
      · intro x hx
        rcases List.mem_cons.mp hx with h1 | h1
        · subst h1; left; simp
        · rw [List.mem_singleton] at h1; subst h1; right; rfl
    · have hnd' : lp.Nodup := (List.nodup_cons.mp hnd).2
      have hwnotin : w' ∉ lp := (List.nodup_cons.mp hnd).1
      have hrange' : ∀ x ∈ lp, x < s.elements := by
        intro x hx; exact hrange x (List.mem_cons_of_mem _ hx)
      obtain ⟨lp', hpath', hnd'', hrange'', hsub⟩ := ih hnd' hrange'
      have hwrv : w' ≠ rv := by
        intro hh
        have hvw := hh.symm
        subst hvw
        rw [hrvroot] at hp
        cases hp
      refine ⟨w' :: lp', ?_, ?_, ?_, ?_⟩
      · refine PathTo.up ?_ hpath'
        rw [parentOf_update_ne s v w' _ hwv]
        exact hp
      · rw [List.nodup_cons]
        refine ⟨?_, hnd''⟩
        intro hmem
        rcases hsub w' hmem with h1 | h1
        · exact hwnotin h1
        · exact hwrv h1
      · intro x hx
        rcases List.mem_cons.mp hx with h1 | h1
        · subst h1; exact hrange _ (by simp)
        · exact hrange'' x h1
      · intro x hx
        rcases List.mem_cons.mp hx with h1 | h1
        · subst h1; left; simp
        · rcases hsub x h1 with h2 | h2
          · left; exact List.mem_cons_of_mem _ h2
          · right; exact h2

theorem parentOf_congr {s s' : Set} {w : Nat} (h : parentSlot s' w = parentSlot s w) :
    parentOf s' w = parentOf s w := by
  unfold parentOf
  rw [h]

theorem parentOf_of_slot_ofNat {s : Set} {w r : Nat} (h : parentSlot s w = Int.ofNat r) :
    parentOf s w = some r := by
  unfold parentOf
  rw [h]
  have h1 : (Int.ofNat r) ≠ UNSET_ELEMENT := by
    simp only [UNSET_ELEMENT, Int.ofNat_eq_coe]
    omega
  rw [if_neg h1]
  simp

/-- Path rebuilding: if in `s'` every vertex either keeps its old parent or
now points directly at a fixed root `r`, every old duplicate-free in-range
parent chain yields one in `s'`. -/
theorem pathTo_multiJump {s s' : Set} {r : Nat}
    (hroot' : parentOf s' r = none) (hrn : r < s.elements)
    (hcases : ∀ w, parentOf s' w = parentOf s w ∨ parentOf s' w = some r) :
    ∀ {w : Nat} {lw : List Nat}, PathTo s w lw → lw.Nodup → (∀ x ∈ lw, x < s.elements) →
      ∃ lw', PathTo s' w lw' ∧ lw'.Nodup ∧ (∀ x ∈ lw', x < s.elements) ∧
        (∀ x ∈ lw', x ∈ lw ∨ x = r) := by
  intro w lw h
  induction h with
  | @root w' hroot =>
    intro _ hrange
    rcases hcases w' with hsame | hjump
    · refine ⟨[w'], PathTo.root (by rw [hsame]; exact hroot), List.nodup_singleton _, ?_, ?_⟩
      · intro x hx; rw [List.mem_singleton] at hx; subst hx; exact hrange _ (by simp)
      · intro x hx; rw [List.mem_singleton] at hx; subst hx; left; simp
    · have hwr : w' ≠ r := by
        intro hh
        rw [hh, hroot'] at hjump
        cases hjump
      refine ⟨[w', r], PathTo.up hjump (PathTo.root hroot'), by simp [hwr], ?_, ?_⟩
      · intro x hx
        rcases List.mem_cons.mp hx with h1 | h1
        · subst h1; exact hrange _ (by simp)
        · rw [List.mem_singleton] at h1; subst h1; exact hrn
      · intro x hx
        rcases List.mem_cons.mp hx with h1 | h1
        · subst h1; left; simp
        · rw [List.mem_singleton] at h1; subst h1; right; rfl
  | @up w' p lp hp hrecp ih =>
    intro hnd hrange
    rcases hcases w' with hsame | hjump
    · have hnd' : lp.Nodup := (List.nodup_cons.mp hnd).2
      have hwnotin : w' ∉ lp := (List.nodup_cons.mp hnd).1
      have hrange' : ∀ x ∈ lp, x < s.elements := by
        intro x hx; exact hrange x (List.mem_cons_of_mem _ hx)
      obtain ⟨lp', hpath', hnd'', hrange'', hsub⟩ := ih hnd' hrange'
      have hwr : w' ≠ r := by
        intro hh
        have h1 : parentOf s w' = none := by
          rw [hh] at hsame ⊢
          rw [← hsame]
          exact hroot'
        rw [h1] at hp
        cases hp
      refine ⟨w' :: lp', PathTo.up (by rw [hsame]; exact hp) hpath', ?_, ?_, ?_⟩
      · rw [List.nodup_cons]
        refine ⟨?_, hnd''⟩
        intro hmem
        rcases hsub w' hmem with h1 | h1
        · exact hwnotin h1
        · exact hwr h1
      · intro x hx
        rcases List.mem_cons.mp hx with h1 | h1
        · subst h1; exact hrange _ (by simp)
        · exact hrange'' x h1
      · intro x hx
        rcases List.mem_cons.mp hx with h1 | h1
        · subst h1; left; simp
        · rcases hsub x h1 with h2 | h2
          · left; exact List.mem_cons_of_mem _ h2
          · right; exact h2
    · have hwr : w' ≠ r := by
        intro hh
        rw [hh, hroot'] at hjump
        cases hjump
      refine ⟨[w', r], PathTo.up hjump (PathTo.root hroot'), by simp [hwr], ?_, ?_⟩
      · intro x hx
        rcases List.mem_cons.mp hx with h1 | h1
        · subst h1; exact hrange _ (by simp)
        · rw [List.mem_singleton] at h1; subst h1; exact hrn
      · intro x hx
        rcases List.mem_cons.mp hx with h1 | h1
        · subst h1; left; simp
        · rw [List.mem_singleton] at h1; subst h1; right; rfl

/-- A single parent-slot rewrite to a root preserves well-formedness. -/
theorem WF_update {s : Set} (hWF : WF s) {v rv : Nat}
    (hvn : v < s.elements) (hrvroot : parentOf s rv = none) (hvrv : v ≠ rv)
    (hrvn : rv < s.elements) :
    WF { s with canonicalElements := s.canonicalElements.set v (Int.ofNat rv) } := by
  obtain ⟨hl1, hl2, hslots, hpaths⟩ := hWF
  have hvlen : v < s.canonicalElements.length := by rw [hl1]; exact hvn
  refine ⟨by simpa [List.length_set] using hl1, hl2, ?_, ?_⟩
  · intro w hw
    by_cases hwv : w = v
    · subst hwv
      right
      rw [parentSlot_update_self s w _ hvlen]
      constructor
      · simp
      · simpa using hrvn
    · rw [parentSlot_update_ne s v w _ hwv]
      exact hslots w hw
  · intro w hw
    obtain ⟨lw, hpath, hnd, hrange⟩ := hpaths w hw
    obtain ⟨lw', h1, h2, h3, _⟩ := pathTo_update hvlen hrvroot hvrv hrvn hpath hnd hrange
    exact ⟨lw', h1, h2, h3⟩

/-- The bundled consequences of a `findSet` call on a well-formed forest with
enough fuel. -/
theorem findSet_wf {s : Set} (hWF : WF s) {v : Nat} (hv : v < s.elements) {fuel : Nat}
    (hfuel : s.elements ≤ fuel) :
    Rooted s v (findSet fuel s v).2 ∧
    (findSet fuel s v).2 < s.elements ∧
    WF (findSet fuel s v).1 ∧
    (findSet fuel s v).1.elements = s.elements ∧
    (findSet fuel s v).1.rank = s.rank ∧
    (∀ x rx, Rooted (findSet fuel s v).1 x rx ↔ Rooted s x rx) ∧
    (∀ w, parentOf (findSet fuel s v).1 w = parentOf s w ∨
      parentOf (findSet fuel s v).1 w = some (findSet fuel s v).2) ∧
    (∀ w, parentOf (findSet fuel s v).1 w = none ↔ parentOf s w = none) := by
  obtain ⟨hl1, hl2, hslots, hpaths⟩ := hWF
  obtain ⟨l, hpath, hnd, hrange⟩ := hpaths v hv
  have hrangece : ∀ w ∈ l, w < s.canonicalElements.length := by
    intro w hw; rw [hl1]; exact hrange w hw
  have hlfuel : l.length ≤ fuel := le_trans (pathLen_le hnd hrange) hfuel
  obtain ⟨hroot, helems, hrank, hlen1, hout, hin, hrslot, hiff⟩ :=
    findSet_spec hpath hnd hrangece fuel hlfuel
  obtain ⟨rl, hlast, hrl, hrlroot⟩ := pathTo_rooted hpath
  have hrr : rl = (findSet fuel s v).2 := rooted_unique hrl hroot
  have hrmem : (findSet fuel s v).2 ∈ l := by
    rw [← hrr]
    exact List.mem_of_mem_getLast? hlast
  have hrn : (findSet fuel s v).2 < s.elements := hrange _ hrmem
  have hrootnone : parentOf s (findSet fuel s v).2 = none := by rw [← hrr]; exact hrlroot
  have hroot' : parentOf (findSet fuel s v).1 (findSet fuel s v).2 = none := by
    rw [parentOf_congr hrslot]
    exact hrootnone
  have hcases : ∀ w, parentOf (findSet fuel s v).1 w = parentOf s w ∨
      parentOf (findSet fuel s v).1 w = some (findSet fuel s v).2 := by
    intro w
    by_cases hwl : w ∈ l
    · by_cases hwr : w = (findSet fuel s v).2
      · subst hwr
        left
        exact parentOf_congr hrslot
      · right
        exact parentOf_of_slot_ofNat (hin w hwl hwr)
    · left
      exact parentOf_congr (hout w hwl)
  have hnoneiff : ∀ w, parentOf (findSet fuel s v).1 w = none ↔ parentOf s w = none := by
    intro w
    by_cases hwl : w ∈ l
    · by_cases hwr : w = (findSet fuel s v).2
      · rw [hwr, parentOf_congr hrslot]
      · rw [parentOf_of_slot_ofNat (hin w hwl hwr)]
        have hwroot : Rooted s w (findSet fuel s v).2 :=
          pathTo_mem_rooted hpath hroot w hwl
        constructor
        · intro hh; cases hh
        · intro hh
          exact absurd (rooted_of_isRoot hh hwroot).symm hwr
    · rw [parentOf_congr (hout w hwl)]
  refine ⟨hroot, hrn, ?_, helems, hrank, hiff, hcases, hnoneiff⟩
  refine ⟨?_, ?_, ?_, ?_⟩
  · rw [hlen1, hl1, helems]
  · rw [hrank, helems]
    exact hl2
  · simp only [helems]
    intro w hw
    by_cases hwl : w ∈ l
    · by_cases hwr : w = (findSet fuel s v).2
      · subst hwr
        rw [hrslot]
        exact hslots _ hw
      · right
        rw [hin w hwl hwr]
        constructor
        · simp
        · simpa using hrn
    · rw [hout w hwl]
      exact hslots w hw
  · simp only [helems]
    intro w hw
    obtain ⟨lw, hpathw, hndw, hrangew⟩ := hpaths w hw
    obtain ⟨lw', h1, h2, h3, _⟩ := pathTo_multiJump hroot' hrn hcases hpathw hndw hrangew
    exact ⟨lw', h1, h2, h3⟩

theorem pathTo_rank_irrel {s : Set} {rk : List Int} {v : Nat} {l : List Nat} :
    PathTo { s with rank := rk } v l ↔ PathTo s v l := by
  have hpar : ∀ w, parentOf { s with rank := rk } w = parentOf s w := fun w => rfl
  constructor
  · intro h
    induction h with
    | root hroot => exact PathTo.root (by rw [← hpar]; exact hroot)
    | up hp _ ih => exact PathTo.up (by rw [← hpar]; exact hp) ih
  · intro h
    induction h with
    | root hroot => exact PathTo.root (by rw [hpar]; exact hroot)
    | up hp _ ih => exact PathTo.up (by rw [hpar]; exact hp) ih

theorem rooted_rank_irrel {s : Set} {rk : List Int} {v r : Nat} :
    Rooted { s with rank := rk } v r ↔ Rooted s v r := by
  have hpar : ∀ w, parentOf { s with rank := rk } w = parentOf s w := fun w => rfl
  constructor
  · intro h
    induction h with
    | root hroot => exact Rooted.root (by rw [← hpar]; exact hroot)
    | up hp _ ih => exact Rooted.up (by rw [← hpar]; exact hp) ih
  · intro h
    induction h with
    | root hroot => exact Rooted.root (by rw [hpar]; exact hroot)
    | up hp _ ih => exact Rooted.up (by rw [hpar]; exact hp) ih

theorem WF_rank_irrel {s : Set} {rk : List Int} (hlen : rk.length = s.elements)
    (hWF : WF s) : WF { s with rank := rk } := by
  obtain ⟨hl1, _, hslots, hpaths⟩ := hWF
  refine ⟨hl1, hlen, hslots, ?_⟩
  intro v hv
  obtain ⟨l, h1, h2, h3⟩ := hpaths v hv
  exact ⟨l, pathTo_rank_irrel.mpr h1, h2, h3⟩

theorem rootD_rooted {s : Set} (hWF : WF s) {v : Nat} (hv : v < s.elements) :
    Rooted s v (rootD s v) :=
  (findSet_wf hWF hv le_rfl).1

theorem rootD_lt {s : Set} (hWF : WF s) {v : Nat} (hv : v < s.elements) :
    rootD s v < s.elements :=
  (findSet_wf hWF hv le_rfl).2.1

theorem rootD_eq_of_rooted {s : Set} (hWF : WF s) {v r : Nat} (hv : v < s.elements)
    (h : Rooted s v r) : rootD s v = r :=
  rooted_unique (rootD_rooted hWF hv) h

theorem findSet_snd_eq_rootD {s : Set} (hWF : WF s) {v : Nat} (hv : v < s.elements)
    {fuel : Nat} (hfuel : s.elements ≤ fuel) :
    (findSet fuel s v).2 = rootD s v :=
  (rootD_eq_of_rooted hWF hv (findSet_wf hWF hv hfuel).1).symm

theorem rootD_isRoot {s : Set} (hWF : WF s) {v : Nat} (hv : v < s.elements) :
    parentOf s (rootD s v) = none :=
  rooted_root_isRoot (rootD_rooted hWF hv)

theorem mem_rootsFinset {s : Set} {w : Nat} :
    w ∈ rootsFinset s ↔ w < s.elements ∧ parentOf s w = none := by
  unfold rootsFinset
  rw [Finset.mem_filter, Finset.mem_range, parentOf_eq_none_iff]

theorem rootsFinset_congr {s s' : Set} (helems : s'.elements = s.elements)
    (hnone : ∀ w, parentOf s' w = none ↔ parentOf s w = none) :
    rootsFinset s' = rootsFinset s := by
  ext w
  rw [mem_rootsFinset, mem_rootsFinset, helems, hnone]

theorem rootsFinset_update {s : Set} {v rv : Nat} (hv : v < s.canonicalElements.length) :
    rootsFinset { s with canonicalElements := s.canonicalElements.set v (Int.ofNat rv) } =
      (rootsFinset s).erase v := by
  ext w
  rw [mem_rootsFinset, Finset.mem_erase, mem_rootsFinset]
  by_cases hwv : w = v
  · subst hwv
    rw [parentOf_update_root s w rv hv]
    simp
  · rw [parentOf_update_ne s v w _ hwv]
    constructor
    · intro ⟨h1, h2⟩
      exact ⟨hwv, h1, h2⟩
    · intro ⟨_, h1, h2⟩
      exact ⟨h1, h2⟩

theorem rootsFinset_rank_irrel {s : Set} {rk : List Int} :
    rootsFinset { s with rank := rk } = rootsFinset s := rfl

theorem unionSet_eq_same {fuel : Nat} {s : Set} {a b : Nat}
    (h : (findSet fuel s a).2 = (findSet fuel (findSet fuel s a).1 b).2) :
    unionSet fuel s a b = (findSet fuel (findSet fuel s a).1 b).1 := by
  simp only [unionSet]
  rw [if_pos h]

theorem unionSet_eq_lt {fuel : Nat} {s : Set} {a b : Nat}
    (h : (findSet fuel s a).2 ≠ (findSet fuel (findSet fuel s a).1 b).2)
    (hlt : (findSet fuel (findSet fuel s a).1 b).1.rank.getD (findSet fuel s a).2 0 <
      (findSet fuel (findSet fuel s a).1 b).1.rank.getD (findSet fuel (findSet fuel s a).1 b).2 0) :
    unionSet fuel s a b =
      { (findSet fuel (findSet fuel s a).1 b).1 with
        canonicalElements := (findSet fuel (findSet fuel s a).1 b).1.canonicalElements.set
          (findSet fuel s a).2 (Int.ofNat (findSet fuel (findSet fuel s a).1 b).2) } := by
  simp only [unionSet]
  rw [if_neg h, if_pos hlt]

theorem unionSet_eq_gt {fuel : Nat} {s : Set} {a b : Nat}
    (h : (findSet fuel s a).2 ≠ (findSet fuel (findSet fuel s a).1 b).2)
    (hnlt : ¬ (findSet fuel (findSet fuel s a).1 b).1.rank.getD (findSet fuel s a).2 0 <
      (findSet fuel (findSet fuel s a).1 b).1.rank.getD (findSet fuel (findSet fuel s a).1 b).2 0)
    (hgt : (findSet fuel (findSet fuel s a).1 b).1.rank.getD (findSet fuel (findSet fuel s a).1 b).2 0 <
      (findSet fuel (findSet fuel s a).1 b).1.rank.getD (findSet fuel s a).2 0) :
    unionSet fuel s a b =
      { (findSet fuel (findSet fuel s a).1 b).1 with
        canonicalElements := (findSet fuel (findSet fuel s a).1 b).1.canonicalElements.set
          (findSet fuel (findSet fuel s a).1 b).2 (Int.ofNat (findSet fuel s a).2) } := by
  simp only [unionSet]
  rw [if_neg h, if_neg hnlt, if_pos hgt]

theorem unionSet_eq_tie {fuel : Nat} {s : Set} {a b : Nat}
    (h : (findSet fuel s a).2 ≠ (findSet fuel (findSet fuel s a).1 b).2)
    (hnlt : ¬ (findSet fuel (findSet fuel s a).1 b).1.rank.getD (findSet fuel s a).2 0 <
      (findSet fuel (findSet fuel s a).1 b).1.rank.getD (findSet fuel (findSet fuel s a).1 b).2 0)
    (hngt : ¬ (findSet fuel (findSet fuel s a).1 b).1.rank.getD (findSet fuel (findSet fuel s a).1 b).2 0 <
      (findSet fuel (findSet fuel s a).1 b).1.rank.getD (findSet fuel s a).2 0) :
    unionSet fuel s a b =
      { (findSet fuel (findSet fuel s a).1 b).1 with
        canonicalElements := (findSet fuel (findSet fuel s a).1 b).1.canonicalElements.set
          (findSet fuel s a).2 (Int.ofNat (findSet fuel (findSet fuel s a).1 b).2)
        rank := (findSet fuel (findSet fuel s a).1 b).1.rank.set
          (findSet fuel (findSet fuel s a).1 b).2
          ((findSet fuel (findSet fuel s a).1 b).1.rank.getD (findSet fuel s a).2 0 + 1) } := by
  simp only [unionSet]
  rw [if_neg h, if_neg hnlt, if_neg hngt]

/-- Full behaviour of `unionSet` on a well-formed forest: a no-op on the
partition when the two canonical elements agree (though the embedded finds may
compress paths), and otherwise union by rank exactly as `mst.c` implements it:
the strictly lower-ranked root is attached below the strictly higher-ranked
one with all ranks unchanged, and on a rank tie `root(b)` becomes the parent
of `root(a)` and its rank grows by one. -/
theorem unionSet_spec {s : Set} (hWF : WF s) {a b : Nat} (ha : a < s.elements)
    (hb : b < s.elements) {fuel : Nat} (hfuel : s.elements ≤ fuel) :
    WF (unionSet fuel s a b) ∧
    (unionSet fuel s a b).elements = s.elements ∧
    (rootD s a = rootD s b →
      (∀ x rx, Rooted (unionSet fuel s a b) x rx ↔ Rooted s x rx) ∧
      (unionSet fuel s a b).rank = s.rank ∧
      rootsFinset (unionSet fuel s a b) = rootsFinset s) ∧
    (rootD s a ≠ rootD s b →
      ((s.rank.getD (rootD s a) 0 < s.rank.getD (rootD s b) 0 →
        parentSlot (unionSet fuel s a b) (rootD s a) = Int.ofNat (rootD s b) ∧
        (unionSet fuel s a b).rank = s.rank ∧
        rootsFinset (unionSet fuel s a b) = (rootsFinset s).erase (rootD s a) ∧
        (∀ x rx, Rooted (unionSet fuel s a b) x rx ↔
          ((Rooted s x (rootD s a) ∧ rx = rootD s b) ∨ (Rooted s x rx ∧ rx ≠ rootD s a)))) ∧
      (s.rank.getD (rootD s b) 0 < s.rank.getD (rootD s a) 0 →
        parentSlot (unionSet fuel s a b) (rootD s b) = Int.ofNat (rootD s a) ∧
        (unionSet fuel s a b).rank = s.rank ∧
        rootsFinset (unionSet fuel s a b) = (rootsFinset s).erase (rootD s b) ∧
        (∀ x rx, Rooted (unionSet fuel s a b) x rx ↔
          ((Rooted s x (rootD s b) ∧ rx = rootD s a) ∨ (Rooted s x rx ∧ rx ≠ rootD s b)))) ∧
      (s.rank.getD (rootD s a) 0 = s.rank.getD (rootD s b) 0 →
        parentSlot (unionSet fuel s a b) (rootD s a) = Int.ofNat (rootD s b) ∧
        (unionSet fuel s a b).rank =
          s.rank.set (rootD s b) (s.rank.getD (rootD s a) 0 + 1) ∧
        rootsFinset (unionSet fuel s a b) = (rootsFinset s).erase (rootD s a) ∧
        (∀ x rx, Rooted (unionSet fuel s a b) x rx ↔
          ((Rooted s x (rootD s a) ∧ rx = rootD s b) ∨ (Rooted s x rx ∧ rx ≠ rootD s a)))))) := by
  obtain ⟨h1root, h1lt, h1wf, h1elems, h1rank, h1iff, h1cases, h1none⟩ := findSet_wf hWF ha hfuel
  have hb1 : b < (findSet fuel s a).1.elements := by rw [h1elems]; exact hb
  have hfuel1 : (findSet fuel s a).1.elements ≤ fuel := by rw [h1elems]; exact hfuel
  obtain ⟨h2root, h2lt, h2wf, h2elems, h2rank, h2iff, h2cases, h2none⟩ := findSet_wf h1wf hb1 hfuel1
  have hr1 : (findSet fuel s a).2 = rootD s a := findSet_snd_eq_rootD hWF ha hfuel
  have hr2s : Rooted s b (findSet fuel (findSet fuel s a).1 b).2 := (h1iff _ _).mp h2root
  have hr2 : (findSet fuel (findSet fuel s a).1 b).2 = rootD s b :=
    (rootD_eq_of_rooted hWF hb hr2s).symm
  have hs2elems : (findSet fuel (findSet fuel s a).1 b).1.elements = s.elements := by
    rw [h2elems, h1elems]
  have hs2rank : (findSet fuel (findSet fuel s a).1 b).1.rank = s.rank := by
    rw [h2rank, h1rank]
  have hsiff : ∀ x rx, Rooted (findSet fuel (findSet fuel s a).1 b).1 x rx ↔ Rooted s x rx :=
    fun x rx => (h2iff x rx).trans (h1iff x rx)
  have hsnone : ∀ w, parentOf (findSet fuel (findSet fuel s a).1 b).1 w = none ↔
      parentOf s w = none := fun w => (h2none w).trans (h1none w)
  have hralt : rootD s a < s.elements := rootD_lt hWF ha
  have hrblt : rootD s b < s.elements := rootD_lt hWF hb
  have hcelen : (findSet fuel (findSet fuel s a).1 b).1.canonicalElements.length = s.elements := by
    rw [h2wf.1, hs2elems]
  have hranklen : (findSet fuel (findSet fuel s a).1 b).1.rank.length = s.elements := by
    rw [h2wf.2.1, hs2elems]
  have hroota2 : parentOf (findSet fuel (findSet fuel s a).1 b).1 (rootD s a) = none :=
    (hsnone _).mpr (rootD_isRoot hWF ha)
  have hrootb2 : parentOf (findSet fuel (findSet fuel s a).1 b).1 (rootD s b) = none :=
    (hsnone _).mpr (rootD_isRoot hWF hb)
  by_cases hc : rootD s a = rootD s b
  · have hcnd : (findSet fuel s a).2 = (findSet fuel (findSet fuel s a).1 b).2 := by
      rw [hr1, hr2]; exact hc
    rw [unionSet_eq_same hcnd]
    refine ⟨h2wf, hs2elems, fun _ => ⟨hsiff, hs2rank, rootsFinset_congr hs2elems hsnone⟩,
      fun hne => absurd hc hne⟩
  · have hcnd : (findSet fuel s a).2 ≠ (findSet fuel (findSet fuel s a).1 b).2 := by
      rw [hr1, hr2]; exact hc
    rcases lt_trichotomy (s.rank.getD (rootD s a) 0) (s.rank.getD (rootD s b) 0) with
      hlt | heq | hgt
    · have hltcond : (findSet fuel (findSet fuel s a).1 b).1.rank.getD (findSet fuel s a).2 0 <
          (findSet fuel (findSet fuel s a).1 b).1.rank.getD
            (findSet fuel (findSet fuel s a).1 b).2 0 := by
        rw [hs2rank, hr1, hr2]; exact hlt
      rw [unionSet_eq_lt hcnd hltcond, hr1, hr2]
      have hvlen : rootD s a < (findSet fuel (findSet fuel s a).1 b).1.canonicalElements.length := by
        rw [hcelen]; exact hralt
      refine ⟨?_, ?_, fun hh => absurd hh hc, fun _ => ⟨fun _ => ?_, fun hgt' => ?_, fun heq' => ?_⟩⟩
      · refine WF_update h2wf ?_ hrootb2 hc ?_
        · rw [hs2elems]; exact hralt
        · rw [hs2elems]; exact hrblt
      · exact hs2elems
      · refine ⟨parentSlot_update_self _ _ _ hvlen, hs2rank, ?_, ?_⟩
        · rw [rootsFinset_update hvlen, rootsFinset_congr hs2elems hsnone]
        · intro x rx
          rw [rooted_update_union hvlen hroota2 hrootb2 hc x rx]
          simp only [hsiff]
      · exact absurd hgt' (by omega)
      · exact absurd heq' (by omega)
    · have hnlt : ¬ (findSet fuel (findSet fuel s a).1 b).1.rank.getD (findSet fuel s a).2 0 <
          (findSet fuel (findSet fuel s a).1 b).1.rank.getD
            (findSet fuel (findSet fuel s a).1 b).2 0 := by
        rw [hs2rank, hr1, hr2]; omega
      have hngt : ¬ (findSet fuel (findSet fuel s a).1 b).1.rank.getD
          (findSet fuel (findSet fuel s a).1 b).2 0 <
          (findSet fuel (findSet fuel s a).1 b).1.rank.getD (findSet fuel s a).2 0 := by
        rw [hs2rank, hr1, hr2]; omega
      rw [unionSet_eq_tie hcnd hnlt hngt, hr1, hr2]
      have hvlen : rootD s a < (findSet fuel (findSet fuel s a).1 b).1.canonicalElements.length := by
        rw [hcelen]; exact hralt
      have hrec : ({ (findSet fuel (findSet fuel s a).1 b).1 with
          canonicalElements := (findSet fuel (findSet fuel s a).1 b).1.canonicalElements.set
            (rootD s a) (Int.ofNat (rootD s b))
          rank := (findSet fuel (findSet fuel s a).1 b).1.rank.set (rootD s b)
            ((findSet fuel (findSet fuel s a).1 b).1.rank.getD (rootD s a) 0 + 1) } : Set) =
          { { (findSet fuel (findSet fuel s a).1 b).1 with
              canonicalElements := (findSet fuel (findSet fuel s a).1 b).1.canonicalElements.set
                (rootD s a) (Int.ofNat (rootD s b)) } with
            rank := (findSet fuel (findSet fuel s a).1 b).1.rank.set (rootD s b)
              ((findSet fuel (findSet fuel s a).1 b).1.rank.getD (rootD s a) 0 + 1) } := rfl
      rw [hrec]
      refine ⟨?_, ?_, fun hh => absurd hh hc, fun _ => ⟨fun hlt' => ?_, fun hgt' => ?_, fun _ => ?_⟩⟩
      · refine WF_rank_irrel ?_ (WF_update h2wf ?_ hrootb2 hc ?_)
        · simp only [List.length_set]
          rw [hranklen]
          exact hs2elems.symm
        · rw [hs2elems]; exact hralt
        · rw [hs2elems]; exact hrblt
      · exact hs2elems
      · exact absurd hlt' (by omega)
      · exact absurd hgt' (by omega)
      · refine ⟨parentSlot_update_self _ _ _ hvlen, ?_, ?_, ?_⟩
        · show (findSet fuel (findSet fuel s a).1 b).1.rank.set (rootD s b)
            ((findSet fuel (findSet fuel s a).1 b).1.rank.getD (rootD s a) 0 + 1) =
            s.rank.set (rootD s b) (s.rank.getD (rootD s a) 0 + 1)
          rw [hs2rank]
        · rw [rootsFinset_rank_irrel, rootsFinset_update hvlen,
            rootsFinset_congr hs2elems hsnone]
        · intro x rx
          rw [rooted_rank_irrel.trans (rooted_update_union hvlen hroota2 hrootb2 hc x rx)]
          simp only [hsiff]
    · have hnlt : ¬ (findSet fuel (findSet fuel s a).1 b).1.rank.getD (findSet fuel s a).2 0 <
          (findSet fuel (findSet fuel s a).1 b).1.rank.getD
            (findSet fuel (findSet fuel s a).1 b).2 0 := by
        rw [hs2rank, hr1, hr2]; omega
      have hgtcond : (findSet fuel (findSet fuel s a).1 b).1.rank.getD
          (findSet fuel (findSet fuel s a).1 b).2 0 <
          (findSet fuel (findSet fuel s a).1 b).1.rank.getD (findSet fuel s a).2 0 := by
        rw [hs2rank, hr1, hr2]; exact hgt
      rw [unionSet_eq_gt hcnd hnlt hgtcond, hr1, hr2]
      have hvlen : rootD s b < (findSet fuel (findSet fuel s a).1 b).1.canonicalElements.length := by
        rw [hcelen]; exact hrblt
      refine ⟨?_, ?_, fun hh => absurd hh hc, fun _ => ⟨fun hlt' => ?_, fun _ => ?_, fun heq' => ?_⟩⟩
      · refine WF_update h2wf ?_ hroota2 (Ne.symm hc) ?_
        · rw [hs2elems]; exact hrblt
        · rw [hs2elems]; exact hralt
      · exact hs2elems
      · exact absurd hlt' (by omega)
      · refine ⟨parentSlot_update_self _ _ _ hvlen, hs2rank, ?_, ?_⟩
        · rw [rootsFinset_update hvlen, rootsFinset_congr hs2elems hsnone]
        · intro x rx
          rw [rooted_update_union hvlen hrootb2 hroota2 (Ne.symm hc) x rx]
          simp only [hsiff]
      · exact absurd heq' (by omega)

theorem pathTo_unique {s : Set} {v : Nat} {l l' : List Nat} (h : PathTo s v l)
    (h' : PathTo s v l') : l = l' := by
  induction h generalizing l' with
  | root hroot =>
    cases h' with
    | root _ => rfl
    | up hp _ => rw [hroot] at hp; cases hp
  | up hp _ ih =>
    cases h' with
    | root hroot => rw [hroot] at hp; cases hp
    | up hp' hl' =>
      rw [hp] at hp'
      cases hp'
      rw [ih hl']

theorem chainD_pathTo : ∀ {fuel : Nat} {s : Set} {v : Nat} {l : List Nat},
    chainD fuel s v = some l → PathTo s v l := by
  intro fuel
  induction fuel with
  | zero => intro s v l h; cases h
  | succ f ih =>
    intro s v l h
    unfold chainD at h
    split at h
    · rename_i hp
      cases h
      exact PathTo.root hp
    · rename_i p hp
      cases hc : chainD f s p with
      | none => rw [hc] at h; cases h
      | some lp =>
        rw [hc] at h
        simp only [Option.map_some'] at h
        cases h
        exact PathTo.up hp (ih hc)

theorem wfB_WF {s : Set} (h : wfB s = true) : WF s := by
  unfold wfB at h
  simp only [Bool.and_eq_true, beq_iff_eq, List.all_eq_true] at h
  obtain ⟨⟨hl1, hl2⟩, hall⟩ := h
  refine ⟨hl1, hl2, ?_, ?_⟩
  · intro v hv
    have hvmem : v ∈ List.range s.elements := List.mem_range.mpr hv
    have h1 := (hall v hvmem).1
    rcases Bool.or_eq_true_iff.mp h1 with h2 | h2
    · left; exact of_decide_eq_true h2
    · right
      obtain ⟨h3, h4⟩ := Bool.and_eq_true_iff.mp h2
      exact ⟨of_decide_eq_true h3, of_decide_eq_true h4⟩
  · intro v hv
    have hvmem : v ∈ List.range s.elements := List.mem_range.mpr hv
    have h1 := (hall v hvmem).2
    cases hc : chainD (s.elements + 1) s v with
    | none => rw [hc] at h1; cases h1
    | some l =>
      rw [hc] at h1
      obtain ⟨h3, h4⟩ := Bool.and_eq_true_iff.mp h1
      refine ⟨l, chainD_pathTo hc, of_decide_eq_true h3, ?_⟩
      intro w hw
      have := List.all_eq_true.mp h4 w hw
      exact of_decide_eq_true this

/-! ## Claim theorems: C4, C5 -/

/-- C5: on a well-formed forest, `findSet x` (given enough fuel for its parent
chain) returns the canonical root of `x`'s component, reassigns the parent
slot of every traversed element other than the root itself directly to that
root (full path compression), leaves the root's slot and every slot off the
traversed path untouched, and leaves the entire rank array (and the element
count) unchanged. -/
theorem claim_C5_find_compresses {s : Set} (hWF : WF s) {x : Nat} (hx : x < s.elements)
    {fuel : Nat} (hfuel : s.elements ≤ fuel) :
    Rooted s x (findSet fuel s x).2 ∧
    parentOf s (findSet fuel s x).2 = none ∧
    (findSet fuel s x).1.rank = s.rank ∧
    (findSet fuel s x).1.elements = s.elements ∧
    (∀ l, PathTo s x l →
      (∀ w ∈ l, w ≠ (findSet fuel s x).2 →
        parentSlot (findSet fuel s x).1 w = Int.ofNat (findSet fuel s x).2) ∧
      (∀ w, w ∉ l → parentSlot (findSet fuel s x).1 w = parentSlot s w)) ∧
    parentSlot (findSet fuel s x).1 (findSet fuel s x).2 =
      parentSlot s (findSet fuel s x).2 := by
  obtain ⟨hl1, hl2, hslots, hpaths⟩ := hWF
  obtain ⟨l0, hpath0, hnd0, hrange0⟩ := hpaths x hx
  have hrangece : ∀ w ∈ l0, w < s.canonicalElements.length := by
    intro w hw; rw [hl1]; exact hrange0 w hw
  have hlfuel : l0.length ≤ fuel := le_trans (pathLen_le hnd0 hrange0) hfuel
  obtain ⟨hroot, helems, hrank, _, hout, hin, hrslot, _⟩ :=
    findSet_spec hpath0 hnd0 hrangece fuel hlfuel
  refine ⟨hroot, rooted_root_isRoot hroot, hrank, helems, ?_, hrslot⟩
  intro l hl
  have : l = l0 := pathTo_unique hl hpath0
  subst this
  exact ⟨hin, hout⟩

theorem claim_C5_find_compresses_witness :
    Rooted (⟨3, [1, 2, -1], [0, 0, 0]⟩ : Set) 0
      (findSet 3 (⟨3, [1, 2, -1], [0, 0, 0]⟩ : Set) 0).2 ∧
    (findSet 3 (⟨3, [1, 2, -1], [0, 0, 0]⟩ : Set) 0).1.rank = [0, 0, 0] ∧
    (findSet 3 (⟨3, [1, 2, -1], [0, 0, 0]⟩ : Set) 0).1.canonicalElements = [2, 2, -1] := by
  have h := @claim_C5_find_compresses ⟨3, [1, 2, -1], [0, 0, 0]⟩
    (wfB_WF (by decide)) 0 (by decide) 3 (by decide)
  exact ⟨h.1, h.2.2.1, by decide⟩

/-- C4 counterexample: in the forest with parent chain `0 → 1 → 2`, the call
`unionSet 0 2` finds equal canonical roots, yet it is not a no-op: the
embedded path compression rewrites the parent slot of `0` from `1` to `2`. -/
theorem claim_C4_counterexample :
    rootD (⟨3, [1, 2, -1], [0, 0, 0]⟩ : Set) 0 =
      rootD (⟨3, [1, 2, -1], [0, 0, 0]⟩ : Set) 2 ∧
    unionSet 3 (⟨3, [1, 2, -1], [0, 0, 0]⟩ : Set) 0 2 ≠
      (⟨3, [1, 2, -1], [0, 0, 0]⟩ : Set) := by
  decide

/-- C4 (amended): `unionSet a b` on a well-formed forest leaves the partition
and the whole rank array unchanged when `a` and `b` already share a canonical
root (though the embedded `findSet` calls may still compress traversed parent
slots, so the state need not be bit-identical); otherwise it attaches the root
of strictly lower rank under the root of strictly higher rank leaving all
ranks unchanged, and when the two roots have equal rank it makes `root(b)` the
new parent of `root(a)` and increments `rank(root(b))` by exactly 1. -/
theorem claim_C4_union_by_rank {s : Set} (hWF : WF s) {a b : Nat} (ha : a < s.elements)
    (hb : b < s.elements) {fuel : Nat} (hfuel : s.elements ≤ fuel) :
    (rootD s a = rootD s b →
      (∀ x rx, Rooted (unionSet fuel s a b) x rx ↔ Rooted s x rx) ∧
      (unionSet fuel s a b).rank = s.rank) ∧
    (rootD s a ≠ rootD s b →
      (s.rank.getD (rootD s a) 0 < s.rank.getD (rootD s b) 0 →
        parentSlot (unionSet fuel s a b) (rootD s a) = Int.ofNat (rootD s b) ∧
        (unionSet fuel s a b).rank = s.rank) ∧
      (s.rank.getD (rootD s b) 0 < s.rank.getD (rootD s a) 0 →
        parentSlot (unionSet fuel s a b) (rootD s b) = Int.ofNat (rootD s a) ∧
        (unionSet fuel s a b).rank = s.rank) ∧
      (s.rank.getD (rootD s a) 0 = s.rank.getD (rootD s b) 0 →
        parentSlot (unionSet fuel s a b) (rootD s a) = Int.ofNat (rootD s b) ∧
        (unionSet fuel s a b).rank =
          s.rank.set (rootD s b) (s.rank.getD (rootD s b) 0 + 1))) := by
  obtain ⟨_, _, hsame, hdiff⟩ := unionSet_spec hWF ha hb hfuel
  constructor
  · intro hc
    obtain ⟨h1, h2, _⟩ := hsame hc
    exact ⟨h1, h2⟩
  · intro hc
    obtain ⟨hlt, hgt, htie⟩ := hdiff hc
    refine ⟨?_, ?_, ?_⟩
    · intro hl
      obtain ⟨h1, h2, _, _⟩ := hlt hl
      exact ⟨h1, h2⟩
    · intro hg
      obtain ⟨h1, h2, _, _⟩ := hgt hg
      exact ⟨h1, h2⟩
    · intro he
      obtain ⟨h1, h2, _, _⟩ := htie he
      rw [he] at h2
      exact ⟨h1, h2⟩

theorem claim_C4_union_by_rank_witness :
    rootD (newSet 2) 0 ≠ rootD (newSet 2) 1 ∧
    parentSlot (unionSet 2 (newSet 2) 0 1) (rootD (newSet 2) 0) =
      Int.ofNat (rootD (newSet 2) 1) ∧
    (unionSet 2 (newSet 2) 0 1).rank =
      (newSet 2).rank.set (rootD (newSet 2) 1) ((newSet 2).rank.getD (rootD (newSet 2) 1) 0 + 1) := by
  have h := @claim_C4_union_by_rank (newSet 2) (wfB_WF (by decide)) 0 1
    (by decide) (by decide) 2 (by decide)
  have hne : rootD (newSet 2) 0 ≠ rootD (newSet 2) 1 := by decide
  have heq : (newSet 2).rank.getD (rootD (newSet 2) 0) 0 =
      (newSet 2).rank.getD (rootD (newSet 2) 1) 0 := by decide
  obtain ⟨h1, h2⟩ := (h.2 hne).2.2 heq
  exact ⟨hne, h1, h2⟩

/-! ## Claim theorems: C7, C1 -/

/-- C7: the edge-list scatter fails fatally with the `UnsupportedTopology`
diagnostic if and only if `⌊E/2⌋ + 1 < size` and `E ≠ size`; for every other
combination of edge count and cohort size it completes without raising the
error. -/
theorem claim_C7_scatter_topology_error (rank size elements elementsPart : Nat) :
    (scatterEdgeList rank size elements elementsPart =
      Except.error CoreError.UnsupportedTopology) ↔
    (elements / 2 + 1 < size ∧ elements ≠ size) := by
  show (if elements / 2 + 1 < size ∧ elements ≠ size then
      (Except.error CoreError.UnsupportedTopology : Except CoreError Nat)
    else Except.ok (if rank = size - 1 ∧ elements % elementsPart ≠ 0 then
      elements % elementsPart else elementsPart)) =
      Except.error CoreError.UnsupportedTopology ↔
    (elements / 2 + 1 < size ∧ elements ≠ size)
  by_cases h : elements / 2 + 1 < size ∧ elements ≠ size
  · rw [if_pos h]
    exact iff_of_true rfl h
  · rw [if_neg h]
    exact iff_of_false (by simp) h

theorem mergeSort_succ_ne {fuel : Nat} {l : List Edge} {start end_ : Int}
    (h : start ≠ end_) :
    mergeSort (fuel + 1) l start end_ =
      match mergeSort fuel l start (Int.tdiv (start + end_) 2) with
      | none => none
      | some l1 =>
        match mergeSort fuel l1 (Int.tdiv (start + end_) 2 + 1) end_ with
        | none => none
        | some l2 => some (merge l2 start end_ (Int.tdiv (start + end_) 2)) := by
  conv_lhs => rw [mergeSort]
  rw [if_pos h]

theorem mergeSort_succ_eq {fuel : Nat} {l : List Edge} {start end_ : Int}
    (h : start = end_) :
    mergeSort (fuel + 1) l start end_ = some l := by
  conv_lhs => rw [mergeSort]
  rw [if_neg (by simpa using h)]

theorem mergeSort_one_zero_diverges : ∀ (fuel : Nat) (l : List Edge),
    mergeSort fuel l 1 0 = none := by
  intro fuel
  induction fuel with
  | zero => intro l; rfl
  | succ f ih =>
    intro l
    rw [mergeSort_succ_ne (show (1 : Int) ≠ 0 by decide)]
    rw [show Int.tdiv ((1 : Int) + 0) 2 = 0 from by decide]
    rw [ih l]

theorem mergeSort_one_negOne_diverges : ∀ (fuel : Nat) (l : List Edge),
    mergeSort fuel l 1 (-1) = none := by
  intro fuel l
  cases fuel with
  | zero => rfl
  | succ f =>
    rw [mergeSort_succ_ne (show (1 : Int) ≠ -1 by decide)]
    rw [show Int.tdiv ((1 : Int) + -1) 2 = 0 from by decide]
    rw [mergeSort_one_zero_diverges f l]

theorem mergeSort_zero_negOne_diverges : ∀ (fuel : Nat) (l : List Edge),
    mergeSort fuel l 0 (-1) = none := by
  intro fuel l
  cases fuel with
  | zero => rfl
  | succ f =>
    rw [mergeSort_succ_ne (show (0 : Int) ≠ -1 by decide)]
    rw [show Int.tdiv ((0 : Int) + -1) 2 = 0 from by decide]
    cases f with
    | zero => rfl
    | succ f' =>
      rw [mergeSort_succ_eq (show (0 : Int) = 0 from rfl)]
      dsimp only
      rw [show ((0 : Int) + 1) = 1 from by decide]
      rw [mergeSort_one_negOne_diverges (f' + 1) l]

/-- C1 (code bug at the failing input): on the only connected simple graph
with `V = 1` — one vertex, zero edges — Kruskal's sort phase calls
`mergeSort(edgeList, 0, -1)`, whose recursion never reaches a base case
(`mergeSort(·, 1, 0)` immediately calls itself with the same bounds), so
`mstKruskal` never terminates instead of producing the claimed
`max(0, V-1) = 0` edges: the embedding returns `none` for every fuel. -/
theorem claim_C1_kruskal_V1_diverges :
    ∀ fuel : Nat, mstKruskal fuel ⟨0, 1, []⟩ ⟨0, 1, []⟩ = none := by
  intro fuel
  unfold mstKruskal
  have hsort : sort fuel ⟨0, 1, []⟩ = none := by
    show (match mergeSort fuel ([] : List Edge) 0 ((((0 + 1 - 1) / 1 : Nat) : Int) - 1) with
      | none => none
      | some l => some ({ edges := 0, vertices := 1, edgeList := l } : WeightedGraph)) = none
    rw [show ((((0 + 1 - 1) / 1 : Nat) : Int) - 1) = -1 from by decide]
    rw [mergeSort_zero_negOne_diverges fuel []]
  rw [hsort]

/-! ## Merge-sort correctness lemmas -/

theorem getD_eq_getElem_of_lt {l : List Edge} {n : Nat} (h : n < l.length) :
    l.getD n default = l[n] := List.getD_eq_getElem l default h

/-- The write-back loop of `merge` is `bitonicPop` on the live scratch
segment. -/
theorem mergeLoop_eq_bitonicPop (working : List Edge) :
    ∀ (k left right : Nat), right + 1 - left = k → right < working.length →
      mergeLoop working k left right = bitonicPop k ((working.drop left).take k) := by
  intro k
  induction k with
  | zero => intro left right _ _; rfl
  | succ k ih =>
    intro left right hk hlen
    have hlr : left ≤ right := by omega
    have hrk : right = left + k := by omega
    have hleft : left < working.length := lt_of_le_of_lt hlr hlen
    have hseg : (working.drop left).take (k + 1) =
        working.getD left default :: (working.drop (left + 1)).take k := by
      rw [List.drop_eq_getElem_cons hleft, List.take_succ_cons,
        getD_eq_getElem_of_lt hleft]
    have hlen1 : ((working.drop (left + 1)).take k).length = k := by
      rw [List.length_take, List.length_drop]
      omega
    have hlast : ((working.drop (left + 1)).take k).getLast?.getD (working.getD left default) =
        working.getD right default := by
      cases k with
      | zero =>
        have : right = left := by omega
        subst this
        rfl
      | succ k' =>
        have hk'lt : k' < ((working.drop (left + 1)).take (k' + 1)).length := by
          rw [hlen1]; omega
        rw [List.getLast?_eq_getElem?, hlen1]
        have h1 : (k' + 1) - 1 = k' := rfl
        rw [h1, List.getElem?_eq_getElem hk'lt]
        rw [List.getElem_take, List.getElem_drop]
        have hrlt : right < working.length := hlen
        rw [getD_eq_getElem_of_lt hlen]
        simp only [Option.getD_some]
        congr 1
        omega
    show mergeLoop working (k + 1) left right = _
    rw [hseg]
    show (if (working.getD right default).weight < (working.getD left default).weight then
        working.getD right default :: mergeLoop working k left (right - 1)
      else working.getD left default :: mergeLoop working k (left + 1) right) = _
    have hpop : bitonicPop (k + 1) (working.getD left default :: (working.drop (left + 1)).take k) =
        if ((working.getD left default :: (working.drop (left + 1)).take k).getLastD default).weight <
            (working.getD left default).weight then
          (working.getD left default :: (working.drop (left + 1)).take k).getLastD default ::
            bitonicPop k (working.getD left default :: (working.drop (left + 1)).take k).dropLast
        else
          working.getD left default :: bitonicPop k ((working.drop (left + 1)).take k) := rfl
    rw [hpop]
    have hlastD : (working.getD left default :: (working.drop (left + 1)).take k).getLastD default =
        working.getD right default := by
      rw [List.getLastD_eq_getLast?, List.getLast?_cons]
      simp only [Option.getD_some]
      exact hlast
    rw [hlastD]
    by_cases hcmp : (working.getD right default).weight < (working.getD left default).weight
    · rw [if_pos hcmp, if_pos hcmp]
      congr 1
      have hdl : (working.getD left default :: (working.drop (left + 1)).take k).dropLast =
          (working.drop left).take k := by
        rw [← hseg, List.dropLast_eq_take]
        have hsl : ((working.drop left).take (k + 1)).length = k + 1 := by
          rw [List.length_take, List.length_drop]
          omega
        rw [hsl, List.take_take]
        congr 1
        omega
      rw [hdl]
      cases k with
      | zero => rfl
      | succ k' =>
        exact ih left (right - 1) (by omega) (by omega)
    · rw [if_neg hcmp, if_neg hcmp]
      congr 1
      exact ih (left + 1) right (by omega) hlen

/-- `bitonicPop` with enough fuel permutes its input. -/
theorem bitonicPop_perm : ∀ (k : Nat) (l : List Edge), l.length ≤ k →
    (bitonicPop k l).Perm l := by
  intro k
  induction k with
  | zero =>
    intro l hl
    rw [List.length_eq_zero.mp (Nat.le_zero.mp hl)]
    exact List.Perm.refl _
  | succ k ih =>
    intro l hl
    cases l with
    | nil => exact List.Perm.refl _
    | cons x xs =>
      show (bitonicPop (k + 1) (x :: xs)).Perm (x :: xs)
      rw [bitonicPop]
      split_ifs with hcmp
      · have hne : x :: xs ≠ [] := List.cons_ne_nil x xs
        have hsplit : (x :: xs).dropLast ++ [(x :: xs).getLast hne] = x :: xs :=
          List.dropLast_append_getLast hne
        have hgld : (x :: xs).getLastD default = (x :: xs).getLast hne := by
          rw [List.getLastD_eq_getLast?, List.getLast?_eq_getLast _ hne]
          rfl
        rw [hgld]
        have hperm1 : (bitonicPop k (x :: xs).dropLast).Perm (x :: xs).dropLast := by
          refine ih _ ?_
          rw [List.length_dropLast]
          simpa using hl
        refine List.Perm.trans (List.Perm.cons _ hperm1) ?_
        refine List.Perm.trans (List.perm_append_singleton _ _).symm ?_
        rw [hsplit]
      · exact List.Perm.cons x (ih xs (by simpa using hl))

theorem sorted_le_getLastD {l : List Edge} (h : sortedByWeight l) :
    ∀ {x : Edge}, x ∈ l → x.weight ≤ (l.getLastD default).weight := by
  induction l with
  | nil => intro x hx; cases hx
  | cons a t ih =>
    intro x hx
    cases t with
    | nil =>
      rw [List.mem_singleton] at hx
      subst hx
      exact le_refl _
    | cons b t' =>
      have hgd : ((a :: b :: t').getLastD default) = ((b :: t').getLastD default) := by
        rw [List.getLastD_eq_getLast?, List.getLastD_eq_getLast?, List.getLast?_cons_cons]
      rw [hgd]
      have hmem : (b :: t').getLastD default ∈ b :: t' := by
        rw [List.getLastD_eq_getLast?, List.getLast?_eq_getLast _ (List.cons_ne_nil b t')]
        exact List.getLast_mem _
      obtain ⟨hhead, htail⟩ := List.sorted_cons.mp h
      rcases List.mem_cons.mp hx with hxa | hxt
      · subst hxa
        exact hhead _ hmem
      · exact ih htail hxt

theorem bitonicPop_nil : ∀ k : Nat, bitonicPop k ([] : List Edge) = [] := by
  intro k
  cases k <;> rfl

/-- The two-ended pop of an ascending-then-descending scratch list is sorted
by weight. -/
theorem bitonicPop_sorted : ∀ (k : Nat) (A B : List Edge),
    A.length + B.length ≤ k → sortedByWeight A → sortedByWeight B →
    sortedByWeight (bitonicPop k (A ++ B.reverse)) := by
  intro k
  induction k with
  | zero =>
    intro A B hlen _ _
    have hA : A = [] := by
      cases A with
      | nil => rfl
      | cons _ _ => simp at hlen
    have hB : B = [] := by
      cases B with
      | nil => rfl
      | cons _ _ => simp at hlen
    subst hA; subst hB
    exact List.sorted_nil
  | succ k ih =>
    intro A B hlen hA hB
    cases A with
    | nil =>
      cases B with
      | nil => exact List.sorted_nil
      | cons b B' =>
        rw [List.nil_append, List.reverse_cons]
        cases hrev : B'.reverse with
        | nil =>
          rw [List.nil_append]
          show sortedByWeight (bitonicPop (k + 1) [b])
          rw [bitonicPop]
          rw [if_neg (by simp), bitonicPop_nil]
          exact List.sorted_singleton _
        | cons x xs =>
          have hB'ne : B' ≠ [] := by
            intro hh
            rw [hh] at hrev
            cases hrev
          have hxB : x ∈ B' := by
            rw [← List.mem_reverse, hrev]
            exact List.mem_cons_self _ _
          obtain ⟨hbhead, hB'sorted⟩ := List.sorted_cons.mp hB
          have hxb : b.weight ≤ x.weight := hbhead x hxB
          show sortedByWeight (bitonicPop (k + 1) (x :: (xs ++ [b])))
          rw [bitonicPop]
          have hgl : ((x :: (xs ++ [b])).getLastD default) = b := by
            rw [List.getLastD_eq_getLast?, ← List.cons_append, List.getLast?_concat]
            rfl
          rw [hgl]
          have hlenB' : B'.length ≤ k := by
            simp only [List.length_nil, List.length_cons, Nat.zero_add] at hlen
            omega
          split_ifs with hcmp
          · have hdl : (x :: (xs ++ [b])).dropLast = B'.reverse := by
              rw [← List.cons_append, List.dropLast_concat, hrev]
            rw [hdl]
            have hrec := ih [] B' (by simpa using hlenB') List.sorted_nil hB'sorted
            rw [List.nil_append] at hrec
            refine List.sorted_cons.mpr ⟨?_, hrec⟩
            intro y hy
            have hperm := bitonicPop_perm k B'.reverse (by simpa using hlenB')
            have hyB : y ∈ B' := by
              rw [← List.mem_reverse]
              exact (hperm.mem_iff).mp hy
            exact hbhead y hyB
          · have hxle : x.weight ≤ b.weight := le_of_not_lt hcmp
            have hxs : xs = (B'.dropLast).reverse := by
              have h1 : (B'.reverse).tail = B'.dropLast.reverse := List.tail_reverse B'
              rw [hrev] at h1
              simpa using h1
            have hnewB : xs ++ [b] = (b :: B'.dropLast).reverse := by
              rw [List.reverse_cons, hxs]
            rw [hnewB]
            have hsortnew : sortedByWeight (b :: B'.dropLast) := by
              refine List.sorted_cons.mpr
                ⟨?_, List.Pairwise.sublist (List.dropLast_sublist B') hB'sorted⟩
              intro y hy
              exact hbhead y ((List.dropLast_sublist B').subset hy)
            have hlennew : (0 : Nat) + (b :: B'.dropLast).length ≤ k := by
              simp only [List.length_cons, List.length_dropLast, Nat.zero_add]
              have hB'pos : 0 < B'.length := List.length_pos.mpr hB'ne
              omega
            have hrec := ih [] (b :: B'.dropLast) hlennew List.sorted_nil hsortnew
            rw [List.nil_append] at hrec
            refine List.sorted_cons.mpr ⟨?_, hrec⟩
            intro y hy
            have hperm := bitonicPop_perm k (b :: B'.dropLast).reverse (by
              simpa using hlennew)
            have hyB : y ∈ b :: B'.dropLast := by
              rw [← List.mem_reverse]
              exact (hperm.mem_iff).mp hy
            rcases List.mem_cons.mp hyB with hyb | hyd
            · subst hyb; exact hxle
            · exact le_trans hxle (hbhead y ((List.dropLast_sublist B').subset hyd))
    | cons a A' =>
      obtain ⟨hahead, hA'sorted⟩ := List.sorted_cons.mp hA
      rw [List.cons_append]
      show sortedByWeight (bitonicPop (k + 1) (a :: (A' ++ B.reverse)))
      rw [bitonicPop]
      cases B with
      | nil =>
        have hgl : ((a :: (A' ++ List.reverse [])).getLastD default).weight ≥ a.weight := by
          refine sorted_le_getLastD ?_ (List.mem_cons_self _ _)
          show sortedByWeight (a :: (A' ++ List.reverse []))
          rw [List.reverse_nil, List.append_nil]
          exact hA
        rw [if_neg (by omega)]
        have hrec := ih A' [] (by simpa using Nat.le_of_succ_le_succ (by simpa using hlen))
          hA'sorted List.sorted_nil
        refine List.sorted_cons.mpr ⟨?_, hrec⟩
        intro y hy
        have hperm := bitonicPop_perm k (A' ++ List.reverse []) (by
          simp only [List.reverse_nil, List.append_nil]
          have := Nat.le_of_succ_le_succ (by simpa using hlen)
          simpa using this)
        have hyA : y ∈ A' := by
          have := (hperm.mem_iff).mp hy
          simpa using this
        exact hahead y hyA
      | cons b B' =>
        obtain ⟨hbhead, hB'sorted⟩ := List.sorted_cons.mp hB
        have hgl : ((a :: (A' ++ (b :: B').reverse)).getLastD default) = b := by
          rw [List.getLastD_eq_getLast?, List.reverse_cons, ← List.append_assoc,
            ← List.cons_append, List.getLast?_concat]
          rfl
        rw [hgl]
        split_ifs with hcmp
        · have hdl : (a :: (A' ++ (b :: B').reverse)).dropLast = (a :: A') ++ B'.reverse := by
            rw [List.reverse_cons, ← List.append_assoc, ← List.cons_append,
              List.dropLast_concat, List.cons_append]
          rw [hdl]
          have hlen2 : (a :: A').length + B'.length ≤ k := by
            simp only [List.length_cons] at hlen ⊢
            omega
          have hrec := ih (a :: A') B' hlen2 hA hB'sorted
          refine List.sorted_cons.mpr ⟨?_, hrec⟩
          intro y hy
          have hperm := bitonicPop_perm k ((a :: A') ++ B'.reverse) (by
            simp only [List.length_append, List.length_reverse]
            simpa using hlen2)
          have hyM := (hperm.mem_iff).mp hy
          rcases List.mem_append.mp hyM with hyA | hyB
          · rcases List.mem_cons.mp hyA with hya | hya'
            · subst hya; exact le_of_lt hcmp
            · exact le_trans (le_of_lt hcmp) (hahead y hya')
          · exact hbhead y (List.mem_reverse.mp hyB)
        · have hble : a.weight ≤ b.weight := le_of_not_lt hcmp
          have hlen2 : A'.length + (b :: B').length ≤ k := by
            simp only [List.length_cons] at hlen ⊢
            omega
          have hrec := ih A' (b :: B') hlen2 hA'sorted hB
          refine List.sorted_cons.mpr ⟨?_, hrec⟩
          intro y hy
          have hperm := bitonicPop_perm k (A' ++ (b :: B').reverse) (by
            simp only [List.length_append, List.length_reverse]
            simpa using hlen2)
          have hyM := (hperm.mem_iff).mp hy
          rcases List.mem_append.mp hyM with hyA | hyB
          · exact hahead y hyA
          · rcases List.mem_cons.mp (List.mem_reverse.mp hyB) with hyb | hyB'
            · subst hyb; exact hble
            · exact le_trans hble (hbhead y hyB')

theorem edgeSlice_length {edgeList : List Edge} {lo hi : Nat} (h1 : lo ≤ hi)
    (h2 : hi < edgeList.length) :
    (edgeSlice edgeList lo hi).length = hi + 1 - lo := by
  unfold edgeSlice
  rw [List.length_take, List.length_drop]
  omega

theorem edgeSlice_split {edgeList : List Edge} (lo piv hi : Nat) (h1 : lo ≤ piv)
    (h2 : piv ≤ hi) :
    edgeSlice edgeList lo piv ++ edgeSlice edgeList (piv + 1) hi =
      edgeSlice edgeList lo hi := by
  unfold edgeSlice
  have hadd : hi + 1 - lo = (piv + 1 - lo) + (hi + 1 - (piv + 1)) := by omega
  rw [hadd, List.take_add]
  congr 2
  rw [List.drop_drop]
  congr 1
  omega

/-- Behaviour of `merge` on a segment whose two halves are sorted: the bytes
before `lo` and after `hi` are untouched, the length is unchanged, and the
segment `[lo..hi]` becomes a sorted permutation of the original segment. -/
theorem merge_spec {edgeList : List Edge} {lo piv hi : Nat}
    (h1 : lo ≤ piv) (h2 : piv ≤ hi) (h3 : hi < edgeList.length)
    (hL : sortedByWeight (edgeSlice edgeList lo piv))
    (hR : sortedByWeight (edgeSlice edgeList (piv + 1) hi)) :
    (merge edgeList lo hi piv).take lo = edgeList.take lo ∧
    (merge edgeList lo hi piv).drop (hi + 1) = edgeList.drop (hi + 1) ∧
    (merge edgeList lo hi piv).length = edgeList.length ∧
    (edgeSlice (merge edgeList lo hi piv) lo hi).Perm (edgeSlice edgeList lo hi) ∧
    sortedByWeight (edgeSlice (merge edgeList lo hi piv) lo hi) := by
  have hme : merge edgeList lo hi piv =
      edgeList.take lo ++
        (mergeLoop (edgeSlice edgeList lo piv ++ (edgeSlice edgeList (piv + 1) hi).reverse)
          (hi + 1 - lo) 0 (hi - lo) ++ edgeList.drop (hi + 1)) := by
    unfold merge
    norm_num
  have hLlen : (edgeSlice edgeList lo piv).length = piv + 1 - lo :=
    edgeSlice_length h1 (lt_of_le_of_lt h2 h3)
  have hRlen : (edgeSlice edgeList (piv + 1) hi).length = hi - piv := by
    by_cases hph : piv + 1 ≤ hi
    · rw [edgeSlice_length hph h3]
      omega
    · have hpe : piv = hi := by omega
      subst hpe
      unfold edgeSlice
      simp
  have hwlen : (edgeSlice edgeList lo piv ++ (edgeSlice edgeList (piv + 1) hi).reverse).length
      = hi + 1 - lo := by
    rw [List.length_append, List.length_reverse, hLlen, hRlen]
    omega
  have hbridge : mergeLoop (edgeSlice edgeList lo piv ++ (edgeSlice edgeList (piv + 1) hi).reverse)
      (hi + 1 - lo) 0 (hi - lo) =
      bitonicPop (hi + 1 - lo)
        (edgeSlice edgeList lo piv ++ (edgeSlice edgeList (piv + 1) hi).reverse) := by
    rw [mergeLoop_eq_bitonicPop _ (hi + 1 - lo) 0 (hi - lo) (by omega) (by omega)]
    rw [List.drop_zero, ← hwlen, List.take_length]
  have hperm : (bitonicPop (hi + 1 - lo)
      (edgeSlice edgeList lo piv ++ (edgeSlice edgeList (piv + 1) hi).reverse)).Perm
      (edgeSlice edgeList lo hi) := by
    refine List.Perm.trans (bitonicPop_perm _ _ (le_of_eq hwlen)) ?_
    refine List.Perm.trans (List.Perm.append_left _ (List.reverse_perm _)) ?_
    rw [edgeSlice_split lo piv hi h1 h2]
  have hsorted : sortedByWeight (bitonicPop (hi + 1 - lo)
      (edgeSlice edgeList lo piv ++ (edgeSlice edgeList (piv + 1) hi).reverse)) := by
    refine bitonicPop_sorted _ _ _ ?_ hL hR
    rw [hLlen, hRlen]
    omega
  have houtlen : (bitonicPop (hi + 1 - lo)
      (edgeSlice edgeList lo piv ++ (edgeSlice edgeList (piv + 1) hi).reverse)).length
      = hi + 1 - lo := by
    rw [hperm.length_eq, edgeSlice_length (le_trans h1 h2) h3]
  have htklen : (edgeList.take lo).length = lo := by
    rw [List.length_take]
    omega
  rw [hme, hbridge]
  have hdrop1 : (edgeList.take lo ++
      (bitonicPop (hi + 1 - lo)
        (edgeSlice edgeList lo piv ++ (edgeSlice edgeList (piv + 1) hi).reverse) ++
        edgeList.drop (hi + 1))).drop lo =
      bitonicPop (hi + 1 - lo)
        (edgeSlice edgeList lo piv ++ (edgeSlice edgeList (piv + 1) hi).reverse) ++
        edgeList.drop (hi + 1) := List.drop_left' htklen
  have hslice : edgeSlice (edgeList.take lo ++
      (bitonicPop (hi + 1 - lo)
        (edgeSlice edgeList lo piv ++ (edgeSlice edgeList (piv + 1) hi).reverse) ++
        edgeList.drop (hi + 1))) lo hi =
      bitonicPop (hi + 1 - lo)
        (edgeSlice edgeList lo piv ++ (edgeSlice edgeList (piv + 1) hi).reverse) := by
    show List.take (hi + 1 - lo) (List.drop lo (edgeList.take lo ++
      (bitonicPop (hi + 1 - lo)
        (edgeSlice edgeList lo piv ++ (edgeSlice edgeList (piv + 1) hi).reverse) ++
        edgeList.drop (hi + 1)))) = _
    rw [hdrop1]
    exact List.take_left' houtlen
  refine ⟨List.take_left' htklen, ?_, ?_, ?_, ?_⟩
  · rw [← List.append_assoc]
    refine List.drop_left' ?_
    rw [List.length_append, htklen, houtlen]
    omega
  · rw [List.length_append, List.length_append, htklen, houtlen, List.length_drop]
    omega
  · rw [hslice]
    exact hperm
  · rw [hslice]
    exact hsorted

theorem sorted_of_length_le_one {l : List Edge} (h : l.length ≤ 1) : sortedByWeight l := by
  cases l with
  | nil => exact List.sorted_nil
  | cons a t =>
    cases t with
    | nil => exact List.sorted_singleton a
    | cons b t' => simp at h

theorem take_eq_of_take_eq {l₁ l₂ : List Edge} {m n : Nat} (h : n ≤ m)
    (heq : l₁.take m = l₂.take m) : l₁.take n = l₂.take n := by
  have h1 : l₁.take n = (l₁.take m).take n := by rw [List.take_take, Nat.min_eq_left h]
  have h2 : l₂.take n = (l₂.take m).take n := by rw [List.take_take, Nat.min_eq_left h]
  rw [h1, h2, heq]

theorem drop_eq_of_drop_eq {l₁ l₂ : List Edge} {m n : Nat} (h : m ≤ n)
    (heq : l₁.drop m = l₂.drop m) : l₁.drop n = l₂.drop n := by
  rw [show n = m + (n - m) from by omega, ← List.drop_drop, ← List.drop_drop, heq]

/-- `mergeSort` with fuel exceeding the segment width sorts the segment
`[lo..hi]` in place: the result is `some`, the parts before `lo` and after
`hi` and the total length are unchanged, and the segment becomes a sorted
permutation of the original segment. -/
theorem mergeSort_spec : ∀ (n : Nat) (edgeList : List Edge) (lo hi : Nat),
    hi - lo ≤ n → lo ≤ hi → hi < edgeList.length → ∀ fuel, hi - lo < fuel →
    ∃ out, mergeSort fuel edgeList lo hi = some out ∧
      out.take lo = edgeList.take lo ∧
      out.drop (hi + 1) = edgeList.drop (hi + 1) ∧
      out.length = edgeList.length ∧
      (edgeSlice out lo hi).Perm (edgeSlice edgeList lo hi) ∧
      sortedByWeight (edgeSlice out lo hi) := by
  intro n
  induction n with
  | zero =>
    intro edgeList lo hi hbound hle hlen fuel hfuel
    have hlohi : lo = hi := by omega
    subst hlohi
    cases fuel with
    | zero => omega
    | succ f =>
      refine ⟨edgeList, mergeSort_succ_eq rfl, rfl, rfl, rfl, List.Perm.refl _, ?_⟩
      refine sorted_of_length_le_one ?_
      rw [edgeSlice_length le_rfl hlen]
      omega
  | succ n ihn =>
    intro edgeList lo hi hbound hle hlen fuel hfuel
    by_cases heq : lo = hi
    · subst heq
      cases fuel with
      | zero => omega
      | succ f =>
        refine ⟨edgeList, mergeSort_succ_eq rfl, rfl, rfl, rfl, List.Perm.refl _, ?_⟩
        refine sorted_of_length_le_one ?_
        rw [edgeSlice_length le_rfl hlen]
        omega
    · have hlt : lo < hi := by omega
      cases fuel with
      | zero => omega
      | succ f =>
        have hpiveq : Int.tdiv ((lo : Int) + (hi : Int)) 2 = (((lo + hi) / 2 : Nat) : Int) := by
          rw [show ((lo : Int) + (hi : Int)) = ((lo + hi : Nat) : Int) from by push_cast; ring]
          rfl
        have hp1 : lo ≤ (lo + hi) / 2 := by omega
        have hp2 : (lo + hi) / 2 < hi := by omega
        obtain ⟨out1, he1, ht1, hd1, hl1, hperm1, hsort1⟩ :=
          ihn edgeList lo ((lo + hi) / 2) (by omega) hp1 (lt_trans hp2 hlen) f (by omega)
        obtain ⟨out2, he2, ht2, hd2, hl2, hperm2, hsort2⟩ :=
          ihn out1 ((lo + hi) / 2 + 1) hi (by omega) (by omega) (by rw [hl1]; exact hlen)
            f (by omega)
        have hsliceR : edgeSlice out1 ((lo + hi) / 2 + 1) hi =
            edgeSlice edgeList ((lo + hi) / 2 + 1) hi := by
          unfold edgeSlice
          rw [hd1]
        have hsliceL : edgeSlice out2 lo ((lo + hi) / 2) =
            edgeSlice out1 lo ((lo + hi) / 2) := by
          unfold edgeSlice
          rw [← List.drop_take, ← List.drop_take, ht2]
        have hmhi : hi < out2.length := by rw [hl2, hl1]; exact hlen
        obtain ⟨hmt, hmd, hml, hmperm, hmsort⟩ :=
          merge_spec hp1 (le_of_lt hp2) hmhi
            (hsliceL ▸ hsort1) hsort2
        refine ⟨merge out2 lo hi (((lo + hi) / 2 : Nat) : Int), ?_, ?_, ?_, ?_, ?_, hmsort⟩
        · rw [mergeSort_succ_ne (show ((lo : Int)) ≠ ((hi : Int)) from by
            exact_mod_cast Nat.ne_of_lt hlt)]
          rw [hpiveq, he1]
          dsimp only
          rw [show ((((lo + hi) / 2 : Nat) : Int) + 1) = (((lo + hi) / 2 + 1 : Nat) : Int) from by
            push_cast; ring]
          rw [he2]
        · rw [hmt]
          exact (take_eq_of_take_eq (by omega) ht2).trans ht1
        · rw [hmd]
          exact hd2.trans (drop_eq_of_drop_eq (by omega) hd1)
        · rw [hml, hl2, hl1]
        · refine List.Perm.trans hmperm ?_
          rw [← edgeSlice_split lo ((lo + hi) / 2) hi hp1 (le_of_lt hp2)]
          rw [← edgeSlice_split lo ((lo + hi) / 2) hi hp1 (le_of_lt hp2)]
          refine List.Perm.append ?_ ?_
          · rw [hsliceL]
            exact hperm1
          · exact List.Perm.trans hperm2 (by rw [hsliceR])

/-- One step of the write-back loop when the candidate under each cursor has
the same weight: the strict `<` test in the source fails, so the element under
the `left` cursor — which lies in the forward-copied `[lo..pivot]` region when
`left < A.length` — is written first and the left cursor advances. -/
theorem mergeLoop_tie_left (A B : List Edge) (k left right : Nat)
    (hl : left < A.length)
    (heq : ((A ++ B).getD right default).weight = ((A ++ B).getD left default).weight) :
    mergeLoop (A ++ B) (k + 1) left right =
      A.getD left default :: mergeLoop (A ++ B) k (left + 1) right := by
  have hgetd : (A ++ B).getD left default = A.getD left default := by
    rw [getD_eq_getElem_of_lt (by rw [List.length_append]; omega),
      getD_eq_getElem_of_lt hl]
    exact List.getElem_append_left hl
  conv_lhs => rw [mergeLoop]
  rw [if_neg (by rw [heq]; exact lt_irrefl _), hgetd]

/-- C6: for `lo ≤ pivot ≤ hi < |edges|` with `[lo..pivot]` and `[pivot+1..hi]`
each sorted by weight, `merge` rewrites `[lo..hi]` in place (prefix, suffix and
length unchanged) to a weight-sorted permutation of the original segment; at
any loop step where the candidates under the two cursors carry equal weights,
the element under the left cursor — originating from the forward-copied left
half while the cursor is inside it — is written first; and `mergeSort` with
enough fuel sorts any segment `[lo..hi]` the same way. -/
theorem claim_C6_merge_sorts_segments (edgeList : List Edge) (lo piv hi : Nat)
    (h1 : lo ≤ piv) (h2 : piv ≤ hi) (h3 : hi < edgeList.length)
    (hL : sortedByWeight (edgeSlice edgeList lo piv))
    (hR : sortedByWeight (edgeSlice edgeList (piv + 1) hi)) :
    ((merge edgeList lo hi piv).take lo = edgeList.take lo ∧
      (merge edgeList lo hi piv).drop (hi + 1) = edgeList.drop (hi + 1) ∧
      (merge edgeList lo hi piv).length = edgeList.length ∧
      (edgeSlice (merge edgeList lo hi piv) lo hi).Perm (edgeSlice edgeList lo hi) ∧
      sortedByWeight (edgeSlice (merge edgeList lo hi piv) lo hi)) ∧
    (∀ (k left right : Nat), left < (edgeSlice edgeList lo piv).length →
      (edgeSlice edgeList lo piv).length ≤ right →
      ((edgeSlice edgeList lo piv ++ (edgeSlice edgeList (piv + 1) hi).reverse).getD right
          default).weight =
        ((edgeSlice edgeList lo piv ++ (edgeSlice edgeList (piv + 1) hi).reverse).getD left
          default).weight →
      mergeLoop (edgeSlice edgeList lo piv ++ (edgeSlice edgeList (piv + 1) hi).reverse)
          (k + 1) left right =
        (edgeSlice edgeList lo piv).getD left default ::
          mergeLoop (edgeSlice edgeList lo piv ++ (edgeSlice edgeList (piv + 1) hi).reverse)
            k (left + 1) right) ∧
    (∀ fuel, hi - lo < fuel → ∃ out, mergeSort fuel edgeList lo hi = some out ∧
      out.take lo = edgeList.take lo ∧ out.drop (hi + 1) = edgeList.drop (hi + 1) ∧
      out.length = edgeList.length ∧
      (edgeSlice out lo hi).Perm (edgeSlice edgeList lo hi) ∧
      sortedByWeight (edgeSlice out lo hi)) := by
  refine ⟨merge_spec h1 h2 h3 hL hR, ?_, ?_⟩
  · intro k left right hl hr heq
    exact mergeLoop_tie_left _ _ k left right hl heq
  · intro fuel hfuel
    exact mergeSort_spec (hi - lo) edgeList lo hi le_rfl (le_trans h1 h2) h3 fuel hfuel

theorem claim_C6_merge_sorts_segments_witness :
    ((0 : Nat) ≤ 1 ∧ (1 : Nat) ≤ 3 ∧
      3 < ([⟨0, 1, 1⟩, ⟨1, 2, 3⟩, ⟨0, 2, 2⟩, ⟨2, 3, 4⟩] : List Edge).length ∧
      sortedByWeight (edgeSlice [⟨0, 1, 1⟩, ⟨1, 2, 3⟩, ⟨0, 2, 2⟩, ⟨2, 3, 4⟩] 0 1) ∧
      sortedByWeight (edgeSlice [⟨0, 1, 1⟩, ⟨1, 2, 3⟩, ⟨0, 2, 2⟩, ⟨2, 3, 4⟩] 2 3)) ∧
    sortedByWeight
      (edgeSlice (merge [⟨0, 1, 1⟩, ⟨1, 2, 3⟩, ⟨0, 2, 2⟩, ⟨2, 3, 4⟩] 0 3 1) 0 3) :=
  ⟨⟨by decide, by decide, by decide, by decide, by decide⟩,
    (claim_C6_merge_sorts_segments [⟨0, 1, 1⟩, ⟨1, 2, 3⟩, ⟨0, 2, 2⟩, ⟨2, 3, 4⟩] 0 1 3
      (by decide) (by decide) (by decide) (by decide) (by decide)).1.2.2.2.2⟩

/-! ## Theorems: binary min-heap position-index invariant -/

theorem getD_set_self_of_lt {α : Type} {l : List α} {i : Nat} (a d : α)
    (h : i < l.length) : (l.set i a).getD i d = a := by
  rw [List.getD_eq_getElem?_getD, List.getElem?_set_self (by simpa using h)]
  rfl

theorem getD_set_ne_of_ne {α : Type} {l : List α} {i j : Nat} (a d : α)
    (h : i ≠ j) : (l.set i a).getD j d = l.getD j d := by
  rw [List.getD_eq_getElem?_getD, List.getD_eq_getElem?_getD, List.getElem?_set_ne h]

theorem setPad_length (l : List BinaryHeapElement) (i : Nat) (a : BinaryHeapElement) :
    (setPad l i a).length = max l.length (i + 1) := by
  unfold setPad
  rw [List.length_set, List.length_append, List.length_replicate]
  omega

theorem getD_setPad_self (l : List BinaryHeapElement) (i : Nat)
    (a d : BinaryHeapElement) : (setPad l i a).getD i d = a := by
  unfold setPad
  refine getD_set_self_of_lt a d ?_
  rw [List.length_append, List.length_replicate]
  omega

theorem getD_setPad_ne (l : List BinaryHeapElement) {i j : Nat}
    (a d : BinaryHeapElement) (hj : j < l.length) (hne : i ≠ j) :
    (setPad l i a).getD j d = l.getD j d := by
  unfold setPad
  rw [getD_set_ne_of_ne a d hne, List.getD_eq_getElem?_getD, List.getD_eq_getElem?_getD,
    List.getElem?_append, if_pos hj]

theorem swapBinaryHeapElement_size (h : BinaryMinHeap) (p1 p2 : Nat) :
    (swapBinaryHeapElement h p1 p2).size = h.size := rfl

theorem swapBinaryHeapElement_positions_length (h : BinaryMinHeap) (p1 p2 : Nat) :
    (swapBinaryHeapElement h p1 p2).positions.length = h.positions.length := by
  unfold swapBinaryHeapElement
  simp [List.length_set]

theorem swapBinaryHeapElement_elements_length (h : BinaryMinHeap) (p1 p2 : Nat) :
    (swapBinaryHeapElement h p1 p2).elements.length = h.elements.length := by
  unfold swapBinaryHeapElement
  simp [List.length_set]

theorem ofNat_ne_unset (n : Nat) : Int.ofNat n ≠ UNSET_ELEMENT := by
  show (n : Int) ≠ -1
  omega

/-- Swapping two slots below the logical bound `b` preserves the
position-index invariant, and never touches the position entry of a vertex
that is outside the heap. -/
theorem swap_heapInvAt {h : BinaryMinHeap} {b p1 p2 : Nat}
    (hinv : heapInvAt h b) (hp1 : p1 < b) (hp2 : p2 < b) :
    heapInvAt (swapBinaryHeapElement h p1 p2) b ∧
    ∀ v : Nat, h.positions.getD v 0 = UNSET_ELEMENT →
      (swapBinaryHeapElement h p1 p2).positions.getD v 0 = UNSET_ELEMENT := by
  obtain ⟨hlen, h2, h3⟩ := hinv
  set e1 := h.elements.getD p1 default with he1def
  set e2 := h.elements.getD p2 default with he2def
  have hE1 : p1 < h.elements.length := lt_of_lt_of_le hp1 hlen
  have hE2 : p2 < h.elements.length := lt_of_lt_of_le hp2 hlen
  have hswE : (swapBinaryHeapElement h p1 p2).elements =
      (h.elements.set p1 e2).set p2 e1 := rfl
  have hswP : (swapBinaryHeapElement h p1 p2).positions =
      (h.positions.set e1.vertex (Int.ofNat p2)).set e2.vertex (Int.ofNat p1) := rfl
  have hinj : ∀ i j, i < b → j < b →
      (h.elements.getD i default).vertex = (h.elements.getD j default).vertex → i = j := by
    intro i j hi hj hv
    have hhi := (h2 i hi).2
    have hhj := (h2 j hj).2
    rw [hv] at hhi
    rw [hhi] at hhj
    exact Int.ofNat.inj hhj
  have hEp2 : ((h.elements.set p1 e2).set p2 e1).getD p2 default = e1 :=
    getD_set_self_of_lt _ _ (by rw [List.length_set]; exact hE2)
  have hEp1 : p1 ≠ p2 → ((h.elements.set p1 e2).set p2 e1).getD p1 default = e2 := by
    intro hne
    rw [getD_set_ne_of_ne _ _ (Ne.symm hne), getD_set_self_of_lt _ _ hE1]
  have hEother : ∀ j, j ≠ p1 → j ≠ p2 →
      ((h.elements.set p1 e2).set p2 e1).getD j default = h.elements.getD j default := by
    intro j hj1 hj2
    rw [getD_set_ne_of_ne _ _ (Ne.symm hj2), getD_set_ne_of_ne _ _ (Ne.symm hj1)]
  have hPv2self : ((h.positions.set e1.vertex (Int.ofNat p2)).set e2.vertex
      (Int.ofNat p1)).getD e2.vertex 0 = Int.ofNat p1 :=
    getD_set_self_of_lt _ _ (by rw [List.length_set]; exact (h2 p2 hp2).1)
  have hPv1self : e1.vertex ≠ e2.vertex →
      ((h.positions.set e1.vertex (Int.ofNat p2)).set e2.vertex
        (Int.ofNat p1)).getD e1.vertex 0 = Int.ofNat p2 := by
    intro hne
    rw [getD_set_ne_of_ne _ _ (Ne.symm hne), getD_set_self_of_lt _ _ (h2 p1 hp1).1]
  have hPother : ∀ v, v ≠ e1.vertex → v ≠ e2.vertex →
      ((h.positions.set e1.vertex (Int.ofNat p2)).set e2.vertex
        (Int.ofNat p1)).getD v 0 = h.positions.getD v 0 := by
    intro v hh1 hh2
    rw [getD_set_ne_of_ne _ _ (Ne.symm hh2), getD_set_ne_of_ne _ _ (Ne.symm hh1)]
  constructor
  · refine ⟨?_, ?_, ?_⟩
    · rw [hswE, List.length_set, List.length_set]
      exact hlen
    · intro i hi
      rw [hswE, hswP, List.length_set, List.length_set]
      by_cases hi2 : i = p2
      · rw [hi2, hEp2]
        refine ⟨(h2 p1 hp1).1, ?_⟩
        by_cases hv : e1.vertex = e2.vertex
        · have hpp : p1 = p2 := hinj p1 p2 hp1 hp2 hv
          nth_rewrite 2 [hv]
          rw [hPv2self, hpp]
        · rw [hPv1self hv]
      · by_cases hi1 : i = p1
        · rw [hi1, hEp1 (hi1 ▸ hi2)]
          exact ⟨(h2 p2 hp2).1, hPv2self⟩
        · rw [hEother i hi1 hi2]
          have hw := h2 i hi
          have hw1 : (h.elements.getD i default).vertex ≠ e1.vertex := fun hh =>
            hi1 (hinj i p1 hi hp1 hh)
          have hw2 : (h.elements.getD i default).vertex ≠ e2.vertex := fun hh =>
            hi2 (hinj i p2 hi hp2 hh)
          rw [hPother _ hw1 hw2]
          exact hw
    · intro v hv
      rw [hswP, List.length_set, List.length_set] at hv
      rw [hswE, hswP]
      by_cases hvv2 : v = e2.vertex
      · subst hvv2
        refine iff_of_false ?_ ?_
        · rw [hPv2self]
          exact ofNat_ne_unset p1
        · intro hall
          by_cases hpp : p1 = p2
          · refine hall p2 hp2 ?_
            rw [hEp2, he1def, hpp]
          · exact hall p1 hp1 (by rw [hEp1 hpp])
      · by_cases hvv1 : v = e1.vertex
        · subst hvv1
          refine iff_of_false ?_ ?_
          · rw [hPv1self hvv2]
            exact ofNat_ne_unset p2
          · intro hall
            exact hall p2 hp2 (by rw [hEp2])
        · rw [hPother v hvv1 hvv2, h3 v hv]
          constructor
          · intro hall i hi
            by_cases hi2 : i = p2
            · rw [hi2, hEp2]
              exact fun hh => hvv1 hh.symm
            · by_cases hi1 : i = p1
              · rw [hi1, hEp1 (hi1 ▸ hi2)]
                exact fun hh => hvv2 hh.symm
              · rw [hEother i hi1 hi2]
                exact hall i hi
          · intro hall i hi
            by_cases hi2 : i = p2
            · rw [hi2]
              exact fun hh => hvv2 hh.symm
            · by_cases hi1 : i = p1
              · rw [hi1]
                exact fun hh => hvv1 hh.symm
              · have := hall i hi
                rw [hEother i hi1 hi2] at this
                exact this
  · intro v hvU
    have hne1 : v ≠ e1.vertex := fun hh =>
      ofNat_ne_unset p1 ((h2 p1 hp1).2.symm.trans (hh ▸ hvU))
    have hne2 : v ≠ e2.vertex := fun hh =>
      ofNat_ne_unset p2 ((h2 p2 hp2).2.symm.trans (hh ▸ hvU))
    rw [hswP, hPother v hne1 hne2]
    exact hvU

/-- Sift-up preserves the position-index invariant at any bound `b` covering
the start position (the `size` field is never read by `heapifyBinaryMinHeap`),
along with the sizes and lengths, and leaves absent vertices absent. -/
theorem heapifyBinaryMinHeap_preserves : ∀ (fuel : Nat) (h : BinaryMinHeap) (position b : Nat),
    heapInvAt h b → position < b →
    heapInvAt (heapifyBinaryMinHeap fuel h position) b ∧
    (heapifyBinaryMinHeap fuel h position).size = h.size ∧
    (heapifyBinaryMinHeap fuel h position).positions.length = h.positions.length ∧
    (heapifyBinaryMinHeap fuel h position).elements.length = h.elements.length ∧
    (∀ v : Nat, h.positions.getD v 0 = UNSET_ELEMENT →
      (heapifyBinaryMinHeap fuel h position).positions.getD v 0 = UNSET_ELEMENT) := by
  intro fuel
  induction fuel with
  | zero =>
    intro h position b hinv hpos
    exact ⟨hinv, rfl, rfl, rfl, fun v hv => hv⟩
  | succ f ih =>
    intro h position b hinv hpos
    rw [heapifyBinaryMinHeap]
    by_cases hc : (h.elements.getD position default).weight <
        (h.elements.getD ((position - 1) / 2) default).weight
    · rw [if_pos hc]
      have hpar : (position - 1) / 2 < b := lt_of_le_of_lt (by omega) hpos
      obtain ⟨hswInv, hswU⟩ := swap_heapInvAt hinv hpos hpar
      obtain ⟨i1, i2, i3, i4, i5⟩ :=
        ih (swapBinaryHeapElement h position ((position - 1) / 2)) ((position - 1) / 2) b
          hswInv hpar
      refine ⟨i1, ?_, ?_, ?_, fun v hv => i5 v (hswU v hv)⟩
      · rw [i2, swapBinaryHeapElement_size]
      · rw [i3, swapBinaryHeapElement_positions_length]
      · rw [i4, swapBinaryHeapElement_elements_length]
    · rw [if_neg hc]
      exact ⟨hinv, rfl, rfl, rfl, fun v hv => hv⟩

/-- Swapping the current position with a slot below `size` keeps the stale
copy at index `size` equal to the element that now sits at the swap
target. -/
theorem swap_stale {h : BinaryMinHeap} {position s : Nat}
    (hM : h.elements.getD position default = h.elements.getD h.size default)
    (hposlt : position < h.size) (hslt : s < h.size)
    (hlenok : h.size ≤ h.elements.length) :
    (swapBinaryHeapElement h position s).elements.getD s default =
      (swapBinaryHeapElement h position s).elements.getD
        (swapBinaryHeapElement h position s).size default := by
  have hE : (swapBinaryHeapElement h position s).elements =
      (h.elements.set position (h.elements.getD s default)).set s
        (h.elements.getD position default) := rfl
  have hS : (swapBinaryHeapElement h position s).size = h.size := rfl
  rw [hE, hS,
    getD_set_self_of_lt _ _ (by rw [List.length_set]; exact lt_of_lt_of_le hslt hlenok),
    getD_set_ne_of_ne _ _ (Nat.ne_of_lt hslt), getD_set_ne_of_ne _ _ (Nat.ne_of_lt hposlt)]
  exact hM

/-- Sift-down preserves the position-index invariant as long as the stale
slot at index `size` holds a copy of the element at the current position
(exactly the situation `popBinaryMinHeap` creates).  The `<= heap->size`
bounds in the source let the stale slot join the smallest-child selection,
but the stale copy can never win the strict comparison against itself, so no
swap ever touches index `size`. -/
theorem heapifyDownBinaryMinHeap_preserves : ∀ (fuel : Nat) (h : BinaryMinHeap) (position : Nat),
    heapInv h →
    (position < h.size →
      h.elements.getD position default = h.elements.getD h.size default) →
    heapInv (heapifyDownBinaryMinHeap fuel h position) ∧
    (heapifyDownBinaryMinHeap fuel h position).size = h.size ∧
    (heapifyDownBinaryMinHeap fuel h position).positions.length = h.positions.length ∧
    (heapifyDownBinaryMinHeap fuel h position).elements.length = h.elements.length ∧
    (∀ v : Nat, h.positions.getD v 0 = UNSET_ELEMENT →
      (heapifyDownBinaryMinHeap fuel h position).positions.getD v 0 = UNSET_ELEMENT) := by
  intro fuel
  induction fuel with
  | zero =>
    intro h position hinv hstale
    exact ⟨hinv, rfl, rfl, rfl, fun v hv => hv⟩
  | succ f ih =>
    intro h position hinv hstale
    rw [heapifyDownBinaryMinHeap]
    dsimp only
    by_cases hpos : position < h.size
    · rw [if_pos hpos]
      have hM := hstale hpos
      have hlenok : h.size ≤ h.elements.length := hinv.1
      by_cases hc1 : (position + 1) * 2 - 1 ≤ h.size ∧
          (h.elements.getD ((position + 1) * 2 - 1) default).weight <
            (h.elements.getD position default).weight
      · rw [if_pos hc1]
        have hLlt : (position + 1) * 2 - 1 < h.size := by
          rcases Nat.lt_or_ge ((position + 1) * 2 - 1) h.size with h' | h'
          · exact h'
          · exfalso
            have hLeq : (position + 1) * 2 - 1 = h.size := le_antisymm hc1.1 h'
            have := hc1.2
            rw [hLeq, ← hM] at this
            exact lt_irrefl _ this
        by_cases hc2 : (position + 1) * 2 ≤ h.size ∧
            (h.elements.getD ((position + 1) * 2) default).weight <
              (h.elements.getD ((position + 1) * 2 - 1) default).weight
        · rw [if_pos hc2]
          have hRlt : (position + 1) * 2 < h.size := by
            rcases Nat.lt_or_ge ((position + 1) * 2) h.size with h' | h'
            · exact h'
            · exfalso
              have hReq : (position + 1) * 2 = h.size := le_antisymm hc2.1 h'
              have := hc2.2
              nth_rewrite 1 [hReq] at this
              rw [← hM] at this
              exact lt_asymm hc1.2 this
          by_cases hc3 : (h.elements.getD ((position + 1) * 2) default).weight <
              (h.elements.getD position default).weight
          · rw [if_pos hc3]
            obtain ⟨hswInv, hswU⟩ := swap_heapInvAt (b := h.size) hinv hpos hRlt
            obtain ⟨i1, i2, i3, i4, i5⟩ :=
              ih (swapBinaryHeapElement h position ((position + 1) * 2))
                ((position + 1) * 2) hswInv
                (fun _ => swap_stale hM hpos hRlt hlenok)
            refine ⟨i1, ?_, ?_, ?_, fun v hv => i5 v (hswU v hv)⟩
            · rw [i2, swapBinaryHeapElement_size]
            · rw [i3, swapBinaryHeapElement_positions_length]
            · rw [i4, swapBinaryHeapElement_elements_length]
          · rw [if_neg hc3]
            exact ⟨hinv, rfl, rfl, rfl, fun v hv => hv⟩
        · rw [if_neg hc2]
          rw [if_pos hc1.2]
          obtain ⟨hswInv, hswU⟩ := swap_heapInvAt (b := h.size) hinv hpos hLlt
          obtain ⟨i1, i2, i3, i4, i5⟩ :=
            ih (swapBinaryHeapElement h position ((position + 1) * 2 - 1))
              ((position + 1) * 2 - 1) hswInv
              (fun _ => swap_stale hM hpos hLlt hlenok)
          refine ⟨i1, ?_, ?_, ?_, fun v hv => i5 v (hswU v hv)⟩
          · rw [i2, swapBinaryHeapElement_size]
          · rw [i3, swapBinaryHeapElement_positions_length]
          · rw [i4, swapBinaryHeapElement_elements_length]
      · rw [if_neg hc1]
        by_cases hc2 : (position + 1) * 2 ≤ h.size ∧
            (h.elements.getD ((position + 1) * 2) default).weight <
              (h.elements.getD position default).weight
        · rw [if_pos hc2]
          have hRlt : (position + 1) * 2 < h.size := by
            rcases Nat.lt_or_ge ((position + 1) * 2) h.size with h' | h'
            · exact h'
            · exfalso
              have hReq : (position + 1) * 2 = h.size := le_antisymm hc2.1 h'
              have := hc2.2
              rw [hReq, ← hM] at this
              exact lt_irrefl _ this
          by_cases hc3 : (h.elements.getD ((position + 1) * 2) default).weight <
              (h.elements.getD position default).weight
          · rw [if_pos hc3]
            obtain ⟨hswInv, hswU⟩ := swap_heapInvAt (b := h.size) hinv hpos hRlt
            obtain ⟨i1, i2, i3, i4, i5⟩ :=
              ih (swapBinaryHeapElement h position ((position + 1) * 2))
                ((position + 1) * 2) hswInv
                (fun _ => swap_stale hM hpos hRlt hlenok)
            refine ⟨i1, ?_, ?_, ?_, fun v hv => i5 v (hswU v hv)⟩
            · rw [i2, swapBinaryHeapElement_size]
            · rw [i3, swapBinaryHeapElement_positions_length]
            · rw [i4, swapBinaryHeapElement_elements_length]
          · rw [if_neg hc3]
            exact ⟨hinv, rfl, rfl, rfl, fun v hv => hv⟩
        · rw [if_neg hc2, if_neg (lt_irrefl _)]
          exact ⟨hinv, rfl, rfl, rfl, fun v hv => hv⟩
    · rw [if_neg hpos]
      exact ⟨hinv, rfl, rfl, rfl, fun v hv => hv⟩

/-- `push` of a vertex that is not currently in the heap preserves the
position-index invariant (at the incremented size). -/
theorem pushBinaryMinHeap_preserves (fuel : Nat) (h : BinaryMinHeap) (vertex : Nat)
    (via weight : Int) (hinv : heapInv h) (hv : vertex < h.positions.length)
    (hfresh : h.positions.getD vertex 0 = UNSET_ELEMENT) :
    heapInv (pushBinaryMinHeap fuel h vertex via weight) ∧
    (pushBinaryMinHeap fuel h vertex via weight).size = h.size + 1 := by
  obtain ⟨hlen, h2c, h3c⟩ := hinv
  have hinv1 : heapInvAt { h with
      elements := setPad h.elements h.size ⟨vertex, via, weight⟩,
      positions := h.positions.set vertex (Int.ofNat h.size) } (h.size + 1) := by
    refine ⟨?_, ?_, ?_⟩
    · rw [setPad_length]
      omega
    · intro i hi
      rw [List.length_set]
      by_cases hieq : i = h.size
      · rw [hieq, getD_setPad_self]
        exact ⟨hv, getD_set_self_of_lt _ _ hv⟩
      · have hilt : i < h.size := by omega
        rw [getD_setPad_ne _ _ _ (lt_of_lt_of_le hilt hlen) (fun hh => hieq hh.symm)]
        have hw := h2c i hilt
        refine ⟨hw.1, ?_⟩
        have hne : (h.elements.getD i default).vertex ≠ vertex := by
          intro hh
          have hwp := hw.2
          rw [hh] at hwp
          exact ofNat_ne_unset i (hwp.symm.trans hfresh)
        rw [getD_set_ne_of_ne _ _ (Ne.symm hne)]
        exact hw.2
    · intro v hvlen
      rw [List.length_set] at hvlen
      by_cases hveq : v = vertex
      · rw [hveq, getD_set_self_of_lt _ _ hv]
        refine iff_of_false (ofNat_ne_unset h.size) ?_
        intro hall
        exact hall h.size (by omega) (by rw [getD_setPad_self])
      · rw [getD_set_ne_of_ne _ _ (Ne.symm hveq), h3c v hvlen]
        constructor
        · intro hall i hi
          by_cases hieq : i = h.size
          · rw [hieq, getD_setPad_self]
            exact fun hh => hveq hh.symm
          · have hilt : i < h.size := by omega
            rw [getD_setPad_ne _ _ _ (lt_of_lt_of_le hilt hlen) (fun hh => hieq hh.symm)]
            exact hall i hilt
        · intro hall i hi
          have hthis := hall i (by omega)
          rw [getD_setPad_ne _ _ _ (lt_of_lt_of_le hi hlen)
            (Ne.symm (Nat.ne_of_lt hi))] at hthis
          exact hthis
  obtain ⟨i1, i2, i3, i4, i5⟩ :=
    heapifyBinaryMinHeap_preserves fuel _ h.size (h.size + 1) hinv1 (by omega)
  constructor
  · show heapInvAt _ _
    have i1x : heapInvAt (heapifyBinaryMinHeap fuel { h with
        elements := setPad h.elements h.size ⟨vertex, via, weight⟩,
        positions := h.positions.set vertex (Int.ofNat h.size) } h.size)
        ((heapifyBinaryMinHeap fuel { h with
          elements := setPad h.elements h.size ⟨vertex, via, weight⟩,
          positions := h.positions.set vertex (Int.ofNat h.size) } h.size).size + 1) := by
      rw [i2]
      exact i1
    exact i1x
  · show (heapifyBinaryMinHeap fuel _ h.size).size + 1 = h.size + 1
    rw [i2]

/-- `decrease` preserves the position-index invariant: the in-place update
keeps the stored vertex, and the sift-up only swaps slots below `size`. -/
theorem decreaseBinaryMinHeap_preserves (fuel : Nat) (h : BinaryMinHeap) (vertex : Nat)
    (via weight : Int) (hinv : heapInv h) (hv : vertex < h.positions.length) :
    heapInv (decreaseBinaryMinHeap fuel h vertex via weight) := by
  obtain ⟨hlen, h2c, h3c⟩ := hinv
  unfold decreaseBinaryMinHeap
  dsimp only
  by_cases hc : ¬h.positions.getD vertex 0 = UNSET_ELEMENT ∧
      weight < (h.elements.getD (h.positions.getD vertex 0).toNat default).weight
  · rw [if_pos hc]
    have hex : ¬∀ i, i < h.size → (h.elements.getD i default).vertex ≠ vertex :=
      fun hall => hc.1 ((h3c vertex hv).mpr hall)
    push_neg at hex
    obtain ⟨i, hi, hvi⟩ := hex
    have hp : h.positions.getD vertex 0 = Int.ofNat i := by
      have := (h2c i hi).2
      rw [hvi] at this
      exact this
    have hpt : (h.positions.getD vertex 0).toNat = i := by
      rw [hp]
      rfl
    rw [hpt]
    have hinv1 : heapInvAt { h with
        elements := h.elements.set i
          ⟨(h.elements.getD i default).vertex, via, weight⟩ } h.size := by
      refine ⟨?_, ?_, ?_⟩
      · rw [List.length_set]
        exact hlen
      · intro j hj
        by_cases hji : j = i
        · rw [hji, getD_set_self_of_lt _ _ (lt_of_lt_of_le hi hlen)]
          exact h2c i hi
        · rw [getD_set_ne_of_ne _ _ (fun hh => hji hh.symm)]
          exact h2c j hj
      · intro v hvlen
        rw [h3c v hvlen]
        constructor
        · intro hall j hj
          by_cases hji : j = i
          · rw [hji, getD_set_self_of_lt _ _ (lt_of_lt_of_le hi hlen)]
            exact hall i hi
          · rw [getD_set_ne_of_ne _ _ (fun hh => hji hh.symm)]
            exact hall j hj
        · intro hall j hj
          have hthis := hall j hj
          by_cases hji : j = i
          · rw [hji, getD_set_self_of_lt _ _ (lt_of_lt_of_le hi hlen)] at hthis
            rw [hji]
            exact hthis
          · rw [getD_set_ne_of_ne _ _ (fun hh => hji hh.symm)] at hthis
            exact hthis
    obtain ⟨i1, i2, i3, i4, i5⟩ :=
      heapifyBinaryMinHeap_preserves fuel _ i h.size hinv1 hi
    show heapInvAt _ _
    rw [i2]
    exact i1
  · rw [if_neg hc]
    exact ⟨hlen, h2c, h3c⟩

/-- `pop` with at least two elements preserves the position-index invariant:
the root vertex ends `UNSET_ELEMENT`, the old last element moves to the root,
and the sift-down never writes the stale slot. -/
theorem popBinaryMinHeap_preserves (fuel : Nat) (h : BinaryMinHeap)
    (hinv : heapInv h) (hsz : 2 ≤ h.size) :
    heapInv (popBinaryMinHeap fuel h).1 ∧
    (popBinaryMinHeap fuel h).1.size = h.size - 1 ∧
    (popBinaryMinHeap fuel h).2 = h.elements.getD 0 default ∧
    (popBinaryMinHeap fuel h).1.positions.getD (h.elements.getD 0 default).vertex 0 =
      UNSET_ELEMENT := by
  obtain ⟨hlen, h2c, h3c⟩ := hinv
  have h0 : 0 < h.size := by omega
  have h0E : 0 < h.elements.length := lt_of_lt_of_le h0 hlen
  have hs1 : h.size - 1 < h.size := by omega
  have hv0 := h2c 0 h0
  have hvL := h2c (h.size - 1) hs1
  have hinj : ∀ i j, i < h.size → j < h.size →
      (h.elements.getD i default).vertex = (h.elements.getD j default).vertex → i = j := by
    intro i j hi hj hveq
    have hhi := (h2c i hi).2
    have hhj := (h2c j hj).2
    rw [hveq] at hhi
    rw [hhi] at hhj
    exact Int.ofNat.inj hhj
  have hne : (h.elements.getD 0 default).vertex ≠
      (h.elements.getD (h.size - 1) default).vertex := by
    intro hh
    have := hinj 0 (h.size - 1) h0 hs1 hh
    omega
  have hidx : (h.elements.set 0 (h.elements.getD (h.size - 1) default)).getD 0 default =
      h.elements.getD (h.size - 1) default := getD_set_self_of_lt _ _ h0E
  have hpop1 : (popBinaryMinHeap fuel h).1 = heapifyDownBinaryMinHeap fuel
      { h with
        size := h.size - 1,
        positions := (h.positions.set (h.elements.getD 0 default).vertex
            UNSET_ELEMENT).set
          ((h.elements.set 0 (h.elements.getD (h.size - 1) default)).getD 0
            default).vertex (Int.ofNat 0),
        elements := h.elements.set 0 (h.elements.getD (h.size - 1) default) } 0 := rfl
  rw [hidx] at hpop1
  have hpop2 : (popBinaryMinHeap fuel h).2 = h.elements.getD 0 default := rfl
  have hPv0 : ((h.positions.set (h.elements.getD 0 default).vertex
      UNSET_ELEMENT).set (h.elements.getD (h.size - 1) default).vertex
      (Int.ofNat 0)).getD (h.elements.getD 0 default).vertex 0 = UNSET_ELEMENT := by
    rw [getD_set_ne_of_ne _ _ (Ne.symm hne), getD_set_self_of_lt _ _ hv0.1]
  have hPvL : ((h.positions.set (h.elements.getD 0 default).vertex
      UNSET_ELEMENT).set (h.elements.getD (h.size - 1) default).vertex
      (Int.ofNat 0)).getD (h.elements.getD (h.size - 1) default).vertex 0 =
      Int.ofNat 0 :=
    getD_set_self_of_lt _ _ (by rw [List.length_set]; exact hvL.1)
  have hPother : ∀ v, v ≠ (h.elements.getD 0 default).vertex →
      v ≠ (h.elements.getD (h.size - 1) default).vertex →
      ((h.positions.set (h.elements.getD 0 default).vertex UNSET_ELEMENT).set
        (h.elements.getD (h.size - 1) default).vertex (Int.ofNat 0)).getD v 0 =
        h.positions.getD v 0 := by
    intro v hh0 hhL
    rw [getD_set_ne_of_ne _ _ (Ne.symm hhL), getD_set_ne_of_ne _ _ (Ne.symm hh0)]
  have hE0 : (h.elements.set 0 (h.elements.getD (h.size - 1) default)).getD 0 default =
      h.elements.getD (h.size - 1) default := hidx
  have hEother : ∀ j, j ≠ 0 →
      (h.elements.set 0 (h.elements.getD (h.size - 1) default)).getD j default =
      h.elements.getD j default := by
    intro j hj
    rw [getD_set_ne_of_ne _ _ (Ne.symm hj)]
  have hinv4 : heapInvAt { h with
      size := h.size - 1,
      positions := (h.positions.set (h.elements.getD 0 default).vertex
          UNSET_ELEMENT).set (h.elements.getD (h.size - 1) default).vertex
        (Int.ofNat 0),
      elements := h.elements.set 0 (h.elements.getD (h.size - 1) default) }
      (h.size - 1) := by
    refine ⟨?_, ?_, ?_⟩
    · rw [List.length_set]
      omega
    · intro i hi
      rw [List.length_set, List.length_set]
      by_cases hi0 : i = 0
      · rw [hi0, hE0]
        exact ⟨hvL.1, hPvL⟩
      · rw [hEother i hi0]
        have hw := h2c i (by omega)
        refine ⟨hw.1, ?_⟩
        have hw0 : (h.elements.getD i default).vertex ≠
            (h.elements.getD 0 default).vertex := fun hh =>
          hi0 (hinj i 0 (by omega) h0 hh)
        have hwL : (h.elements.getD i default).vertex ≠
            (h.elements.getD (h.size - 1) default).vertex := fun hh =>
          absurd (hinj i (h.size - 1) (by omega) hs1 hh) (by omega)
        rw [hPother _ hw0 hwL]
        exact hw.2
    · intro v hvlen
      rw [List.length_set, List.length_set] at hvlen
      by_cases hvL2 : v = (h.elements.getD (h.size - 1) default).vertex
      · rw [hvL2]
        refine iff_of_false (by rw [hPvL]; exact ofNat_ne_unset 0) ?_
        intro hall
        exact hall 0 (by omega) (by rw [hE0])
      · by_cases hv02 : v = (h.elements.getD 0 default).vertex
        · rw [hv02]
          refine iff_of_true hPv0 ?_
          intro i hi
          by_cases hi0 : i = 0
          · rw [hi0, hE0]
            exact fun hh => hne hh.symm
          · rw [hEother i hi0]
            exact fun hh => hi0 (hinj i 0 (by omega) h0 hh)
        · rw [hPother v (fun hh => hv02 hh) (fun hh => hvL2 hh), h3c v hvlen]
          constructor
          · intro hall i hi
            by_cases hi0 : i = 0
            · rw [hi0, hE0]
              exact hall (h.size - 1) hs1
            · rw [hEother i hi0]
              exact hall i (by omega)
          · intro hall i hi
            by_cases hi0 : i = 0
            · rw [hi0]
              exact fun hh => hv02 hh.symm
            · by_cases hiL : i = h.size - 1
              · rw [hiL]
                exact fun hh => hvL2 hh.symm
              · have hthis := hall i (by omega)
                rw [hEother i hi0] at hthis
                exact hthis
  have hstale4 : (0 : Nat) < h.size - 1 →
      (h.elements.set 0 (h.elements.getD (h.size - 1) default)).getD 0 default =
      (h.elements.set 0 (h.elements.getD (h.size - 1) default)).getD (h.size - 1)
        default := by
    intro _
    rw [hE0, hEother (h.size - 1) (by omega)]
  obtain ⟨d1, d2, d3, d4, d5⟩ :=
    heapifyDownBinaryMinHeap_preserves fuel
      { h with
        size := h.size - 1,
        positions := (h.positions.set (h.elements.getD 0 default).vertex
            UNSET_ELEMENT).set (h.elements.getD (h.size - 1) default).vertex
          (Int.ofNat 0),
        elements := h.elements.set 0 (h.elements.getD (h.size - 1) default) } 0
      hinv4 (fun hlt => hstale4 hlt)
  refine ⟨?_, ?_, hpop2, ?_⟩
  · rw [hpop1]
    exact d1
  · rw [hpop1, d2]
  · rw [hpop1]
    exact d5 _ hPv0

/-- C3 (amended): `push` of a vertex not currently in the heap and `decrease`
preserve the position-index invariant, and `pop` preserves it when at least
two elements remain — the popped root vertex ends `UNSET_ELEMENT` and the
size drops by one.  (Popping the last remaining element does NOT preserve it:
the source re-writes `positions[elements[0].vertex] = 0` after the unset, see
the counterexample.) -/
theorem claim_C3_position_index_invariant (fuel : Nat) (h : BinaryMinHeap)
    (vertex : Nat) (via weight : Int)
    (hinv : heapInv h) (hv : vertex < h.positions.length) :
    (h.positions.getD vertex 0 = UNSET_ELEMENT →
      heapInv (pushBinaryMinHeap fuel h vertex via weight) ∧
      (pushBinaryMinHeap fuel h vertex via weight).size = h.size + 1) ∧
    heapInv (decreaseBinaryMinHeap fuel h vertex via weight) ∧
    (2 ≤ h.size →
      heapInv (popBinaryMinHeap fuel h).1 ∧
      (popBinaryMinHeap fuel h).1.size = h.size - 1 ∧
      (popBinaryMinHeap fuel h).2 = h.elements.getD 0 default ∧
      (popBinaryMinHeap fuel h).1.positions.getD
        (h.elements.getD 0 default).vertex 0 = UNSET_ELEMENT) :=
  ⟨fun hfresh => pushBinaryMinHeap_preserves fuel h vertex via weight hinv hv hfresh,
   decreaseBinaryMinHeap_preserves fuel h vertex via weight hinv hv,
   fun hsz => popBinaryMinHeap_preserves fuel h hinv hsz⟩

theorem claim_C3_position_index_invariant_witness :
    (heapInv (⟨2, [0, 1, -1], [⟨0, 7, 1⟩, ⟨1, 8, 5⟩]⟩ : BinaryMinHeap) ∧
      (2 : Nat) <
        (⟨2, [0, 1, -1], [⟨0, 7, 1⟩, ⟨1, 8, 5⟩]⟩ : BinaryMinHeap).positions.length) ∧
    heapInv (popBinaryMinHeap 4 ⟨2, [0, 1, -1], [⟨0, 7, 1⟩, ⟨1, 8, 5⟩]⟩).1 ∧
    heapInv (pushBinaryMinHeap 4 ⟨2, [0, 1, -1], [⟨0, 7, 1⟩, ⟨1, 8, 5⟩]⟩ 2 9 3) :=
  ⟨⟨by decide, by decide⟩,
   ((claim_C3_position_index_invariant 4 ⟨2, [0, 1, -1], [⟨0, 7, 1⟩, ⟨1, 8, 5⟩]⟩ 2 9 3
      (by decide) (by decide)).2.2 (by decide)).1,
   ((claim_C3_position_index_invariant 4 ⟨2, [0, 1, -1], [⟨0, 7, 1⟩, ⟨1, 8, 5⟩]⟩ 2 9 3
      (by decide) (by decide)).1 (by decide)).1⟩

/-- C3 counterexample: popping the last remaining element of a valid heap
leaves `positions[v] = 0` for the popped vertex instead of `UNSET_ELEMENT`
(lines 1052–1054 of `mst.c` write `UNSET_ELEMENT` and then overwrite it with
`0` because the moved "last" element is the root itself), so the invariant
fails on the resulting empty heap. -/
theorem claim_C3_counterexample :
    heapInv (⟨1, [Int.ofNat 0], [⟨0, 0, 5⟩]⟩ : BinaryMinHeap) ∧
    (popBinaryMinHeap 2 ⟨1, [Int.ofNat 0], [⟨0, 0, 5⟩]⟩).1.size = 0 ∧
    (popBinaryMinHeap 2 ⟨1, [Int.ofNat 0], [⟨0, 0, 5⟩]⟩).1.positions.getD 0 0 = 0 ∧
    ¬heapInv (popBinaryMinHeap 2 ⟨1, [Int.ofNat 0], [⟨0, 0, 5⟩]⟩).1 := by
  decide

/-! ## Theorems: Fibonacci min-heap -/

theorem getNode_setNode_self (s : FibState) (i : Nat) (e : FibonacciHeapElement)
    (h : i < s.nodes.length) : getNode (setNode s i e) i = e := by
  unfold getNode setNode
  exact getD_set_self_of_lt e default h

theorem getNode_setNode_ne (s : FibState) {i j : Nat} (e : FibonacciHeapElement)
    (h : i ≠ j) : getNode (setNode s i e) j = getNode s j := by
  unfold getNode setNode
  exact getD_set_ne_of_ne e default h

theorem setNode_size (s : FibState) (i : Nat) (e : FibonacciHeapElement) :
    (setNode s i e).size = s.size := rfl

theorem setNode_minimum (s : FibState) (i : Nat) (e : FibonacciHeapElement) :
    (setNode s i e).minimum = s.minimum := rfl

theorem setNode_positions (s : FibState) (i : Nat) (e : FibonacciHeapElement) :
    (setNode s i e).positions = s.positions := rfl

theorem setNode_nodes_length (s : FibState) (i : Nat) (e : FibonacciHeapElement) :
    (setNode s i e).nodes.length = s.nodes.length := by
  unfold setNode
  exact List.length_set s.nodes i e

/-- C10: popping an empty Fibonacci heap (`minimum == NULL`) is a total
no-op — the returned state is the input state (size, minimum and positions
untouched) and no vertex/via/weight output is produced. -/
theorem claim_C10_pop_empty_noop (fuel : Nat) (s : FibState)
    (h : s.minimum = none) :
    popFibonacciMinHeap fuel s = some (s, none) := by
  unfold popFibonacciMinHeap
  rw [h]

theorem claim_C10_pop_empty_noop_witness :
    (⟨[], 0, none, []⟩ : FibState).minimum = none ∧
    popFibonacciMinHeap 1 ⟨[], 0, none, []⟩ = some (⟨[], 0, none, []⟩, none) :=
  ⟨rfl, claim_C10_pop_empty_noop 1 ⟨[], 0, none, []⟩ rfl⟩

/-- C8 counterexample: cutting the marked only child (node 1) of a root
(node 0) splices it into the root list with `parent := none`, decrements the
parent's degree and clears the parent's child pointer — but the cut node's
`marked` flag stays `true`: the source never writes `element->marked` for the
node being cut. -/
theorem claim_C8_counterexample :
    cutFibonacciMinHeap 3
      ⟨[⟨false, 1, 0, 0, 1, none, some 1, some 0, some 0⟩,
        ⟨true, 0, 1, 0, 5, some 0, none, some 1, some 1⟩], 2, some 0,
        [some 0, some 1]⟩ 1 =
      some ⟨[⟨false, 0, 0, 0, 1, none, none, some 1, some 1⟩,
        ⟨true, 0, 1, 0, 5, none, none, some 0, some 0⟩], 2, some 0,
        [some 0, some 1]⟩ ∧
    Option.map (fun s' => (getNode s' 1).marked)
      (cutFibonacciMinHeap 3
        ⟨[⟨false, 1, 0, 0, 1, none, some 1, some 0, some 0⟩,
          ⟨true, 0, 1, 0, 5, some 0, none, some 1, some 1⟩], 2, some 0,
          [some 0, some 1]⟩ 1) = some true := by
  decide

theorem setNode_oob (t : FibState) (a : Nat) (e : FibonacciHeapElement)
    (h : t.nodes.length ≤ a) : setNode t a e = t := by
  unfold setNode
  rw [List.set_eq_of_length_le h]

/-- Reading any single field through a store write: if the written record
keeps the field of the overwritten node, every node reads the field as
before; writes to other nodes never matter. -/
theorem field_setNode {β : Type} (f : FibonacciHeapElement → β) (t : FibState)
    (a : Nat) (e : FibonacciHeapElement) (q : Nat)
    (h : f e = f (getNode t a) ∨ q ≠ a) :
    f (getNode (setNode t a e) q) = f (getNode t q) := by
  rcases h with h | h
  · by_cases hq : q = a
    · subst hq
      by_cases hlen : q < t.nodes.length
      · rw [getNode_setNode_self _ _ _ hlen, h]
      · rw [setNode_oob _ _ _ (by omega)]
    · rw [getNode_setNode_ne _ _ (Ne.symm hq)]
  · rw [getNode_setNode_ne _ _ (Ne.symm h)]

theorem getNode_minIf (c : Prop) [Decidable c] (t : FibState) (a : Option Nat)
    (q : Nat) : getNode (if c then { t with minimum := a } else t) q = getNode t q := by
  split <;> rfl

theorem size_minIf (c : Prop) [Decidable c] (t : FibState) (a : Option Nat) :
    (if c then { t with minimum := a } else t).size = t.size := by
  split <;> rfl

theorem positions_minIf (c : Prop) [Decidable c] (t : FibState) (a : Option Nat) :
    (if c then { t with minimum := a } else t).positions = t.positions := by
  split <;> rfl

theorem minimum_minIf (c : Prop) [Decidable c] (t : FibState) (a : Option Nat) :
    (if c then { t with minimum := a } else t).minimum =
      if c then a else t.minimum := by
  split <;> rfl

theorem nodes_length_minIf (c : Prop) [Decidable c] (t : FibState) (a : Option Nat) :
    (if c then { t with minimum := a } else t).nodes.length = t.nodes.length := by
  split <;> rfl

/-- Symbolic evaluation of `insertFibonacciMinHeap` on a non-empty heap with
a resolvable `minimum->left`. -/
theorem insert_eval (sd : FibState) (x m ml : Nat) (hmin : sd.minimum = some m)
    (hml : (getNode sd m).left = some ml) :
    insertFibonacciMinHeap sd x = some (
      let s1 := setNode sd m { getNode sd m with left := some x }
      let s2 := setNode s1 x { getNode s1 x with left := some ml }
      let s3 := setNode s2 ml { getNode s2 ml with right := some x }
      let s4 := setNode s3 x { getNode s3 x with right := some m }
      if (getNode s4 x).weight < (getNode s4 m).weight then
        { s4 with minimum := some x } else s4) := by
  unfold insertFibonacciMinHeap
  rw [hmin]
  dsimp only
  rw [hml]

theorem peel_left {β : Type} (f : FibonacciHeapElement → β)
    (hf : ∀ (r : FibonacciHeapElement) (v : Option Nat),
      f ⟨r.marked, r.childrens, r.vertex, r.via, r.weight, r.parent, r.child, v,
        r.right⟩ = f r)
    (t : FibState) (a q : Nat) (v : Option Nat) :
    f (getNode (setNode t a ⟨(getNode t a).marked, (getNode t a).childrens,
      (getNode t a).vertex, (getNode t a).via, (getNode t a).weight,
      (getNode t a).parent, (getNode t a).child, v, (getNode t a).right⟩) q) =
      f (getNode t q) :=
  field_setNode f t a _ q (Or.inl (hf _ _))

theorem peel_right {β : Type} (f : FibonacciHeapElement → β)
    (hf : ∀ (r : FibonacciHeapElement) (v : Option Nat),
      f ⟨r.marked, r.childrens, r.vertex, r.via, r.weight, r.parent, r.child,
        r.left, v⟩ = f r)
    (t : FibState) (a q : Nat) (v : Option Nat) :
    f (getNode (setNode t a ⟨(getNode t a).marked, (getNode t a).childrens,
      (getNode t a).vertex, (getNode t a).via, (getNode t a).weight,
      (getNode t a).parent, (getNode t a).child, (getNode t a).left, v⟩) q) =
      f (getNode t q) :=
  field_setNode f t a _ q (Or.inl (hf _ _))

theorem peel_parent {β : Type} (f : FibonacciHeapElement → β)
    (hf : ∀ (r : FibonacciHeapElement) (v : Option Nat),
      f ⟨r.marked, r.childrens, r.vertex, r.via, r.weight, v, r.child, r.left,
        r.right⟩ = f r)
    (t : FibState) (a q : Nat) (v : Option Nat) :
    f (getNode (setNode t a ⟨(getNode t a).marked, (getNode t a).childrens,
      (getNode t a).vertex, (getNode t a).via, (getNode t a).weight, v,
      (getNode t a).child, (getNode t a).left, (getNode t a).right⟩) q) =
      f (getNode t q) :=
  field_setNode f t a _ q (Or.inl (hf _ _))

theorem peel_child {β : Type} (f : FibonacciHeapElement → β)
    (hf : ∀ (r : FibonacciHeapElement) (v : Option Nat),
      f ⟨r.marked, r.childrens, r.vertex, r.via, r.weight, r.parent, v, r.left,
        r.right⟩ = f r)
    (t : FibState) (a q : Nat) (v : Option Nat) :
    f (getNode (setNode t a ⟨(getNode t a).marked, (getNode t a).childrens,
      (getNode t a).vertex, (getNode t a).via, (getNode t a).weight,
      (getNode t a).parent, v, (getNode t a).left, (getNode t a).right⟩) q) =
      f (getNode t q) :=
  field_setNode f t a _ q (Or.inl (hf _ _))

theorem peel_childrens {β : Type} (f : FibonacciHeapElement → β)
    (hf : ∀ (r : FibonacciHeapElement) (v : Int),
      f ⟨r.marked, v, r.vertex, r.via, r.weight, r.parent, r.child, r.left,
        r.right⟩ = f r)
    (t : FibState) (a q : Nat) (v : Int) :
    f (getNode (setNode t a ⟨(getNode t a).marked, v, (getNode t a).vertex,
      (getNode t a).via, (getNode t a).weight, (getNode t a).parent,
      (getNode t a).child, (getNode t a).left, (getNode t a).right⟩) q) =
      f (getNode t q) :=
  field_setNode f t a _ q (Or.inl (hf _ _))

theorem peel_marked {β : Type} (f : FibonacciHeapElement → β)
    (hf : ∀ (r : FibonacciHeapElement) (v : Bool),
      f ⟨v, r.childrens, r.vertex, r.via, r.weight, r.parent, r.child, r.left,
        r.right⟩ = f r)
    (t : FibState) (a q : Nat) (v : Bool) :
    f (getNode (setNode t a ⟨v, (getNode t a).childrens, (getNode t a).vertex,
      (getNode t a).via, (getNode t a).weight, (getNode t a).parent,
      (getNode t a).child, (getNode t a).left, (getNode t a).right⟩) q) =
      f (getNode t q) :=
  field_setNode f t a _ q (Or.inl (hf _ _))

/-- Effect of a single `left`-pointer write on every observable. -/
theorem write_left_facts (t : FibState) (a : Nat) (v : Option Nat) :
    (setNode t a { getNode t a with left := v }).nodes.length = t.nodes.length ∧
    (∀ q, (getNode (setNode t a { getNode t a with left := v }) q).marked =
      (getNode t q).marked) ∧
    (∀ q, (getNode (setNode t a { getNode t a with left := v }) q).childrens =
      (getNode t q).childrens) ∧
    (∀ q, (getNode (setNode t a { getNode t a with left := v }) q).child =
      (getNode t q).child) ∧
    (∀ q, (getNode (setNode t a { getNode t a with left := v }) q).parent =
      (getNode t q).parent) ∧
    (∀ q, (getNode (setNode t a { getNode t a with left := v }) q).weight =
      (getNode t q).weight) ∧
    (∀ q, (getNode (setNode t a { getNode t a with left := v }) q).right =
      (getNode t q).right) ∧
    (∀ q, q ≠ a → (getNode (setNode t a { getNode t a with left := v }) q).left =
      (getNode t q).left) ∧
    (a < t.nodes.length → (getNode (setNode t a { getNode t a with left := v }) a).left = v) ∧
    (setNode t a { getNode t a with left := v }).size = t.size ∧
    (setNode t a { getNode t a with left := v }).minimum = t.minimum ∧
    (setNode t a { getNode t a with left := v }).positions = t.positions := by
  refine ⟨setNode_nodes_length t a _,
    fun q => field_setNode FibonacciHeapElement.marked t a _ q (Or.inl rfl),
    fun q => field_setNode FibonacciHeapElement.childrens t a _ q (Or.inl rfl),
    fun q => field_setNode FibonacciHeapElement.child t a _ q (Or.inl rfl),
    fun q => field_setNode FibonacciHeapElement.parent t a _ q (Or.inl rfl),
    fun q => field_setNode FibonacciHeapElement.weight t a _ q (Or.inl rfl),
    fun q => field_setNode FibonacciHeapElement.right t a _ q (Or.inl rfl),
    fun q hq => field_setNode FibonacciHeapElement.left t a _ q (Or.inr hq),
    fun ha => ?_, setNode_size t a _, setNode_minimum t a _, setNode_positions t a _⟩
  rw [getNode_setNode_self _ _ _ ha]

/-- Effect of a single `right`-pointer write on every observable. -/
theorem write_right_facts (t : FibState) (a : Nat) (v : Option Nat) :
    (setNode t a { getNode t a with right := v }).nodes.length = t.nodes.length ∧
    (∀ q, (getNode (setNode t a { getNode t a with right := v }) q).marked =
      (getNode t q).marked) ∧
    (∀ q, (getNode (setNode t a { getNode t a with right := v }) q).childrens =
      (getNode t q).childrens) ∧
    (∀ q, (getNode (setNode t a { getNode t a with right := v }) q).child =
      (getNode t q).child) ∧
    (∀ q, (getNode (setNode t a { getNode t a with right := v }) q).parent =
      (getNode t q).parent) ∧
    (∀ q, (getNode (setNode t a { getNode t a with right := v }) q).weight =
      (getNode t q).weight) ∧
    (∀ q, (getNode (setNode t a { getNode t a with right := v }) q).left =
      (getNode t q).left) ∧
    (∀ q, q ≠ a → (getNode (setNode t a { getNode t a with right := v }) q).right =
      (getNode t q).right) ∧
    (a < t.nodes.length → (getNode (setNode t a { getNode t a with right := v }) a).right = v) ∧
    (setNode t a { getNode t a with right := v }).size = t.size ∧
    (setNode t a { getNode t a with right := v }).minimum = t.minimum ∧
    (setNode t a { getNode t a with right := v }).positions = t.positions := by
  refine ⟨setNode_nodes_length t a _,
    fun q => field_setNode FibonacciHeapElement.marked t a _ q (Or.inl rfl),
    fun q => field_setNode FibonacciHeapElement.childrens t a _ q (Or.inl rfl),
    fun q => field_setNode FibonacciHeapElement.child t a _ q (Or.inl rfl),
    fun q => field_setNode FibonacciHeapElement.parent t a _ q (Or.inl rfl),
    fun q => field_setNode FibonacciHeapElement.weight t a _ q (Or.inl rfl),
    fun q => field_setNode FibonacciHeapElement.left t a _ q (Or.inl rfl),
    fun q hq => field_setNode FibonacciHeapElement.right t a _ q (Or.inr hq),
    fun ha => ?_, setNode_size t a _, setNode_minimum t a _, setNode_positions t a _⟩
  rw [getNode_setNode_self _ _ _ ha]

/-- Field-level description of `insertFibonacciMinHeap` on a non-empty root
list: the element is spliced between `minimum->left` and the minimum, no
`marked`/`childrens`/`child`/`parent`/`weight` field changes anywhere, and
the minimum moves to the element exactly on a strictly smaller weight. -/
theorem insert_facts (sd : FibState) (x m ml : Nat)
    (hmx : m ≠ x) (hmlx : ml ≠ x)
    (hxsd : x < sd.nodes.length) (hmsd : m < sd.nodes.length)
    (hmlsd : ml < sd.nodes.length)
    (h1 : sd.minimum = some m) (h2 : (getNode sd m).left = some ml) :
    ∃ si, insertFibonacciMinHeap sd x = some si ∧
      si.nodes.length = sd.nodes.length ∧
      (∀ q, (getNode si q).marked = (getNode sd q).marked) ∧
      (∀ q, (getNode si q).childrens = (getNode sd q).childrens) ∧
      (∀ q, (getNode si q).child = (getNode sd q).child) ∧
      (∀ q, (getNode si q).parent = (getNode sd q).parent) ∧
      (∀ q, (getNode si q).weight = (getNode sd q).weight) ∧
      (getNode si x).left = some ml ∧ (getNode si x).right = some m ∧
      (getNode si m).left = some x ∧ (getNode si ml).right = some x ∧
      si.size = sd.size ∧ si.positions = sd.positions ∧
      si.minimum = (if (getNode sd x).weight < (getNode sd m).weight then some x
        else some m) := by
  rw [insert_eval sd x m ml h1 h2]
  dsimp only
  generalize hg1 : setNode sd m
    (⟨(getNode sd m).marked, (getNode sd m).childrens, (getNode sd m).vertex,
      (getNode sd m).via, (getNode sd m).weight, (getNode sd m).parent,
      (getNode sd m).child, some x, (getNode sd m).right⟩ :
      FibonacciHeapElement) = t1
  generalize hg2 : setNode t1 x
    (⟨(getNode t1 x).marked, (getNode t1 x).childrens, (getNode t1 x).vertex,
      (getNode t1 x).via, (getNode t1 x).weight, (getNode t1 x).parent,
      (getNode t1 x).child, some ml, (getNode t1 x).right⟩ :
      FibonacciHeapElement) = t2
  generalize hg3 : setNode t2 ml
    (⟨(getNode t2 ml).marked, (getNode t2 ml).childrens, (getNode t2 ml).vertex,
      (getNode t2 ml).via, (getNode t2 ml).weight, (getNode t2 ml).parent,
      (getNode t2 ml).child, (getNode t2 ml).left, some x⟩ :
      FibonacciHeapElement) = t3
  generalize hg4 : setNode t3 x
    (⟨(getNode t3 x).marked, (getNode t3 x).childrens, (getNode t3 x).vertex,
      (getNode t3 x).via, (getNode t3 x).weight, (getNode t3 x).parent,
      (getNode t3 x).child, (getNode t3 x).left, some m⟩ :
      FibonacciHeapElement) = t4
  obtain ⟨l1, mk1, cd1, ch1, pa1, w1, rt1, lf1, lfa1, sz1, mi1, po1⟩ :=
    hg1 ▸ write_left_facts sd m (some x)
  obtain ⟨l2, mk2, cd2, ch2, pa2, w2, rt2, lf2, lfa2, sz2, mi2, po2⟩ :=
    hg2 ▸ write_left_facts t1 x (some ml)
  obtain ⟨l3, mk3, cd3, ch3, pa3, w3, lf3, rt3, rta3, sz3, mi3, po3⟩ :=
    hg3 ▸ write_right_facts t2 ml (some x)
  obtain ⟨l4, mk4, cd4, ch4, pa4, w4, lf4, rt4, rta4, sz4, mi4, po4⟩ :=
    hg4 ▸ write_right_facts t3 x (some m)
  have hxt1 : x < t1.nodes.length := by rw [l1]; exact hxsd
  have hxt3 : x < t3.nodes.length := by rw [l3, l2, l1]; exact hxsd
  have hmlt2 : ml < t2.nodes.length := by rw [l2, l1]; exact hmlsd
  refine ⟨_, rfl, ?_, ?_, ?_, ?_, ?_, ?_, ?_, ?_, ?_, ?_, ?_, ?_, ?_⟩
  · rw [nodes_length_minIf, l4, l3, l2, l1]
  · intro q
    rw [getNode_minIf, mk4 q, mk3 q, mk2 q, mk1 q]
  · intro q
    rw [getNode_minIf, cd4 q, cd3 q, cd2 q, cd1 q]
  · intro q
    rw [getNode_minIf, ch4 q, ch3 q, ch2 q, ch1 q]
  · intro q
    rw [getNode_minIf, pa4 q, pa3 q, pa2 q, pa1 q]
  · intro q
    rw [getNode_minIf, w4 q, w3 q, w2 q, w1 q]
  · rw [getNode_minIf, lf4 x, lf3 x, lfa2 hxt1]
  · rw [getNode_minIf, rta4 hxt3]
  · rw [getNode_minIf, lf4 m, lf3 m, lf2 m hmx, lfa1 hmsd]
  · rw [getNode_minIf, rt4 ml hmlx, rta3 hmlt2]
  · rw [size_minIf, sz4, sz3, sz2, sz1]
  · rw [positions_minIf, po4, po3, po2, po1]
  · rw [minimum_minIf, w4 x, w3 x, w2 x, w1 x, w4 m, w3 m, w2 m, w1 m,
      mi4, mi3, mi2, mi1, h1]

/-- Hypothesis-free frame of `insertFibonacciMinHeap`: whatever the store,
a successful insert writes only `left`/`right` pointers and the `minimum`,
never `marked`, `childrens`, `child` or `parent` of any node. -/
theorem insert_frame (sd : FibState) (y : Nat) (si : FibState)
    (h : insertFibonacciMinHeap sd y = some si) :
    si.nodes.length = sd.nodes.length ∧
    (∀ q, (getNode si q).marked = (getNode sd q).marked) ∧
    (∀ q, (getNode si q).childrens = (getNode sd q).childrens) ∧
    (∀ q, (getNode si q).child = (getNode sd q).child) ∧
    (∀ q, (getNode si q).parent = (getNode sd q).parent) := by
  unfold insertFibonacciMinHeap at h
  rcases hm : sd.minimum with _ | m
  · rw [hm] at h
    dsimp only at h
    have hs := Option.some.inj h
    subst hs
    exact ⟨rfl, fun q => rfl, fun q => rfl, fun q => rfl, fun q => rfl⟩
  · rw [hm] at h
    dsimp only at h
    rcases hel : (getNode sd m).left with _ | e
    · rw [hel] at h
      exact Option.noConfusion h
    · rw [hel] at h
      dsimp only at h
      have hs := Option.some.inj h
      subst hs
      refine ⟨?_, fun q => ?_, fun q => ?_, fun q => ?_, fun q => ?_⟩
      · rw [nodes_length_minIf, setNode_nodes_length, setNode_nodes_length,
          setNode_nodes_length, setNode_nodes_length]
      · rw [getNode_minIf,
          peel_right FibonacciHeapElement.marked (fun r v => rfl),
          peel_right FibonacciHeapElement.marked (fun r v => rfl),
          peel_left FibonacciHeapElement.marked (fun r v => rfl),
          peel_left FibonacciHeapElement.marked (fun r v => rfl)]
      · rw [getNode_minIf,
          peel_right FibonacciHeapElement.childrens (fun r v => rfl),
          peel_right FibonacciHeapElement.childrens (fun r v => rfl),
          peel_left FibonacciHeapElement.childrens (fun r v => rfl),
          peel_left FibonacciHeapElement.childrens (fun r v => rfl)]
      · rw [getNode_minIf,
          peel_right FibonacciHeapElement.child (fun r v => rfl),
          peel_right FibonacciHeapElement.child (fun r v => rfl),
          peel_left FibonacciHeapElement.child (fun r v => rfl),
          peel_left FibonacciHeapElement.child (fun r v => rfl)]
      · rw [getNode_minIf,
          peel_right FibonacciHeapElement.parent (fun r v => rfl),
          peel_right FibonacciHeapElement.parent (fun r v => rfl),
          peel_left FibonacciHeapElement.parent (fun r v => rfl),
          peel_left FibonacciHeapElement.parent (fun r v => rfl)]

/-- `chainMemF` reads only `parent` fields. -/
theorem chainMemF_congr (s s2 : FibState)
    (h : ∀ q, (getNode s2 q).parent = (getNode s q).parent) :
    ∀ (fuel : Nat) (y i : Nat), chainMemF fuel s2 y i = chainMemF fuel s y i := by
  intro fuel
  induction fuel with
  | zero =>
    intro y i
    rfl
  | succ fuel ih =>
    intro y i
    rw [chainMemF, chainMemF, h y]
    rcases hq : (getNode s y).parent with _ | q
    · rfl
    · dsimp only
      by_cases hiq : i = q
      · rw [if_pos hiq, if_pos hiq]
      · rw [if_neg hiq, if_neg hiq, ih q i]

/-- Clearing one node's `parent` pointer can only shorten ancestor chains:
any chain membership in the cleared store holds in the original store. -/
theorem chainMemF_mono (s sp : FibState) (y : Nat)
    (h : ∀ z, z ≠ y → (getNode sp z).parent = (getNode s z).parent)
    (hy : (getNode sp y).parent = none) :
    ∀ (fuel : Nat) (q i : Nat),
      chainMemF fuel sp q i = true → chainMemF fuel s q i = true := by
  intro fuel
  induction fuel with
  | zero =>
    intro q i hc
    exact Bool.noConfusion hc
  | succ fuel ih =>
    intro q i hc
    rw [chainMemF] at hc ⊢
    by_cases hqy : q = y
    · subst hqy
      rw [hy] at hc
      exact Bool.noConfusion hc
    · rw [h q hqy] at hc
      rcases hp : (getNode s q).parent with _ | g
      · rw [hp] at hc
        exact Bool.noConfusion hc
      · rw [hp] at hc
        dsimp only at hc ⊢
        by_cases hig : i = g
        · rw [if_pos hig]
        · rw [if_neg hig] at hc ⊢
          exact ih g i hc

/-- Shared tail of `cutFibonacciMinHeap` after the child-list detach, for a
parent that is itself a root: the insert into the root list, the clearing of
the cut node's parent pointer, and the (skipped) cascading-cut branch. -/
theorem cut_insert_tail (fuel : Nat) (s sd : FibState) (x p m ml : Nat)
    (hpx : p ≠ x) (hmx : m ≠ x) (hmlx : ml ≠ x)
    (hx : x < s.nodes.length) (hm : m < s.nodes.length)
    (hmllen : ml < s.nodes.length)
    (hlen : sd.nodes.length = s.nodes.length)
    (h1 : sd.minimum = some m) (h2 : (getNode sd m).left = some ml)
    (h3 : (getNode sd p).parent = none)
    (h4 : (getNode sd x).weight = (getNode s x).weight)
    (h5 : (getNode sd m).weight = (getNode s m).weight) :
    ∃ s',
      (match insertFibonacciMinHeap sd x with
       | none => none
       | some si =>
         match (getNode (setNode si x { getNode si x with parent := none }) p).parent with
         | none => some (setNode si x { getNode si x with parent := none })
         | some _ =>
           if (getNode (setNode si x { getNode si x with parent := none }) p).marked then
             match cutFibonacciMinHeap fuel
                 (setNode si x { getNode si x with parent := none }) p with
             | none => none
             | some sc => some (setNode sc p { getNode sc p with marked := false })
           else
             some (setNode (setNode si x { getNode si x with parent := none }) p
               { getNode (setNode si x { getNode si x with parent := none }) p with
                 marked := true })) = some s' ∧
      (getNode s' x).parent = none ∧
      (getNode s' x).marked = (getNode sd x).marked ∧
      (getNode s' p).childrens = (getNode sd p).childrens ∧
      (getNode s' p).marked = (getNode sd p).marked ∧
      (getNode s' p).child = (getNode sd p).child ∧
      (getNode s' x).right = some m ∧
      (getNode s' x).left = some ml ∧
      (getNode s' m).left = some x ∧
      (getNode s' ml).right = some x ∧
      s'.size = sd.size ∧ s'.positions = sd.positions ∧
      s'.minimum = (if (getNode s x).weight < (getNode s m).weight then some x
        else some m) := by
  have hxsd : x < sd.nodes.length := by rw [hlen]; exact hx
  have hmsd : m < sd.nodes.length := by rw [hlen]; exact hm
  have hmlsd : ml < sd.nodes.length := by rw [hlen]; exact hmllen
  obtain ⟨si, hsieq, flen, fmarked, fchildrens, fchild, fparent, fweight, fxl, fxr,
    fml, fmlr, fsize, fpositions, fminimum⟩ :=
    insert_facts sd x m ml hmx hmlx hxsd hmsd hmlsd h1 h2
  rw [hsieq]
  dsimp only
  rw [field_setNode FibonacciHeapElement.parent _ _ _ _ (Or.inr hpx), fparent p, h3]
  refine ⟨_, rfl, ?_, ?_, ?_, ?_, ?_, ?_, ?_, ?_, ?_, ?_, ?_, ?_⟩
  · rw [getNode_setNode_self _ _ _ (by rw [flen]; exact hxsd)]
  · rw [peel_parent FibonacciHeapElement.marked (fun r v => rfl), fmarked x]
  · rw [peel_parent FibonacciHeapElement.childrens (fun r v => rfl), fchildrens p]
  · rw [peel_parent FibonacciHeapElement.marked (fun r v => rfl), fmarked p]
  · rw [peel_parent FibonacciHeapElement.child (fun r v => rfl), fchild p]
  · rw [getNode_setNode_self _ _ _ (by rw [flen]; exact hxsd)]
    exact fxr
  · rw [getNode_setNode_self _ _ _ (by rw [flen]; exact hxsd)]
    exact fxl
  · rw [field_setNode FibonacciHeapElement.left _ _ _ _ (Or.inr hmx)]
    exact fml
  · rw [field_setNode FibonacciHeapElement.right _ _ _ _ (Or.inr hmlx)]
    exact fmlr
  · rw [setNode_size, fsize]
  · rw [setNode_positions, fpositions]
  · rw [setNode_minimum, fminimum, h4, h5]

/-- Effect of a single `childrens` (degree) write on every observable. -/
theorem write_childrens_facts (t : FibState) (a : Nat) (v : Int) :
    (setNode t a { getNode t a with childrens := v }).nodes.length = t.nodes.length ∧
    (∀ q, (getNode (setNode t a { getNode t a with childrens := v }) q).marked =
      (getNode t q).marked) ∧
    (∀ q, (getNode (setNode t a { getNode t a with childrens := v }) q).child =
      (getNode t q).child) ∧
    (∀ q, (getNode (setNode t a { getNode t a with childrens := v }) q).parent =
      (getNode t q).parent) ∧
    (∀ q, (getNode (setNode t a { getNode t a with childrens := v }) q).weight =
      (getNode t q).weight) ∧
    (∀ q, (getNode (setNode t a { getNode t a with childrens := v }) q).left =
      (getNode t q).left) ∧
    (∀ q, (getNode (setNode t a { getNode t a with childrens := v }) q).right =
      (getNode t q).right) ∧
    (∀ q, q ≠ a →
      (getNode (setNode t a { getNode t a with childrens := v }) q).childrens =
      (getNode t q).childrens) ∧
    (a < t.nodes.length →
      (getNode (setNode t a { getNode t a with childrens := v }) a).childrens = v) ∧
    (setNode t a { getNode t a with childrens := v }).size = t.size ∧
    (setNode t a { getNode t a with childrens := v }).minimum = t.minimum ∧
    (setNode t a { getNode t a with childrens := v }).positions = t.positions := by
  refine ⟨setNode_nodes_length t a _,
    fun q => field_setNode FibonacciHeapElement.marked t a _ q (Or.inl rfl),
    fun q => field_setNode FibonacciHeapElement.child t a _ q (Or.inl rfl),
    fun q => field_setNode FibonacciHeapElement.parent t a _ q (Or.inl rfl),
    fun q => field_setNode FibonacciHeapElement.weight t a _ q (Or.inl rfl),
    fun q => field_setNode FibonacciHeapElement.left t a _ q (Or.inl rfl),
    fun q => field_setNode FibonacciHeapElement.right t a _ q (Or.inl rfl),
    fun q hq => field_setNode FibonacciHeapElement.childrens t a _ q (Or.inr hq),
    fun ha => ?_, setNode_size t a _, setNode_minimum t a _, setNode_positions t a _⟩
  rw [getNode_setNode_self _ _ _ ha]

/-- Effect of a single `child`-pointer write on every observable. -/
theorem write_child_facts (t : FibState) (a : Nat) (v : Option Nat) :
    (setNode t a { getNode t a with child := v }).nodes.length = t.nodes.length ∧
    (∀ q, (getNode (setNode t a { getNode t a with child := v }) q).marked =
      (getNode t q).marked) ∧
    (∀ q, (getNode (setNode t a { getNode t a with child := v }) q).childrens =
      (getNode t q).childrens) ∧
    (∀ q, (getNode (setNode t a { getNode t a with child := v }) q).parent =
      (getNode t q).parent) ∧
    (∀ q, (getNode (setNode t a { getNode t a with child := v }) q).weight =
      (getNode t q).weight) ∧
    (∀ q, (getNode (setNode t a { getNode t a with child := v }) q).left =
      (getNode t q).left) ∧
    (∀ q, (getNode (setNode t a { getNode t a with child := v }) q).right =
      (getNode t q).right) ∧
    (∀ q, q ≠ a → (getNode (setNode t a { getNode t a with child := v }) q).child =
      (getNode t q).child) ∧
    (a < t.nodes.length →
      (getNode (setNode t a { getNode t a with child := v }) a).child = v) ∧
    (setNode t a { getNode t a with child := v }).size = t.size ∧
    (setNode t a { getNode t a with child := v }).minimum = t.minimum ∧
    (setNode t a { getNode t a with child := v }).positions = t.positions := by
  refine ⟨setNode_nodes_length t a _,
    fun q => field_setNode FibonacciHeapElement.marked t a _ q (Or.inl rfl),
    fun q => field_setNode FibonacciHeapElement.childrens t a _ q (Or.inl rfl),
    fun q => field_setNode FibonacciHeapElement.parent t a _ q (Or.inl rfl),
    fun q => field_setNode FibonacciHeapElement.weight t a _ q (Or.inl rfl),
    fun q => field_setNode FibonacciHeapElement.left t a _ q (Or.inl rfl),
    fun q => field_setNode FibonacciHeapElement.right t a _ q (Or.inl rfl),
    fun q hq => field_setNode FibonacciHeapElement.child t a _ q (Or.inr hq),
    fun ha => ?_, setNode_size t a _, setNode_minimum t a _, setNode_positions t a _⟩
  rw [getNode_setNode_self _ _ _ ha]

/-- Frame of `cutFibonacciMinHeap` over the whole cascade: whatever depth the
recursion reaches, the `marked`, `childrens` and `child` fields of any node
outside the cut node's strict ancestor chain are untouched (in particular
those of the cut node itself), and the `parent` pointer of any such node other
than the cut node is untouched as well. -/
theorem cut_fields : ∀ (fuel : Nat) (s : FibState) (y : Nat) (t : FibState)
    (i : Nat), cutFibonacciMinHeap fuel s y = some t →
    chainMemF fuel s y i = false →
    ((getNode t i).marked = (getNode s i).marked ∧
     (getNode t i).childrens = (getNode s i).childrens ∧
     (getNode t i).child = (getNode s i).child) ∧
    (i ≠ y → (getNode t i).parent = (getNode s i).parent) := by
  intro fuel
  induction fuel with
  | zero =>
    intro s y t i heq hch
    exact Option.noConfusion heq
  | succ fuel ih =>
    intro s y t i heq hch
    rw [cutFibonacciMinHeap] at heq
    rw [chainMemF] at hch
    rcases hpar : (getNode s y).parent with _ | q
    · rw [hpar] at heq
      exact Option.noConfusion heq
    · rw [hpar] at heq hch
      dsimp only at heq hch
      have hiq : i ≠ q := by
        intro hh
        rw [if_pos hh] at hch
        exact Bool.noConfusion hch
      rw [if_neg hiq] at hch
      obtain ⟨l1, mk1, ch1, pa1, w1, lf1, rt1, cd1, cda1, sz1, mi1, po1⟩ :=
        write_childrens_facts s q ((getNode s q).childrens - 1)
      have htail : ∀ sd : FibState,
          (∀ z, (getNode sd z).parent = (getNode s z).parent) →
          (getNode sd i).marked = (getNode s i).marked →
          (getNode sd i).childrens = (getNode s i).childrens →
          (getNode sd i).child = (getNode s i).child →
          (match insertFibonacciMinHeap sd y with
           | none => none
           | some si =>
             match (getNode (setNode si y
                 { getNode si y with parent := none }) q).parent with
             | none => some (setNode si y { getNode si y with parent := none })
             | some _ =>
               if (getNode (setNode si y
                   { getNode si y with parent := none }) q).marked then
                 match cutFibonacciMinHeap fuel
                     (setNode si y { getNode si y with parent := none }) q with
                 | none => none
                 | some sc =>
                   some (setNode sc q { getNode sc q with marked := false })
               else
                 some (setNode (setNode si y
                     { getNode si y with parent := none }) q
                   { getNode (setNode si y
                       { getNode si y with parent := none }) q with
                     marked := true })) = some t →
          ((getNode t i).marked = (getNode s i).marked ∧
           (getNode t i).childrens = (getNode s i).childrens ∧
           (getNode t i).child = (getNode s i).child) ∧
          (i ≠ y → (getNode t i).parent = (getNode s i).parent) := by
        intro sd hpp hfm hfc hfch hteq
        rcases hins : insertFibonacciMinHeap sd y with _ | si
        · rw [hins] at hteq
          exact Option.noConfusion hteq
        · rw [hins] at hteq
          dsimp only at hteq
          obtain ⟨ilen, imk, icd, ich, ipa⟩ := insert_frame sd y si hins
          have hspm : ∀ z, (getNode (setNode si y
              { getNode si y with parent := none }) z).marked =
              (getNode si z).marked :=
            fun z => peel_parent FibonacciHeapElement.marked (fun r v => rfl)
              si y z none
          have hspc : ∀ z, (getNode (setNode si y
              { getNode si y with parent := none }) z).childrens =
              (getNode si z).childrens :=
            fun z => peel_parent FibonacciHeapElement.childrens (fun r v => rfl)
              si y z none
          have hspch : ∀ z, (getNode (setNode si y
              { getNode si y with parent := none }) z).child =
              (getNode si z).child :=
            fun z => peel_parent FibonacciHeapElement.child (fun r v => rfl)
              si y z none
          have hspy : (getNode (setNode si y
              { getNode si y with parent := none }) y).parent = none := by
            by_cases hl : y < si.nodes.length
            · rw [getNode_setNode_self _ _ _ hl]
            · rw [setNode_oob _ _ _ (le_of_not_lt hl)]
              unfold getNode
              rw [List.getD_eq_default _ _ (le_of_not_lt hl)]
              rfl
          have hfin : ∀ sx : FibState,
              ((getNode sx i).marked = (getNode s i).marked ∧
               (getNode sx i).childrens = (getNode s i).childrens ∧
               (getNode sx i).child = (getNode s i).child) ∧
              (i ≠ y → (getNode sx i).parent = (getNode s i).parent) →
              some sx = some t →
              ((getNode t i).marked = (getNode s i).marked ∧
               (getNode t i).childrens = (getNode s i).childrens ∧
               (getNode t i).child = (getNode s i).child) ∧
              (i ≠ y → (getNode t i).parent = (getNode s i).parent) := by
            intro sx hx hxe
            have hs := Option.some.inj hxe
            rw [← hs]
            exact hx
          have hspfacts :
              ((getNode (setNode si y { getNode si y with parent := none })
                  i).marked = (getNode s i).marked ∧
               (getNode (setNode si y { getNode si y with parent := none })
                  i).childrens = (getNode s i).childrens ∧
               (getNode (setNode si y { getNode si y with parent := none })
                  i).child = (getNode s i).child) ∧
              (i ≠ y → (getNode (setNode si y
                  { getNode si y with parent := none }) i).parent =
                (getNode s i).parent) := by
            refine ⟨⟨?_, ?_, ?_⟩, ?_⟩
            · rw [hspm i, imk i]
              exact hfm
            · rw [hspc i, icd i]
              exact hfc
            · rw [hspch i, ich i]
              exact hfch
            · intro hiy
              rw [field_setNode FibonacciHeapElement.parent _ _ _ _ (Or.inr hiy),
                ipa i]
              exact hpp i
          by_cases hqy : q = y
          · have hq0 : (getNode (setNode si y
                { getNode si y with parent := none }) q).parent = none := by
              rw [hqy]
              exact hspy
            rw [hq0] at hteq
            dsimp only at hteq
            exact hfin _ hspfacts hteq
          · have hqtrans : (getNode (setNode si y
                { getNode si y with parent := none }) q).parent =
                (getNode s q).parent := by
              rw [field_setNode FibonacciHeapElement.parent _ _ _ _ (Or.inr hqy),
                ipa q, hpp q]
            rw [hqtrans] at hteq
            rcases hqp : (getNode s q).parent with _ | g
            · rw [hqp] at hteq
              dsimp only at hteq
              exact hfin _ hspfacts hteq
            · rw [hqp] at hteq
              dsimp only at hteq
              by_cases hmk : (getNode (setNode si y
                  { getNode si y with parent := none }) q).marked = true
              · rw [if_pos hmk] at hteq
                rcases hcut : cutFibonacciMinHeap fuel
                    (setNode si y { getNode si y with parent := none }) q
                  with _ | sc
                · rw [hcut] at hteq
                  exact Option.noConfusion hteq
                · rw [hcut] at hteq
                  have hZ : ∀ z, z ≠ y → (getNode (setNode si y
                      { getNode si y with parent := none }) z).parent =
                      (getNode s z).parent := by
                    intro z hz
                    rw [field_setNode FibonacciHeapElement.parent _ _ _ _
                      (Or.inr hz), ipa z]
                    exact hpp z
                  have hchSP : chainMemF fuel (setNode si y
                      { getNode si y with parent := none }) q i = false := by
                    cases hcc : chainMemF fuel (setNode si y
                        { getNode si y with parent := none }) q i with
                    | false => rfl
                    | true =>
                      have h2 := chainMemF_mono s _ y hZ hspy fuel q i hcc
                      rw [h2] at hch
                      exact Bool.noConfusion hch
                  obtain ⟨⟨jm, jc, jch⟩, jp⟩ := ih _ q sc i hcut hchSP
                  refine hfin _ ⟨⟨?_, ?_, ?_⟩, ?_⟩ hteq
                  · rw [field_setNode FibonacciHeapElement.marked _ _ _ _
                      (Or.inr hiq), jm, hspm i, imk i]
                    exact hfm
                  · rw [peel_marked FibonacciHeapElement.childrens
                      (fun r v => rfl), jc, hspc i, icd i]
                    exact hfc
                  · rw [peel_marked FibonacciHeapElement.child (fun r v => rfl),
                      jch, hspch i, ich i]
                    exact hfch
                  · intro hiy
                    rw [peel_marked FibonacciHeapElement.parent (fun r v => rfl),
                      jp hiq, hZ i hiy]
              · rw [if_neg hmk] at hteq
                refine hfin _ ⟨⟨?_, ?_, ?_⟩, ?_⟩ hteq
                · refine (field_setNode FibonacciHeapElement.marked _ _ _ i
                    (Or.inr hiq)).trans ?_
                  rw [hspm i, imk i]
                  exact hfm
                · refine (field_setNode FibonacciHeapElement.childrens _ _ _ i
                    (Or.inr hiq)).trans ?_
                  rw [hspc i, icd i]
                  exact hfc
                · refine (field_setNode FibonacciHeapElement.child _ _ _ i
                    (Or.inr hiq)).trans ?_
                  rw [hspch i, ich i]
                  exact hfch
                · intro hiy
                  refine (field_setNode FibonacciHeapElement.parent _ _ _ i
                    (Or.inr hiq)).trans ?_
                  rw [field_setNode FibonacciHeapElement.parent _ _ _ _
                    (Or.inr hiy), ipa i]
                  exact hpp i
      rw [rt1 y, lf1 y] at heq
      by_cases hon : (getNode s y).right = some y
      · rw [if_pos hon] at heq
        dsimp only at heq
        refine htail _ ?_ ?_ ?_ ?_ heq
        · intro z
          rw [peel_child FibonacciHeapElement.parent (fun r v => rfl), pa1 z]
        · rw [peel_child FibonacciHeapElement.marked (fun r v => rfl), mk1 i]
        · rw [peel_child FibonacciHeapElement.childrens (fun r v => rfl),
            cd1 i hiq]
        · rw [field_setNode FibonacciHeapElement.child _ _ _ _ (Or.inr hiq),
            ch1 i]
      · rw [if_neg hon] at heq
        rcases hyr : (getNode s y).right with _ | r
        · rw [hyr] at heq
          dsimp only at heq
          exact Option.noConfusion heq
        · rw [hyr] at heq
          rcases hyl : (getNode s y).left with _ | l
          · rw [hyl] at heq
            dsimp only at heq
            exact Option.noConfusion heq
          · rw [hyl] at heq
            dsimp only at heq
            rw [peel_right FibonacciHeapElement.child (fun r v => rfl),
              peel_left FibonacciHeapElement.child (fun r v => rfl), ch1 q]
              at heq
            by_cases hqc : (getNode s q).child = some y
            · rw [if_pos hqc] at heq
              dsimp only at heq
              refine htail _ ?_ ?_ ?_ ?_ heq
              · intro z
                rw [peel_child FibonacciHeapElement.parent (fun r v => rfl),
                  peel_right FibonacciHeapElement.parent (fun r v => rfl),
                  peel_left FibonacciHeapElement.parent (fun r v => rfl), pa1 z]
              · rw [peel_child FibonacciHeapElement.marked (fun r v => rfl),
                  peel_right FibonacciHeapElement.marked (fun r v => rfl),
                  peel_left FibonacciHeapElement.marked (fun r v => rfl), mk1 i]
              · rw [peel_child FibonacciHeapElement.childrens (fun r v => rfl),
                  peel_right FibonacciHeapElement.childrens (fun r v => rfl),
                  peel_left FibonacciHeapElement.childrens (fun r v => rfl),
                  cd1 i hiq]
              · rw [field_setNode FibonacciHeapElement.child _ _ _ _
                    (Or.inr hiq),
                  peel_right FibonacciHeapElement.child (fun r v => rfl),
                  peel_left FibonacciHeapElement.child (fun r v => rfl), ch1 i]
            · rw [if_neg hqc] at heq
              dsimp only at heq
              refine htail _ ?_ ?_ ?_ ?_ heq
              · intro z
                rw [peel_right FibonacciHeapElement.parent (fun r v => rfl),
                  peel_left FibonacciHeapElement.parent (fun r v => rfl), pa1 z]
              · rw [peel_right FibonacciHeapElement.marked (fun r v => rfl),
                  peel_left FibonacciHeapElement.marked (fun r v => rfl), mk1 i]
              · rw [peel_right FibonacciHeapElement.childrens (fun r v => rfl),
                  peel_left FibonacciHeapElement.childrens (fun r v => rfl),
                  cd1 i hiq]
              · rw [peel_right FibonacciHeapElement.child (fun r v => rfl),
                  peel_left FibonacciHeapElement.child (fun r v => rfl), ch1 i]

/-- Shared tail of `cutFibonacciMinHeap` after the child-list detach, for an
arbitrary parent: the insert into the root list, the clearing of the cut
node's parent pointer, and all three continuations (root parent, unmarked
parent that gets marked, marked parent that is recursively cut and then
uncleared).  The first conjunct gives the postconditions that survive every
continuation; the second settles success and the splice detail when no
cascading cut runs. -/
theorem cut_tail_full (fuel : Nat) (s sd : FibState) (x p m ml : Nat)
    (hpx : p ≠ x) (hmx : m ≠ x) (hmlx : ml ≠ x)
    (hx : x < s.nodes.length) (hp : p < s.nodes.length)
    (hm : m < s.nodes.length) (hmllen : ml < s.nodes.length)
    (hlen : sd.nodes.length = s.nodes.length)
    (h1 : sd.minimum = some m) (h2 : (getNode sd m).left = some ml)
    (h4 : (getNode sd x).weight = (getNode s x).weight)
    (h5 : (getNode sd m).weight = (getNode s m).weight)
    (hcx : chainMemF fuel sd p x = false)
    (hcp : chainMemF fuel sd p p = false) :
    (∀ t,
      (match insertFibonacciMinHeap sd x with
       | none => none
       | some si =>
         match (getNode (setNode si x { getNode si x with parent := none }) p).parent with
         | none => some (setNode si x { getNode si x with parent := none })
         | some _ =>
           if (getNode (setNode si x { getNode si x with parent := none }) p).marked then
             match cutFibonacciMinHeap fuel
                 (setNode si x { getNode si x with parent := none }) p with
             | none => none
             | some sc => some (setNode sc p { getNode sc p with marked := false })
           else
             some (setNode (setNode si x { getNode si x with parent := none }) p
               { getNode (setNode si x { getNode si x with parent := none }) p with
                 marked := true })) = some t →
      (getNode t x).parent = none ∧
      (getNode t x).marked = (getNode sd x).marked ∧
      (getNode t p).childrens = (getNode sd p).childrens ∧
      (getNode t p).child = (getNode sd p).child) ∧
    (((getNode sd p).parent = none ∨ (getNode sd p).marked = false) →
      ∃ s',
        (match insertFibonacciMinHeap sd x with
         | none => none
         | some si =>
           match (getNode (setNode si x { getNode si x with parent := none }) p).parent with
           | none => some (setNode si x { getNode si x with parent := none })
           | some _ =>
             if (getNode (setNode si x { getNode si x with parent := none }) p).marked then
               match cutFibonacciMinHeap fuel
                   (setNode si x { getNode si x with parent := none }) p with
               | none => none
               | some sc => some (setNode sc p { getNode sc p with marked := false })
             else
               some (setNode (setNode si x { getNode si x with parent := none }) p
                 { getNode (setNode si x { getNode si x with parent := none }) p with
                   marked := true })) = some s' ∧
        (getNode s' x).right = some m ∧
        (getNode s' x).left = some ml ∧
        (getNode s' m).left = some x ∧
        (getNode s' ml).right = some x ∧
        (getNode s' p).marked = (if (getNode sd p).parent = none
          then (getNode sd p).marked else true) ∧
        s'.size = sd.size ∧ s'.positions = sd.positions ∧
        s'.minimum = (if (getNode s x).weight < (getNode s m).weight then some x
          else some m)) := by
  have hxsd : x < sd.nodes.length := by rw [hlen]; exact hx
  have hmsd : m < sd.nodes.length := by rw [hlen]; exact hm
  have hmlsd : ml < sd.nodes.length := by rw [hlen]; exact hmllen
  obtain ⟨si, hsieq, flen, fmarked, fchildrens, fchild, fparent, fweight, fxl,
    fxr, fml, fmlr, fsize, fpositions, fminimum⟩ :=
    insert_facts sd x m ml hmx hmlx hxsd hmsd hmlsd h1 h2
  have hxsi : x < si.nodes.length := by rw [flen]; exact hxsd
  rw [hsieq]
  dsimp only
  have hppar : (getNode (setNode si x { getNode si x with parent := none })
      p).parent = (getNode sd p).parent := by
    rw [field_setNode FibonacciHeapElement.parent _ _ _ _ (Or.inr hpx),
      fparent p]
  have hpmk : (getNode (setNode si x { getNode si x with parent := none })
      p).marked = (getNode sd p).marked := by
    rw [peel_parent FibonacciHeapElement.marked (fun r v => rfl), fmarked p]
  have hY : (getNode (setNode si x { getNode si x with parent := none })
      x).parent = none := by
    rw [getNode_setNode_self _ _ _ hxsi]
  rw [hppar, hpmk]
  rcases hqp : (getNode sd p).parent with _ | g
  · dsimp only
    constructor
    · intro t ht
      have hs := Option.some.inj ht
      subst hs
      refine ⟨hY, ?_, ?_, ?_⟩
      · rw [peel_parent FibonacciHeapElement.marked (fun r v => rfl), fmarked x]
      · rw [peel_parent FibonacciHeapElement.childrens (fun r v => rfl),
          fchildrens p]
      · rw [peel_parent FibonacciHeapElement.child (fun r v => rfl), fchild p]
    · intro _
      refine ⟨_, rfl, ?_, ?_, ?_, ?_, ?_, ?_, ?_, ?_⟩
      · rw [getNode_setNode_self _ _ _ hxsi]
        exact fxr
      · rw [getNode_setNode_self _ _ _ hxsi]
        exact fxl
      · rw [field_setNode FibonacciHeapElement.left _ _ _ _ (Or.inr hmx)]
        exact fml
      · rw [field_setNode FibonacciHeapElement.right _ _ _ _ (Or.inr hmlx)]
        exact fmlr
      · rw [if_pos (rfl : (none : Option Nat) = none)]
        rw [peel_parent FibonacciHeapElement.marked (fun r v => rfl), fmarked p]
      · rw [setNode_size, fsize]
      · rw [setNode_positions, fpositions]
      · rw [setNode_minimum, fminimum, h4, h5]
  · dsimp only
    by_cases hmk : (getNode sd p).marked = true
    · rw [if_pos hmk]
      constructor
      · intro t ht
        rcases hcut : cutFibonacciMinHeap fuel
            (setNode si x { getNode si x with parent := none }) p with _ | sc
        · rw [hcut] at ht
          exact Option.noConfusion ht
        · rw [hcut] at ht
          have hs := Option.some.inj ht
          subst hs
          have hZ : ∀ z, z ≠ x → (getNode (setNode si x
              { getNode si x with parent := none }) z).parent =
              (getNode sd z).parent := by
            intro z hz
            rw [field_setNode FibonacciHeapElement.parent _ _ _ _ (Or.inr hz),
              fparent z]
          have hcxSP : chainMemF fuel (setNode si x
              { getNode si x with parent := none }) p x = false := by
            cases hcc : chainMemF fuel (setNode si x
                { getNode si x with parent := none }) p x with
            | false => rfl
            | true =>
              have hmo := chainMemF_mono sd _ x hZ hY fuel p x hcc
              rw [hmo] at hcx
              exact Bool.noConfusion hcx
          have hcpSP : chainMemF fuel (setNode si x
              { getNode si x with parent := none }) p p = false := by
            cases hcc : chainMemF fuel (setNode si x
                { getNode si x with parent := none }) p p with
            | false => rfl
            | true =>
              have hmo := chainMemF_mono sd _ x hZ hY fuel p p hcc
              rw [hmo] at hcp
              exact Bool.noConfusion hcp
          obtain ⟨⟨gm, gc, gch⟩, gp⟩ := cut_fields fuel _ p sc x hcut hcxSP
          obtain ⟨⟨pm2, pc2, pch2⟩, _⟩ := cut_fields fuel _ p sc p hcut hcpSP
          refine ⟨?_, ?_, ?_, ?_⟩
          · refine (field_setNode FibonacciHeapElement.parent _ _ _ x
              (Or.inr (Ne.symm hpx))).trans ?_
            rw [gp (Ne.symm hpx)]
            exact hY
          · refine (field_setNode FibonacciHeapElement.marked _ _ _ x
              (Or.inr (Ne.symm hpx))).trans ?_
            rw [gm, peel_parent FibonacciHeapElement.marked (fun r v => rfl),
              fmarked x]
          · refine (field_setNode FibonacciHeapElement.childrens _ _ _ p
              (Or.inl ?_)).trans ?_
            · rfl
            · rw [pc2, peel_parent FibonacciHeapElement.childrens
                (fun r v => rfl), fchildrens p]
          · refine (field_setNode FibonacciHeapElement.child _ _ _ p
              (Or.inl ?_)).trans ?_
            · rfl
            · rw [pch2, peel_parent FibonacciHeapElement.child
                (fun r v => rfl), fchild p]
      · intro hdisj
        rcases hdisj with hno | hfa
        · exact absurd hno (fun hh => Option.noConfusion hh)
        · rw [hmk] at hfa
          exact absurd hfa (fun hh => Bool.noConfusion hh)
    · rw [if_neg hmk]
      constructor
      · intro t ht
        have hs := Option.some.inj ht
        subst hs
        refine ⟨?_, ?_, ?_, ?_⟩
        · refine (field_setNode FibonacciHeapElement.parent _ _ _ x
            (Or.inr (Ne.symm hpx))).trans ?_
          exact hY
        · refine (field_setNode FibonacciHeapElement.marked _ _ _ x
            (Or.inr (Ne.symm hpx))).trans ?_
          rw [peel_parent FibonacciHeapElement.marked (fun r v => rfl),
            fmarked x]
        · refine (field_setNode FibonacciHeapElement.childrens _ _ _ p
            (Or.inl ?_)).trans ?_
          · rfl
          · rw [peel_parent FibonacciHeapElement.childrens (fun r v => rfl),
              fchildrens p]
        · refine (field_setNode FibonacciHeapElement.child _ _ _ p
            (Or.inl ?_)).trans ?_
          · rfl
          · rw [peel_parent FibonacciHeapElement.child (fun r v => rfl),
              fchild p]
      · intro _
        refine ⟨_, rfl, ?_, ?_, ?_, ?_, ?_, ?_, ?_, ?_⟩
        · refine (field_setNode FibonacciHeapElement.right _ _ _ x
            (Or.inr (Ne.symm hpx))).trans ?_
          rw [getNode_setNode_self _ _ _ hxsi]
          exact fxr
        · refine (field_setNode FibonacciHeapElement.left _ _ _ x
            (Or.inr (Ne.symm hpx))).trans ?_
          rw [getNode_setNode_self _ _ _ hxsi]
          exact fxl
        · refine (field_setNode FibonacciHeapElement.left _ _ _ m
            (Or.inl ?_)).trans ?_
          · rfl
          · rw [field_setNode FibonacciHeapElement.left _ _ _ _ (Or.inr hmx)]
            exact fml
        · refine (field_setNode FibonacciHeapElement.right _ _ _ ml
            (Or.inl ?_)).trans ?_
          · rfl
          · rw [field_setNode FibonacciHeapElement.right _ _ _ _ (Or.inr hmlx)]
            exact fmlr
        · rw [if_neg (fun hh => Option.noConfusion hh)]
          rw [getNode_setNode_self _ _ _ (by
            rw [setNode_nodes_length, flen, hlen]
            exact hp)]
        · rw [setNode_size, setNode_size, fsize]
        · rw [setNode_positions, setNode_positions, fpositions]
        · rw [setNode_minimum, setNode_minimum, fminimum, h4, h5]

/-- C8: for every node with a non-null parent, after `cut` returns the node
has been spliced into the root list with its parent pointer cleared to null,
the former parent's degree is decremented by exactly one, and the former
parent's child pointer no longer references the cut node (null if it was the
only child) — in every continuation: parent a root, unmarked parent (which
gets marked), or marked parent (recursively cut, then un-marked).  The
corrected clause: the cut node's own `marked` flag is left UNCHANGED, not
cleared to false — no statement of `mst.c` lines 403–434 writes
`element->marked`.  When no cascading cut runs, the node is spliced
immediately left of the minimum and the bookkeeping (size, positions,
minimum) behaves as stated.  The `chainMemF` hypotheses state the
parent-chain acyclicity every well-formed Fibonacci heap has. -/
theorem claim_C8_cut_postconditions (fuel : Nat) (s : FibState)
    (x p m ml xr xl : Nat)
    (hx : x < s.nodes.length) (hp : p < s.nodes.length) (hm : m < s.nodes.length)
    (hmllen : ml < s.nodes.length)
    (hpar : (getNode s x).parent = some p) (hpx : p ≠ x)
    (hmin : s.minimum = some m) (hmx : m ≠ x)
    (hml : (getNode s m).left = some ml) (hmlx : ml ≠ x)
    (hxr : (getNode s x).right = some xr) (hxl : (getNode s x).left = some xl)
    (hside : xr ≠ x → xl ≠ x ∧ xr ≠ m)
    (hcx : chainMemF fuel s p x = false)
    (hcp : chainMemF fuel s p p = false) :
    (∀ t, cutFibonacciMinHeap (fuel + 1) s x = some t →
      (getNode t x).parent = none ∧
      (getNode t x).marked = (getNode s x).marked ∧
      (getNode t p).childrens = (getNode s p).childrens - 1 ∧
      (getNode t p).child ≠ some x ∧
      (xr = x → (getNode t p).child = none)) ∧
    (((getNode s p).parent = none ∨ (getNode s p).marked = false) →
      ∃ s', cutFibonacciMinHeap (fuel + 1) s x = some s' ∧
        (getNode s' x).right = some m ∧
        (getNode s' x).left = some ml ∧
        (getNode s' m).left = some x ∧
        (getNode s' ml).right = some x ∧
        (getNode s' p).marked = (if (getNode s p).parent = none
          then (getNode s p).marked else true) ∧
        s'.size = s.size ∧ s'.positions = s.positions ∧
        s'.minimum = (if (getNode s x).weight < (getNode s m).weight then some x
          else some m)) := by
  rw [cutFibonacciMinHeap, hpar]
  dsimp only
  generalize hg1 : setNode s p
    (⟨(getNode s p).marked, (getNode s p).childrens - 1, (getNode s p).vertex,
      (getNode s p).via, (getNode s p).weight, (getNode s p).parent,
      (getNode s p).child, (getNode s p).left, (getNode s p).right⟩ :
      FibonacciHeapElement) = u1
  obtain ⟨l1, mk1, ch1, pa1, w1, lf1, rt1, cd1, cda1, sz1, mi1, po1⟩ :=
    hg1 ▸ write_childrens_facts s p ((getNode s p).childrens - 1)
  rw [rt1 x, hxr, lf1 x, hxl]
  by_cases hon : xr = x
  · rw [if_pos (by rw [hon])]
    dsimp only
    generalize hg2 : setNode u1 p
      (⟨(getNode u1 p).marked, (getNode u1 p).childrens, (getNode u1 p).vertex,
        (getNode u1 p).via, (getNode u1 p).weight, (getNode u1 p).parent, none,
        (getNode u1 p).left, (getNode u1 p).right⟩ :
        FibonacciHeapElement) = u2
    obtain ⟨l2, mk2, cd2, pa2, w2, lf2, rt2, ch2, cha2, sz2, mi2, po2⟩ :=
      hg2 ▸ write_child_facts u1 p none
    have hlen2 : u2.nodes.length = s.nodes.length := l2.trans l1
    have hpchain : ∀ z, (getNode u2 z).parent = (getNode s z).parent :=
      fun z => (pa2 z).trans (pa1 z)
    have hcx2 : chainMemF fuel u2 p x = false := by
      rw [chainMemF_congr s u2 hpchain fuel p x]
      exact hcx
    have hcp2 : chainMemF fuel u2 p p = false := by
      rw [chainMemF_congr s u2 hpchain fuel p p]
      exact hcp
    obtain ⟨tgen, tsucc⟩ := cut_tail_full fuel s u2 x p m ml hpx hmx hmlx hx hp
      hm hmllen hlen2 (mi2.trans (mi1.trans hmin))
      (by rw [lf2 m, lf1 m]; exact hml)
      (by rw [w2 x, w1 x]) (by rw [w2 m, w1 m]) hcx2 hcp2
    constructor
    · intro t ht
      obtain ⟨e1, e2, e3, e4⟩ := tgen t ht
      refine ⟨e1, ?_, ?_, ?_, ?_⟩
      · rw [e2, mk2 x, mk1 x]
      · rw [e3, cd2 p, cda1 hp]
      · rw [e4, cha2 (by rw [l1]; exact hp)]
        intro hh
        exact Option.noConfusion hh
      · intro _
        rw [e4, cha2 (by rw [l1]; exact hp)]
    · intro hdisj
      have hdisj2 : (getNode u2 p).parent = none ∨
          (getNode u2 p).marked = false := by
        rcases hdisj with hno | hfa
        · left
          rw [hpchain p]
          exact hno
        · right
          rw [mk2 p, mk1 p]
          exact hfa
      obtain ⟨s', heq, q1, q2, q3, q4, q5, q6, q7, q8⟩ := tsucc hdisj2
      refine ⟨s', heq, q1, q2, q3, q4, ?_, ?_, ?_, q8⟩
      · rw [q5, hpchain p, mk2 p, mk1 p]
      · rw [q6, sz2, sz1]
      · rw [q7, po2, po1]
  · rw [if_neg (fun hh => hon (Option.some.inj hh))]
    dsimp only
    obtain ⟨hxlx, hxrm⟩ := hside hon
    generalize hg2 : setNode u1 xr
      (⟨(getNode u1 xr).marked, (getNode u1 xr).childrens, (getNode u1 xr).vertex,
        (getNode u1 xr).via, (getNode u1 xr).weight, (getNode u1 xr).parent,
        (getNode u1 xr).child, some xl, (getNode u1 xr).right⟩ :
        FibonacciHeapElement) = v2
    obtain ⟨l2, mk2, cd2, ch2, pa2, w2, rt2, lf2, lfa2, sz2, mi2, po2⟩ :=
      hg2 ▸ write_left_facts u1 xr (some xl)
    rw [rt2 x, rt1 x, hxr]
    generalize hg3 : setNode v2 xl
      (⟨(getNode v2 xl).marked, (getNode v2 xl).childrens, (getNode v2 xl).vertex,
        (getNode v2 xl).via, (getNode v2 xl).weight, (getNode v2 xl).parent,
        (getNode v2 xl).child, (getNode v2 xl).left, some xr⟩ :
        FibonacciHeapElement) = v3
    obtain ⟨l3, mk3, cd3, ch3, pa3, w3, lf3, rt3, rta3, sz3, mi3, po3⟩ :=
      hg3 ▸ write_right_facts v2 xl (some xr)
    rw [ch3 p, ch2 p, ch1 p]
    have hlen3 : v3.nodes.length = s.nodes.length := l3.trans (l2.trans l1)
    by_cases hpc : (getNode s p).child = some x
    · rw [if_pos hpc]
      dsimp only
      rw [rt3 x (Ne.symm hxlx), rt2 x, rt1 x, hxr]
      generalize hg4 : setNode v3 p
        (⟨(getNode v3 p).marked, (getNode v3 p).childrens, (getNode v3 p).vertex,
          (getNode v3 p).via, (getNode v3 p).weight, (getNode v3 p).parent,
          some xr, (getNode v3 p).left, (getNode v3 p).right⟩ :
          FibonacciHeapElement) = v4
      obtain ⟨l4, mk4, cd4, pa4, w4, lf4, rt4, ch4, cha4, sz4, mi4, po4⟩ :=
        hg4 ▸ write_child_facts v3 p (some xr)
      have hlen4 : v4.nodes.length = s.nodes.length := l4.trans hlen3
      have hpchain : ∀ z, (getNode v4 z).parent = (getNode s z).parent :=
        fun z => (pa4 z).trans ((pa3 z).trans ((pa2 z).trans (pa1 z)))
      have hcx4 : chainMemF fuel v4 p x = false := by
        rw [chainMemF_congr s v4 hpchain fuel p x]
        exact hcx
      have hcp4 : chainMemF fuel v4 p p = false := by
        rw [chainMemF_congr s v4 hpchain fuel p p]
        exact hcp
      obtain ⟨tgen, tsucc⟩ := cut_tail_full fuel s v4 x p m ml hpx hmx hmlx hx
        hp hm hmllen hlen4 (mi4.trans (mi3.trans (mi2.trans (mi1.trans hmin))))
        (by rw [lf4 m, lf3 m, lf2 m (fun hh => hxrm hh.symm), lf1 m]; exact hml)
        (by rw [w4 x, w3 x, w2 x, w1 x]) (by rw [w4 m, w3 m, w2 m, w1 m])
        hcx4 hcp4
      constructor
      · intro t ht
        obtain ⟨e1, e2, e3, e4⟩ := tgen t ht
        refine ⟨e1, ?_, ?_, ?_, ?_⟩
        · rw [e2, mk4 x, mk3 x, mk2 x, mk1 x]
        · rw [e3, cd4 p, cd3 p, cd2 p, cda1 hp]
        · rw [e4, cha4 (by rw [hlen3]; exact hp)]
          intro hh
          exact hon (Option.some.inj hh)
        · intro hh
          exact absurd hh hon
      · intro hdisj
        have hdisj2 : (getNode v4 p).parent = none ∨
            (getNode v4 p).marked = false := by
          rcases hdisj with hno | hfa
          · left
            rw [hpchain p]
            exact hno
          · right
            rw [mk4 p, mk3 p, mk2 p, mk1 p]
            exact hfa
        obtain ⟨s', heq, q1, q2, q3, q4, q5, q6, q7, q8⟩ := tsucc hdisj2
        refine ⟨s', heq, q1, q2, q3, q4, ?_, ?_, ?_, q8⟩
        · rw [q5, hpchain p, mk4 p, mk3 p, mk2 p, mk1 p]
        · rw [q6, sz4, sz3, sz2, sz1]
        · rw [q7, po4, po3, po2, po1]
    · rw [if_neg hpc]
      dsimp only
      have hpchain : ∀ z, (getNode v3 z).parent = (getNode s z).parent :=
        fun z => (pa3 z).trans ((pa2 z).trans (pa1 z))
      have hcx3 : chainMemF fuel v3 p x = false := by
        rw [chainMemF_congr s v3 hpchain fuel p x]
        exact hcx
      have hcp3 : chainMemF fuel v3 p p = false := by
        rw [chainMemF_congr s v3 hpchain fuel p p]
        exact hcp
      obtain ⟨tgen, tsucc⟩ := cut_tail_full fuel s v3 x p m ml hpx hmx hmlx hx
        hp hm hmllen hlen3 (mi3.trans (mi2.trans (mi1.trans hmin)))
        (by rw [lf3 m, lf2 m (fun hh => hxrm hh.symm), lf1 m]; exact hml)
        (by rw [w3 x, w2 x, w1 x]) (by rw [w3 m, w2 m, w1 m]) hcx3 hcp3
      constructor
      · intro t ht
        obtain ⟨e1, e2, e3, e4⟩ := tgen t ht
        refine ⟨e1, ?_, ?_, ?_, ?_⟩
        · rw [e2, mk3 x, mk2 x, mk1 x]
        · rw [e3, cd3 p, cd2 p, cda1 hp]
        · rw [e4, ch3 p, ch2 p, ch1 p]
          exact hpc
        · intro hh
          exact absurd hh hon
      · intro hdisj
        have hdisj2 : (getNode v3 p).parent = none ∨
            (getNode v3 p).marked = false := by
          rcases hdisj with hno | hfa
          · left
            rw [hpchain p]
            exact hno
          · right
            rw [mk3 p, mk2 p, mk1 p]
            exact hfa
        obtain ⟨s', heq, q1, q2, q3, q4, q5, q6, q7, q8⟩ := tsucc hdisj2
        refine ⟨s', heq, q1, q2, q3, q4, ?_, ?_, ?_, q8⟩
        · rw [q5, hpchain p, mk3 p, mk2 p, mk1 p]
        · rw [q6, sz3, sz2, sz1]
        · rw [q7, po3, po2, po1]

theorem claim_C8_cut_postconditions_witness :
    ((getNode ⟨[⟨false, 0, 0, 0, 1, none, none, some 1, some 1⟩,
        ⟨false, 1, 1, 0, 2, none, some 2, some 0, some 0⟩,
        ⟨true, 1, 2, 0, 4, some 1, some 3, some 2, some 2⟩,
        ⟨true, 0, 3, 0, 5, some 2, none, some 3, some 3⟩], 4, some 0,
        [some 0, some 1, some 2, some 3]⟩ 3).parent = some 2 ∧
      (getNode ⟨[⟨false, 0, 0, 0, 1, none, none, some 1, some 1⟩,
        ⟨false, 1, 1, 0, 2, none, some 2, some 0, some 0⟩,
        ⟨true, 1, 2, 0, 4, some 1, some 3, some 2, some 2⟩,
        ⟨true, 0, 3, 0, 5, some 2, none, some 3, some 3⟩], 4, some 0,
        [some 0, some 1, some 2, some 3]⟩ 2).parent = some 1 ∧
      (getNode ⟨[⟨false, 0, 0, 0, 1, none, none, some 1, some 1⟩,
        ⟨false, 1, 1, 0, 2, none, some 2, some 0, some 0⟩,
        ⟨true, 1, 2, 0, 4, some 1, some 3, some 2, some 2⟩,
        ⟨true, 0, 3, 0, 5, some 2, none, some 3, some 3⟩], 4, some 0,
        [some 0, some 1, some 2, some 3]⟩ 2).marked = true ∧
      (cutFibonacciMinHeap 3 ⟨[⟨false, 0, 0, 0, 1, none, none, some 1, some 1⟩,
        ⟨false, 1, 1, 0, 2, none, some 2, some 0, some 0⟩,
        ⟨true, 1, 2, 0, 4, some 1, some 3, some 2, some 2⟩,
        ⟨true, 0, 3, 0, 5, some 2, none, some 3, some 3⟩], 4, some 0,
        [some 0, some 1, some 2, some 3]⟩ 3).isSome = true) ∧
    ((∀ t, cutFibonacciMinHeap 3
        ⟨[⟨false, 0, 0, 0, 1, none, none, some 1, some 1⟩,
          ⟨false, 1, 1, 0, 2, none, some 2, some 0, some 0⟩,
          ⟨true, 1, 2, 0, 4, some 1, some 3, some 2, some 2⟩,
          ⟨true, 0, 3, 0, 5, some 2, none, some 3, some 3⟩], 4, some 0,
          [some 0, some 1, some 2, some 3]⟩ 3 = some t →
        (getNode t 3).parent = none ∧
        (getNode t 3).marked =
          (getNode ⟨[⟨false, 0, 0, 0, 1, none, none, some 1, some 1⟩,
            ⟨false, 1, 1, 0, 2, none, some 2, some 0, some 0⟩,
            ⟨true, 1, 2, 0, 4, some 1, some 3, some 2, some 2⟩,
            ⟨true, 0, 3, 0, 5, some 2, none, some 3, some 3⟩], 4, some 0,
            [some 0, some 1, some 2, some 3]⟩ 3).marked ∧
        (getNode t 2).childrens =
          (getNode ⟨[⟨false, 0, 0, 0, 1, none, none, some 1, some 1⟩,
            ⟨false, 1, 1, 0, 2, none, some 2, some 0, some 0⟩,
            ⟨true, 1, 2, 0, 4, some 1, some 3, some 2, some 2⟩,
            ⟨true, 0, 3, 0, 5, some 2, none, some 3, some 3⟩], 4, some 0,
            [some 0, some 1, some 2, some 3]⟩ 2).childrens - 1 ∧
        (getNode t 2).child ≠ some 3 ∧
        (3 = 3 → (getNode t 2).child = none)) ∧
      (((getNode ⟨[⟨false, 0, 0, 0, 1, none, none, some 1, some 1⟩,
          ⟨false, 1, 1, 0, 2, none, some 2, some 0, some 0⟩,
          ⟨true, 1, 2, 0, 4, some 1, some 3, some 2, some 2⟩,
          ⟨true, 0, 3, 0, 5, some 2, none, some 3, some 3⟩], 4, some 0,
          [some 0, some 1, some 2, some 3]⟩ 2).parent = none ∨
        (getNode ⟨[⟨false, 0, 0, 0, 1, none, none, some 1, some 1⟩,
          ⟨false, 1, 1, 0, 2, none, some 2, some 0, some 0⟩,
          ⟨true, 1, 2, 0, 4, some 1, some 3, some 2, some 2⟩,
          ⟨true, 0, 3, 0, 5, some 2, none, some 3, some 3⟩], 4, some 0,
          [some 0, some 1, some 2, some 3]⟩ 2).marked = false) →
        ∃ s', cutFibonacciMinHeap 3
            ⟨[⟨false, 0, 0, 0, 1, none, none, some 1, some 1⟩,
              ⟨false, 1, 1, 0, 2, none, some 2, some 0, some 0⟩,
              ⟨true, 1, 2, 0, 4, some 1, some 3, some 2, some 2⟩,
              ⟨true, 0, 3, 0, 5, some 2, none, some 3, some 3⟩], 4, some 0,
              [some 0, some 1, some 2, some 3]⟩ 3 = some s' ∧
          (getNode s' 3).right = some 0 ∧
          (getNode s' 3).left = some 1 ∧
          (getNode s' 0).left = some 3 ∧
          (getNode s' 1).right = some 3 ∧
          (getNode s' 2).marked =
            (if (getNode ⟨[⟨false, 0, 0, 0, 1, none, none, some 1, some 1⟩,
              ⟨false, 1, 1, 0, 2, none, some 2, some 0, some 0⟩,
              ⟨true, 1, 2, 0, 4, some 1, some 3, some 2, some 2⟩,
              ⟨true, 0, 3, 0, 5, some 2, none, some 3, some 3⟩], 4, some 0,
              [some 0, some 1, some 2, some 3]⟩ 2).parent = none
            then (getNode ⟨[⟨false, 0, 0, 0, 1, none, none, some 1, some 1⟩,
              ⟨false, 1, 1, 0, 2, none, some 2, some 0, some 0⟩,
              ⟨true, 1, 2, 0, 4, some 1, some 3, some 2, some 2⟩,
              ⟨true, 0, 3, 0, 5, some 2, none, some 3, some 3⟩], 4, some 0,
              [some 0, some 1, some 2, some 3]⟩ 2).marked else true) ∧
          s'.size = (4 : Int) ∧
          s'.positions = [some 0, some 1, some 2, some 3] ∧
          s'.minimum = (if (5 : Int) < 1 then some 3 else some 0))) := by
  refine ⟨⟨by decide, by decide, by decide, by decide⟩, ?_⟩
  exact claim_C8_cut_postconditions 2
    ⟨[⟨false, 0, 0, 0, 1, none, none, some 1, some 1⟩,
      ⟨false, 1, 1, 0, 2, none, some 2, some 0, some 0⟩,
      ⟨true, 1, 2, 0, 4, some 1, some 3, some 2, some 2⟩,
      ⟨true, 0, 3, 0, 5, some 2, none, some 3, some 3⟩], 4, some 0,
      [some 0, some 1, some 2, some 3]⟩ 3 2 0 1 3 3
    (by decide) (by decide) (by decide) (by decide) (by decide) (by decide)
    (by decide) (by decide) (by decide) (by decide) (by decide) (by decide)
    (by decide) (by decide) (by decide)

/-! ## Theorems: sequential Borůvka -/

theorem getD_replicate_self {α : Type} (n v : Nat) (d : α) :
    (List.replicate n d).getD v d = d := by
  rw [List.getD_eq_getElem?_getD]
  rcases Nat.lt_or_ge v n with h | h
  · rw [List.getElem?_replicate, if_pos h]
    rfl
  · rw [List.getElem?_eq_none (by simpa using h)]
    rfl

theorem parentSlot_newSet (n v : Nat) : parentSlot (newSet n) v = UNSET_ELEMENT := by
  unfold parentSlot newSet
  exact getD_replicate_self n v UNSET_ELEMENT

theorem WF_newSet (n : Nat) : WF (newSet n) := by
  refine ⟨by simp [newSet], by simp [newSet], ?_, ?_⟩
  · intro v _
    exact Or.inl (parentSlot_newSet n v)
  · intro v hv
    refine ⟨[v], PathTo.root ?_, List.nodup_singleton v, ?_⟩
    · rw [parentOf_eq_none_iff]
      exact parentSlot_newSet n v
    · intro w hw
      rw [List.mem_singleton] at hw
      rw [hw]
      exact hv

theorem rootsFinset_newSet (n : Nat) : rootsFinset (newSet n) = Finset.range n := by
  unfold rootsFinset
  refine Finset.filter_true_of_mem ?_
  intro v _
  exact parentSlot_newSet n v

theorem rootD_mem_rootsFinset {s : Set} (hWF : WF s) {v : Nat}
    (hv : v < s.elements) : rootD s v ∈ rootsFinset s := by
  rw [mem_rootsFinset]
  exact ⟨rootD_lt hWF hv, rootD_isRoot hWF hv⟩

theorem rootD_congr {s s' : Set} (hWF : WF s) (hWF' : WF s')
    (helems : s'.elements = s.elements)
    (hiff : ∀ x rx, Rooted s' x rx ↔ Rooted s x rx) {v : Nat}
    (hv : v < s.elements) : rootD s' v = rootD s v := by
  have h1 : Rooted s' v (rootD s' v) := rootD_rooted hWF' (by rw [helems]; exact hv)
  exact (rootD_eq_of_rooted hWF hv ((hiff _ _).mp h1)).symm

/-- A union of two vertices with different canonical elements keeps the
forest well-formed and decreases the number of components by exactly one. -/
theorem unionSet_card {s : Set} (hWF : WF s) {a b : Nat} (ha : a < s.elements)
    (hb : b < s.elements) {fuel : Nat} (hfuel : s.elements ≤ fuel)
    (hne : rootD s a ≠ rootD s b) :
    WF (unionSet fuel s a b) ∧ (unionSet fuel s a b).elements = s.elements ∧
    (rootsFinset (unionSet fuel s a b)).card + 1 = (rootsFinset s).card := by
  obtain ⟨hw, he, _, hcases⟩ := unionSet_spec hWF ha hb hfuel
  obtain ⟨hlt, hgt, heq⟩ := hcases hne
  have hmema := rootD_mem_rootsFinset hWF ha
  have hmemb := rootD_mem_rootsFinset hWF hb
  have hposa : 0 < (rootsFinset s).card := Finset.card_pos.mpr ⟨_, hmema⟩
  refine ⟨hw, he, ?_⟩
  rcases lt_trichotomy (s.rank.getD (rootD s a) 0) (s.rank.getD (rootD s b) 0) with
    h | h | h
  · obtain ⟨_, _, hroots, _⟩ := hlt h
    rw [hroots, Finset.card_erase_of_mem hmema]
    omega
  · obtain ⟨_, _, hroots, _⟩ := heq h
    rw [hroots, Finset.card_erase_of_mem hmema]
    omega
  · obtain ⟨_, _, hroots, _⟩ := hgt h
    rw [hroots, Finset.card_erase_of_mem hmemb]
    omega

theorem resetClosest_length (l : List Edge) : (resetClosest l).length = l.length := by
  induction l with
  | nil => rfl
  | cons e r ih =>
    rw [resetClosest, List.length_cons, List.length_cons, ih]

theorem resetClosest_getD_weight : ∀ (l : List Edge) (k : Nat), k < l.length →
    ((resetClosest l).getD k default).weight = INT_MAX := by
  intro l
  induction l with
  | nil =>
    intro k hk
    simp at hk
  | cons e r ih =>
    intro k hk
    cases k with
    | zero => rfl
    | succ k' =>
      rw [resetClosest]
      show ((resetClosest r).getD k' default).weight = INT_MAX
      exact ih k' (by simpa using hk)

/-- The closest-edge search only compresses paths: the forest stays
well-formed and keeps exactly the same components and roots. -/
theorem boruvkaFindClosest_inv (fuel : Nat) :
    ∀ (edgeList : List Edge) (s : Set) (closest : List Edge), WF s →
    (∀ e ∈ edgeList, e.from_.toNat < s.elements ∧ e.to_.toNat < s.elements) →
    s.elements ≤ fuel →
    WF (boruvkaFindClosest fuel s closest edgeList).1 ∧
    (boruvkaFindClosest fuel s closest edgeList).1.elements = s.elements ∧
    (∀ x rx, Rooted (boruvkaFindClosest fuel s closest edgeList).1 x rx ↔
      Rooted s x rx) ∧
    rootsFinset (boruvkaFindClosest fuel s closest edgeList).1 = rootsFinset s := by
  intro edgeList
  induction edgeList with
  | nil =>
    intro s closest hWF hedges hfuel
    exact ⟨hWF, rfl, fun x rx => Iff.rfl, rfl⟩
  | cons e rest ih =>
    intro s closest hWF hedges hfuel
    obtain ⟨hef, het⟩ := hedges e (List.mem_cons_self e rest)
    obtain ⟨_, _, h0wf, h0elems, _, h0iff, _, h0none⟩ := findSet_wf hWF hef hfuel
    have hto : e.to_.toNat < (findSet fuel s e.from_.toNat).1.elements := by
      rw [h0elems]; exact het
    have hfl : (findSet fuel s e.from_.toNat).1.elements ≤ fuel := by
      rw [h0elems]; exact hfuel
    obtain ⟨_, _, h1wf, h1elems, _, h1iff, _, h1none⟩ := findSet_wf h0wf hto hfl
    have helems1 : (findSet fuel (findSet fuel s e.from_.toNat).1 e.to_.toNat).1.elements =
        s.elements := by rw [h1elems, h0elems]
    have hiff1 : ∀ x rx,
        Rooted (findSet fuel (findSet fuel s e.from_.toNat).1 e.to_.toNat).1 x rx ↔
        Rooted s x rx := fun x rx => (h1iff x rx).trans (h0iff x rx)
    have hnone1 : ∀ w,
        parentOf (findSet fuel (findSet fuel s e.from_.toNat).1 e.to_.toNat).1 w = none ↔
        parentOf s w = none := fun w => (h1none w).trans (h0none w)
    have hedges1 : ∀ e' ∈ rest,
        e'.from_.toNat < (findSet fuel (findSet fuel s e.from_.toNat).1 e.to_.toNat).1.elements ∧
        e'.to_.toNat < (findSet fuel (findSet fuel s e.from_.toNat).1 e.to_.toNat).1.elements := by
      intro e' he'
      rw [helems1]
      exact hedges e' (List.mem_cons_of_mem e he')
    have hfuel1 : (findSet fuel (findSet fuel s e.from_.toNat).1 e.to_.toNat).1.elements ≤
        fuel := by rw [helems1]; exact hfuel
    rw [boruvkaFindClosest]
    dsimp only
    by_cases hc : (findSet fuel s e.from_.toNat).2 ≠
        (findSet fuel (findSet fuel s e.from_.toNat).1 e.to_.toNat).2
    · rw [if_pos hc]
      obtain ⟨i1, i2, i3, i4⟩ := ih (findSet fuel (findSet fuel s e.from_.toNat).1
        e.to_.toNat).1 _ h1wf hedges1 hfuel1
      refine ⟨i1, i2.trans helems1, fun x rx => (i3 x rx).trans (hiff1 x rx),
        i4.trans (rootsFinset_congr helems1 hnone1)⟩
    · rw [if_neg hc]
      obtain ⟨i1, i2, i3, i4⟩ := ih (findSet fuel (findSet fuel s e.from_.toNat).1
        e.to_.toNat).1 closest h1wf hedges1 hfuel1
      refine ⟨i1, i2.trans helems1, fun x rx => (i3 x rx).trans (hiff1 x rx),
        i4.trans (rootsFinset_congr helems1 hnone1)⟩

/-- Slots of the closest-edge array after the search loop: every slot either
kept its previous content or holds one of the scanned edges. -/
theorem boruvkaFindClosest_slots (fuel : Nat) (P : Edge → Prop) :
    ∀ (edgeList : List Edge) (s : Set) (closest : List Edge),
    (∀ k, P (closest.getD k default)) → (∀ e ∈ edgeList, P e) →
    ∀ k, P ((boruvkaFindClosest fuel s closest edgeList).2.getD k default) := by
  have hset : ∀ (cl : List Edge) (c : Nat) (e : Edge),
      (∀ k, P (cl.getD k default)) → P e → ∀ k, P ((cl.set c e).getD k default) := by
    intro cl c e hcl hPe k
    by_cases hk : k = c
    · subst hk
      by_cases hlen : k < cl.length
      · rw [getD_set_self_of_lt _ _ hlen]
        exact hPe
      · rw [List.set_eq_of_length_le (by omega)]
        exact hcl k
    · rw [getD_set_ne_of_ne _ _ (Ne.symm hk)]
      exact hcl k
  intro edgeList
  induction edgeList with
  | nil =>
    intro s closest hcl _ k
    exact hcl k
  | cons e rest ih =>
    intro s closest hcl hedges k
    have hPe : P e := hedges e (List.mem_cons_self e rest)
    have hrest : ∀ e' ∈ rest, P e' := fun e' he' => hedges e' (List.mem_cons_of_mem e he')
    rw [boruvkaFindClosest]
    dsimp only
    by_cases hc : (findSet fuel s e.from_.toNat).2 ≠
        (findSet fuel (findSet fuel s e.from_.toNat).1 e.to_.toNat).2
    · rw [if_pos hc]
      refine ih _ _ ?_ hrest k
      split
      · split
        · exact hset _ _ _ (hset _ _ _ hcl hPe) hPe
        · exact hset _ _ _ hcl hPe
      · split
        · exact hset _ _ _ hcl hPe
        · exact hcl
    · rw [if_neg hc]
      exact ih _ _ hcl hrest k

/-- The add-to-MST loop keeps the forest well-formed and increments
`edgesMST` exactly once per component merge: the sum of `edgesMST` and the
number of components is preserved. -/
theorem boruvkaAddLoop_inv (fuel : Nat) (closest : List Edge) :
    ∀ (count j : Nat) (s : Set) (edgesMST : Nat) (mstList : List Edge), WF s →
    (∀ k, (closest.getD k default).weight ≠ INT_MAX →
      (closest.getD k default).from_.toNat < s.elements ∧
      (closest.getD k default).to_.toNat < s.elements) →
    s.elements ≤ fuel →
    WF (boruvkaAddLoop fuel closest count j s edgesMST mstList).1 ∧
    (boruvkaAddLoop fuel closest count j s edgesMST mstList).1.elements = s.elements ∧
    (boruvkaAddLoop fuel closest count j s edgesMST mstList).2.1 +
      (rootsFinset (boruvkaAddLoop fuel closest count j s edgesMST mstList).1).card =
      edgesMST + (rootsFinset s).card ∧
    rootsFinset (boruvkaAddLoop fuel closest count j s edgesMST mstList).1 ⊆
      rootsFinset s := by
  intro count
  induction count with
  | zero =>
    intro j s edgesMST mstList hWF hcl hfuel
    exact ⟨hWF, rfl, rfl, Finset.Subset.refl _⟩
  | succ count ih =>
    intro j s edgesMST mstList hWF hcl hfuel
    rw [boruvkaAddLoop]
    dsimp only
    by_cases hw : (closest.getD j default).weight ≠ INT_MAX
    · rw [if_pos hw]
      obtain ⟨hef, het⟩ := hcl j hw
      obtain ⟨_, _, h0wf, h0elems, _, h0iff, _, h0none⟩ := findSet_wf hWF hef hfuel
      have hto : (closest.getD j default).to_.toNat <
          (findSet fuel s (closest.getD j default).from_.toNat).1.elements := by
        rw [h0elems]; exact het
      have hfl : (findSet fuel s (closest.getD j default).from_.toNat).1.elements ≤
          fuel := by rw [h0elems]; exact hfuel
      obtain ⟨_, _, h1wf, h1elems, _, h1iff, _, h1none⟩ := findSet_wf h0wf hto hfl
      have helems1 : (findSet fuel (findSet fuel s
          (closest.getD j default).from_.toNat).1
          (closest.getD j default).to_.toNat).1.elements = s.elements := by
        rw [h1elems, h0elems]
      have hiff1 : ∀ x rx, Rooted (findSet fuel (findSet fuel s
          (closest.getD j default).from_.toNat).1
          (closest.getD j default).to_.toNat).1 x rx ↔ Rooted s x rx :=
        fun x rx => (h1iff x rx).trans (h0iff x rx)
      have hnone1 : ∀ w, parentOf (findSet fuel (findSet fuel s
          (closest.getD j default).from_.toNat).1
          (closest.getD j default).to_.toNat).1 w = none ↔ parentOf s w = none :=
        fun w => (h1none w).trans (h0none w)
      have hroots1 : rootsFinset (findSet fuel (findSet fuel s
          (closest.getD j default).from_.toNat).1
          (closest.getD j default).to_.toNat).1 = rootsFinset s :=
        rootsFinset_congr helems1 hnone1
      by_cases hc : (findSet fuel s (closest.getD j default).from_.toNat).2 ≠
          (findSet fuel (findSet fuel s (closest.getD j default).from_.toNat).1
            (closest.getD j default).to_.toNat).2
      · rw [if_pos hc]
        have hr0 : (findSet fuel s (closest.getD j default).from_.toNat).2 =
            rootD s (closest.getD j default).from_.toNat :=
          findSet_snd_eq_rootD hWF hef hfuel
        have hr1 : (findSet fuel (findSet fuel s
            (closest.getD j default).from_.toNat).1
            (closest.getD j default).to_.toNat).2 =
            rootD (findSet fuel s (closest.getD j default).from_.toNat).1
              (closest.getD j default).to_.toNat :=
          findSet_snd_eq_rootD h0wf hto hfl
        have hrt : rootD (findSet fuel s (closest.getD j default).from_.toNat).1
            (closest.getD j default).to_.toNat =
            rootD s (closest.getD j default).to_.toNat :=
          rootD_congr hWF h0wf h0elems h0iff het
        have hreq : ∀ v, v < s.elements → rootD (findSet fuel (findSet fuel s
            (closest.getD j default).from_.toNat).1
            (closest.getD j default).to_.toNat).1 v = rootD s v :=
          fun v hv => rootD_congr hWF h1wf helems1 hiff1 hv
        have hne : rootD (findSet fuel (findSet fuel s
            (closest.getD j default).from_.toNat).1
            (closest.getD j default).to_.toNat).1
              (closest.getD j default).from_.toNat ≠
            rootD (findSet fuel (findSet fuel s
            (closest.getD j default).from_.toNat).1
            (closest.getD j default).to_.toNat).1
              (closest.getD j default).to_.toNat := by
          rw [hreq _ hef, hreq _ het]
          intro hh
          apply hc
          rw [hr0, hr1, hrt, hh]
        have hfu : (findSet fuel (findSet fuel s
            (closest.getD j default).from_.toNat).1
            (closest.getD j default).to_.toNat).1.elements ≤ fuel := by
          rw [helems1]; exact hfuel
        obtain ⟨huwf, huelems, hucard⟩ :=
          unionSet_card h1wf (by rw [helems1]; exact hef) (by rw [helems1]; exact het)
            hfu hne
        obtain ⟨i1, i2, i3, i4⟩ := ih (j + 1) _ (edgesMST + 1) _ huwf
          (by
            intro k hk
            rw [huelems, helems1]
            exact hcl k hk)
          (by rw [huelems, helems1]; exact hfuel)
        have husub : rootsFinset (unionSet fuel (findSet fuel (findSet fuel s
            (closest.getD j default).from_.toNat).1
            (closest.getD j default).to_.toNat).1
            (closest.getD j default).from_.toNat
            (closest.getD j default).to_.toNat) ⊆ rootsFinset s := by
          obtain ⟨_, _, _, hcases⟩ := unionSet_spec h1wf (by rw [helems1]; exact hef)
            (by rw [helems1]; exact het) hfu
          obtain ⟨hlt, hgt, heq2⟩ := hcases hne
          rcases lt_trichotomy ((findSet fuel (findSet fuel s
              (closest.getD j default).from_.toNat).1
              (closest.getD j default).to_.toNat).1.rank.getD
              (rootD (findSet fuel (findSet fuel s
                (closest.getD j default).from_.toNat).1
                (closest.getD j default).to_.toNat).1
                (closest.getD j default).from_.toNat) 0)
              ((findSet fuel (findSet fuel s
              (closest.getD j default).from_.toNat).1
              (closest.getD j default).to_.toNat).1.rank.getD
              (rootD (findSet fuel (findSet fuel s
                (closest.getD j default).from_.toNat).1
                (closest.getD j default).to_.toNat).1
                (closest.getD j default).to_.toNat) 0) with h | h | h
          · obtain ⟨_, _, hroots, _⟩ := hlt h
            rw [hroots, hroots1]
            exact Finset.erase_subset _ _
          · obtain ⟨_, _, hroots, _⟩ := heq2 h
            rw [hroots, hroots1]
            exact Finset.erase_subset _ _
          · obtain ⟨_, _, hroots, _⟩ := hgt h
            rw [hroots, hroots1]
            exact Finset.erase_subset _ _
        refine ⟨i1, i2.trans (huelems.trans helems1), ?_, i4.trans husub⟩
        rw [i3]
        rw [hroots1] at hucard
        omega
      · rw [if_neg hc]
        obtain ⟨i1, i2, i3, i4⟩ := ih (j + 1) _ edgesMST _ h1wf
          (by
            intro k hk
            rw [helems1]
            exact hcl k hk)
          (by rw [helems1]; exact hfuel)
        refine ⟨i1, i2.trans helems1, ?_, by rw [hroots1] at i4; exact i4⟩
        rw [i3, hroots1]
    · rw [if_neg hw]
      exact ih (j + 1) s edgesMST mstList hWF hcl hfuel

/-- One Borůvka phase preserves well-formedness and the identity
`edgesMST + #components`. -/
theorem mstBoruvkaPhase_inv (fuel vertices : Nat) (edgeList : List Edge)
    (st : Set × Nat × List Edge × List Edge) (hWF : WF st.1)
    (helems : st.1.elements = vertices)
    (hedges : ∀ e ∈ edgeList, e.from_.toNat < vertices ∧ e.to_.toNat < vertices)
    (hfuel : vertices ≤ fuel) (hV : 1 ≤ vertices) :
    WF (mstBoruvkaPhase fuel vertices edgeList st).1 ∧
    (mstBoruvkaPhase fuel vertices edgeList st).1.elements = vertices ∧
    (mstBoruvkaPhase fuel vertices edgeList st).2.1 +
      (rootsFinset (mstBoruvkaPhase fuel vertices edgeList st).1).card =
      st.2.1 + (rootsFinset st.1).card := by
  have hedges' : ∀ e ∈ edgeList, e.from_.toNat < st.1.elements ∧
      e.to_.toNat < st.1.elements := by
    rw [helems]; exact hedges
  have hfuel' : st.1.elements ≤ fuel := by rw [helems]; exact hfuel
  obtain ⟨f1, f2, f3, f4⟩ :=
    boruvkaFindClosest_inv fuel edgeList st.1 (resetClosest st.2.2.2) hWF hedges' hfuel'
  have hslots : ∀ k,
      (((boruvkaFindClosest fuel st.1 (resetClosest st.2.2.2) edgeList).2.getD k
        default).weight ≠ INT_MAX →
        ((boruvkaFindClosest fuel st.1 (resetClosest st.2.2.2) edgeList).2.getD k
          default).from_.toNat <
          (boruvkaFindClosest fuel st.1 (resetClosest st.2.2.2) edgeList).1.elements ∧
        ((boruvkaFindClosest fuel st.1 (resetClosest st.2.2.2) edgeList).2.getD k
          default).to_.toNat <
          (boruvkaFindClosest fuel st.1 (resetClosest st.2.2.2) edgeList).1.elements) := by
    have hgen := boruvkaFindClosest_slots fuel
      (fun e => e.weight ≠ INT_MAX →
        e.from_.toNat < vertices ∧ e.to_.toNat < vertices)
      edgeList st.1 (resetClosest st.2.2.2) ?_ ?_
    · intro k
      rw [f2, helems]
      exact hgen k
    · intro k
      by_cases hk : k < (resetClosest st.2.2.2).length
      · intro hne
        exact absurd (resetClosest_getD_weight st.2.2.2 k
          (by rw [← resetClosest_length]; exact hk)) hne
      · rw [List.getD_eq_default _ _ (by omega)]
        intro _
        constructor <;> exact hV
    · intro e he _
      exact hedges e he
  have hfuel'' : (boruvkaFindClosest fuel st.1 (resetClosest st.2.2.2)
      edgeList).1.elements ≤ fuel := by
    rw [f2, helems]; exact hfuel
  obtain ⟨a1, a2, a3, a4⟩ := boruvkaAddLoop_inv fuel
    (boruvkaFindClosest fuel st.1 (resetClosest st.2.2.2) edgeList).2 vertices 0
    (boruvkaFindClosest fuel st.1 (resetClosest st.2.2.2) edgeList).1 st.2.1
    st.2.2.1 f1 hslots hfuel''
  refine ⟨a1, a2.trans (f2.trans helems), ?_⟩
  show (boruvkaAddLoop fuel _ vertices 0 _ st.2.1 st.2.2.1).2.1 +
    (rootsFinset (boruvkaAddLoop fuel _ vertices 0 _ st.2.1 st.2.2.1).1).card =
    st.2.1 + (rootsFinset st.1).card
  rw [a3, f4]

/-- The phase loop completes within `fuelPhase` phases once
`vertices ≤ i · 2 ^ fuelPhase`: the doubling loop counter leaves the guard
after at most that many phases. -/
theorem mstBoruvkaLoop_terminates (fuelFind vertices : Nat) (edgeList : List Edge) :
    ∀ (fuelPhase i : Nat) (st : Set × Nat × List Edge × List Edge),
    vertices ≤ i * 2 ^ fuelPhase →
    ∃ out, mstBoruvkaLoop fuelFind vertices edgeList fuelPhase i st = some out := by
  intro fuelPhase
  induction fuelPhase with
  | zero =>
    intro i st hb
    rw [mstBoruvkaLoop, if_neg]
    · exact ⟨st, rfl⟩
    · intro hcontra
      have := hcontra.1
      simp at hb
      omega
  | succ fp ih =>
    intro i st hb
    rw [mstBoruvkaLoop]
    by_cases hg : i < vertices ∧ st.2.1 < vertices - 1
    · rw [if_pos hg]
      refine ih (i * 2) _ ?_
      have : i * 2 ^ (fp + 1) = i * 2 * 2 ^ fp := by ring
      omega
    · rw [if_neg hg]
      exact ⟨st, rfl⟩

/-- The loop is a no-op once `edgesMST` has reached `vertices - 1`. -/
theorem mstBoruvkaLoop_early_exit (fuelFind vertices : Nat) (edgeList : List Edge)
    (fuelPhase i : Nat) (st : Set × Nat × List Edge × List Edge)
    (h : vertices - 1 ≤ st.2.1) :
    mstBoruvkaLoop fuelFind vertices edgeList fuelPhase i st = some st := by
  cases fuelPhase with
  | zero =>
    rw [mstBoruvkaLoop, if_neg]
    intro hcontra
    omega
  | succ fp =>
    rw [mstBoruvkaLoop, if_neg]
    intro hcontra
    omega

/-- Invariant transport along the whole phase loop. -/
theorem mstBoruvkaLoop_inv (fuelFind vertices : Nat) (edgeList : List Edge)
    (hedges : ∀ e ∈ edgeList, e.from_.toNat < vertices ∧ e.to_.toNat < vertices)
    (hfuel : vertices ≤ fuelFind) (hV : 1 ≤ vertices) :
    ∀ (fuelPhase i : Nat) (st out : Set × Nat × List Edge × List Edge),
    WF st.1 → st.1.elements = vertices →
    mstBoruvkaLoop fuelFind vertices edgeList fuelPhase i st = some out →
    WF out.1 ∧ out.1.elements = vertices ∧
    out.2.1 + (rootsFinset out.1).card = st.2.1 + (rootsFinset st.1).card := by
  intro fuelPhase
  induction fuelPhase with
  | zero =>
    intro i st out hWF helems heq
    rw [mstBoruvkaLoop] at heq
    by_cases hg : i < vertices ∧ st.2.1 < vertices - 1
    · rw [if_pos hg] at heq
      exact absurd heq (by intro hh; exact Option.noConfusion hh)
    · rw [if_neg hg] at heq
      obtain rfl := Option.some.inj heq
      exact ⟨hWF, helems, rfl⟩
  | succ fp ih =>
    intro i st out hWF helems heq
    rw [mstBoruvkaLoop] at heq
    by_cases hg : i < vertices ∧ st.2.1 < vertices - 1
    · rw [if_pos hg] at heq
      obtain ⟨p1, p2, p3⟩ :=
        mstBoruvkaPhase_inv fuelFind vertices edgeList st hWF helems hedges hfuel hV
      obtain ⟨i1, i2, i3⟩ := ih (i * 2) _ out p1 p2 heq
      exact ⟨i1, i2, by rw [i3, p3]⟩
    · rw [if_neg hg] at heq
      obtain rfl := Option.some.inj heq
      exact ⟨hWF, helems, rfl⟩

theorem rootD_self_of_root {s : Set} (hWF : WF s) {r : Nat} (hr : r < s.elements)
    (hroot : parentOf s r = none) : rootD s r = r :=
  rootD_eq_of_rooted hWF hr (Rooted.root hroot)

theorem unionSet_rootD_same {s : Set} (hWF : WF s) {a b : Nat} (ha : a < s.elements)
    (hb : b < s.elements) {fuel : Nat} (hfuel : s.elements ≤ fuel)
    (heq : rootD s a = rootD s b) :
    ∀ x, x < s.elements → rootD (unionSet fuel s a b) x = rootD s x := by
  obtain ⟨hw, he, hsame, _⟩ := unionSet_spec hWF ha hb hfuel
  obtain ⟨hiff, _, _⟩ := hsame heq
  intro x hx
  exact rootD_congr hWF hw he hiff hx

theorem unionSet_rootD_merge {s : Set} (hWF : WF s) {a b : Nat} (ha : a < s.elements)
    (hb : b < s.elements) {fuel : Nat} (hfuel : s.elements ≤ fuel)
    (hne : rootD s a ≠ rootD s b) :
    ∃ loser winner : Nat,
      ((loser = rootD s a ∧ winner = rootD s b) ∨
        (loser = rootD s b ∧ winner = rootD s a)) ∧
      ∀ x, x < s.elements → rootD (unionSet fuel s a b) x =
        if rootD s x = loser then winner else rootD s x := by
  obtain ⟨hw, he, _, hcases⟩ := unionSet_spec hWF ha hb hfuel
  obtain ⟨hlt, hgt, heq⟩ := hcases hne
  have main : ∀ loser winner : Nat, winner < s.elements →
      (∀ x rx, Rooted (unionSet fuel s a b) x rx ↔
        ((Rooted s x loser ∧ rx = winner) ∨ (Rooted s x rx ∧ rx ≠ loser))) →
      ∀ x, x < s.elements → rootD (unionSet fuel s a b) x =
        if rootD s x = loser then winner else rootD s x := by
    intro loser winner hwinner hiff x hx
    have hx' : x < (unionSet fuel s a b).elements := by rw [he]; exact hx
    by_cases hxl : rootD s x = loser
    · rw [if_pos hxl]
      refine rootD_eq_of_rooted hw hx' ((hiff x winner).mpr (Or.inl ⟨?_, rfl⟩))
      rw [← hxl]
      exact rootD_rooted hWF hx
    · rw [if_neg hxl]
      exact rootD_eq_of_rooted hw hx' ((hiff x (rootD s x)).mpr
        (Or.inr ⟨rootD_rooted hWF hx, hxl⟩))
  rcases lt_trichotomy (s.rank.getD (rootD s a) 0) (s.rank.getD (rootD s b) 0) with
    h | h | h
  · obtain ⟨_, _, _, hiff⟩ := hlt h
    exact ⟨rootD s a, rootD s b, Or.inl ⟨rfl, rfl⟩,
      main _ _ (rootD_lt hWF hb) hiff⟩
  · obtain ⟨_, _, _, hiff⟩ := heq h
    exact ⟨rootD s a, rootD s b, Or.inl ⟨rfl, rfl⟩,
      main _ _ (rootD_lt hWF hb) hiff⟩
  · obtain ⟨_, _, _, hiff⟩ := hgt h
    exact ⟨rootD s b, rootD s a, Or.inr ⟨rfl, rfl⟩,
      main _ _ (rootD_lt hWF ha) hiff⟩

theorem unionSet_rootD_coarsen {s : Set} (hWF : WF s) {a b : Nat}
    (ha : a < s.elements) (hb : b < s.elements) {fuel : Nat}
    (hfuel : s.elements ≤ fuel) {x y : Nat} (hx : x < s.elements)
    (hy : y < s.elements) (hxy : rootD s x = rootD s y) :
    rootD (unionSet fuel s a b) x = rootD (unionSet fuel s a b) y := by
  by_cases hne : rootD s a = rootD s b
  · rw [unionSet_rootD_same hWF ha hb hfuel hne x hx,
      unionSet_rootD_same hWF ha hb hfuel hne y hy, hxy]
  · obtain ⟨l, w, _, hform⟩ := unionSet_rootD_merge hWF ha hb hfuel hne
    rw [hform x hx, hform y hy, hxy]

theorem unionSet_rootD_unites {s : Set} (hWF : WF s) {a b : Nat}
    (ha : a < s.elements) (hb : b < s.elements) {fuel : Nat}
    (hfuel : s.elements ≤ fuel) :
    rootD (unionSet fuel s a b) a = rootD (unionSet fuel s a b) b := by
  by_cases hne : rootD s a = rootD s b
  · rw [unionSet_rootD_same hWF ha hb hfuel hne a ha,
      unionSet_rootD_same hWF ha hb hfuel hne b hb, hne]
  · obtain ⟨l, w, hlw, hform⟩ := unionSet_rootD_merge hWF ha hb hfuel hne
    rw [hform a ha, hform b hb]
    rcases hlw with ⟨hl, hw⟩ | ⟨hl, hw⟩
    · rw [if_pos hl.symm, if_neg (by rw [hl]; exact fun hh => hne hh.symm), hw]
    · rw [if_pos hl.symm, if_neg (by rw [hl]; exact hne), hw]

/-- The closest-edge search never changes the length of the slot array. -/
theorem boruvkaFindClosest_length (fuel : Nat) :
    ∀ (edgeList : List Edge) (s : Set) (closest : List Edge),
    (boruvkaFindClosest fuel s closest edgeList).2.length = closest.length := by
  intro edgeList
  induction edgeList with
  | nil =>
    intro s closest
    rfl
  | cons e rest ih =>
    intro s closest
    have hstep : ∀ (cl : List Edge) (c : Nat),
        (if (cl.getD c default).weight = INT_MAX ∨
            e.weight < (cl.getD c default).weight then cl.set c e
          else cl).length = cl.length := by
      intro cl c
      by_cases h : (cl.getD c default).weight = INT_MAX ∨
          e.weight < (cl.getD c default).weight
      · rw [if_pos h, List.length_set]
      · rw [if_neg h]
    rw [boruvkaFindClosest]
    dsimp only
    by_cases hc : (findSet fuel s e.from_.toNat).2 ≠
        (findSet fuel (findSet fuel s e.from_.toNat).1 e.to_.toNat).2
    · rw [if_pos hc, ih, hstep, hstep]
    · rw [if_neg hc]
      exact ih _ _

/-- `boruvkaFindClosest` keeps every slot description (`closestSlotOK`) valid,
and fills (with a weight strictly below `INT_MAX`) the slot of every root that
some scanned edge crosses — where "crosses" is read in the reference forest
`s0` whose components the current forest `s` refines pointwise. -/
theorem boruvkaFindClosest_fills (fuel : Nat) (s0 : Set) (hWF0 : WF s0)
    (hfuel : s0.elements ≤ fuel) :
    ∀ (edgeList : List Edge) (s : Set) (closest : List Edge), WF s →
    s.elements = s0.elements →
    (∀ e ∈ edgeList, e.from_.toNat < s0.elements ∧ e.to_.toNat < s0.elements ∧
      e.weight < INT_MAX) →
    (∀ x, x < s0.elements → rootD s x = rootD s0 x) →
    closest.length = s0.elements →
    (∀ r, r < s0.elements → closestSlotOK s0 closest r) →
    (∀ r, r < s0.elements →
      closestSlotOK s0 (boruvkaFindClosest fuel s closest edgeList).2 r) ∧
    (boruvkaFindClosest fuel s closest edgeList).2.length = s0.elements ∧
    (∀ r, r < s0.elements →
      ((closest.getD r default).weight < INT_MAX ∨
        ∃ e ∈ edgeList, rootD s0 e.from_.toNat ≠ rootD s0 e.to_.toNat ∧
          (rootD s0 e.from_.toNat = r ∨ rootD s0 e.to_.toNat = r)) →
      ((boruvkaFindClosest fuel s closest edgeList).2.getD r default).weight <
        INT_MAX) := by
  intro edgeList
  induction edgeList with
  | nil =>
    intro s closest hWF helems hedges hrd hlen hP
    refine ⟨hP, hlen, ?_⟩
    intro r hr hcase
    rcases hcase with h | ⟨e, he, _⟩
    · exact h
    · simp at he
  | cons e rest ih =>
    intro s closest hWF helems hedges hrd hlen hP
    obtain ⟨hef, het, hew⟩ := hedges e (List.mem_cons_self e rest)
    have hef' : e.from_.toNat < s.elements := by rw [helems]; exact hef
    have hfuel' : s.elements ≤ fuel := by rw [helems]; exact hfuel
    obtain ⟨_, _, h0wf, h0elems, _, h0iff, _, _⟩ := findSet_wf hWF hef' hfuel'
    have hto : e.to_.toNat < (findSet fuel s e.from_.toNat).1.elements := by
      rw [h0elems, helems]; exact het
    have hfl : (findSet fuel s e.from_.toNat).1.elements ≤ fuel := by
      rw [h0elems]; exact hfuel'
    obtain ⟨_, _, h1wf, h1elems, _, h1iff, _, _⟩ := findSet_wf h0wf hto hfl
    have helems1 :
        (findSet fuel (findSet fuel s e.from_.toNat).1 e.to_.toNat).1.elements =
        s0.elements := by rw [h1elems, h0elems, helems]
    have hiff1 : ∀ x rx,
        Rooted (findSet fuel (findSet fuel s e.from_.toNat).1 e.to_.toNat).1 x rx ↔
        Rooted s x rx := fun x rx => (h1iff x rx).trans (h0iff x rx)
    have hedges1 : ∀ e' ∈ rest, e'.from_.toNat < s0.elements ∧
        e'.to_.toNat < s0.elements ∧ e'.weight < INT_MAX :=
      fun e' he' => hedges e' (List.mem_cons_of_mem e he')
    have hrd1 : ∀ x, x < s0.elements →
        rootD (findSet fuel (findSet fuel s e.from_.toNat).1 e.to_.toNat).1 x =
        rootD s0 x := by
      intro x hx
      have hx' : x < s.elements := by rw [helems]; exact hx
      exact (rootD_congr hWF h1wf (by rw [h1elems, h0elems]) hiff1 hx').trans
        (hrd x hx)
    have hc0 : (findSet fuel s e.from_.toNat).2 = rootD s0 e.from_.toNat :=
      (findSet_snd_eq_rootD hWF hef' hfuel').trans (hrd _ hef)
    have hc1 : (findSet fuel (findSet fuel s e.from_.toNat).1 e.to_.toNat).2 =
        rootD s0 e.to_.toNat := by
      have h1 := findSet_snd_eq_rootD h0wf hto hfl
      have h2 := rootD_congr hWF h0wf h0elems h0iff
        (show e.to_.toNat < s.elements by rw [helems]; exact het)
      exact h1.trans (h2.trans (hrd _ het))
    rw [boruvkaFindClosest]
    dsimp only
    by_cases hcne : (findSet fuel s e.from_.toNat).2 ≠
        (findSet fuel (findSet fuel s e.from_.toNat).1 e.to_.toNat).2
    · rw [if_pos hcne]
      have hcross : rootD s0 e.from_.toNat ≠ rootD s0 e.to_.toNat := by
        rw [← hc0, ← hc1]; exact hcne
      have hupd : ∀ (cl : List Edge) (c : Nat), c < s0.elements →
          cl.length = s0.elements →
          (rootD s0 e.from_.toNat = c ∨ rootD s0 e.to_.toNat = c) →
          (∀ r, r < s0.elements → closestSlotOK s0 cl r) →
          (∀ r, r < s0.elements → closestSlotOK s0
            (if (cl.getD c default).weight = INT_MAX ∨
                e.weight < (cl.getD c default).weight then cl.set c e
              else cl) r) ∧
          (if (cl.getD c default).weight = INT_MAX ∨
              e.weight < (cl.getD c default).weight then cl.set c e
            else cl).length = s0.elements ∧
          ((if (cl.getD c default).weight = INT_MAX ∨
              e.weight < (cl.getD c default).weight then cl.set c e
            else cl).getD c default).weight < INT_MAX ∧
          (∀ r, r < s0.elements → (cl.getD r default).weight < INT_MAX →
            ((if (cl.getD c default).weight = INT_MAX ∨
                e.weight < (cl.getD c default).weight then cl.set c e
              else cl).getD r default).weight < INT_MAX) := by
        intro cl c hc hcllen htouch hPcl
        by_cases hcond : (cl.getD c default).weight = INT_MAX ∨
            e.weight < (cl.getD c default).weight
        · rw [if_pos hcond]
          have hgetc : (cl.set c e).getD c default = e :=
            getD_set_self_of_lt _ _ (by rw [hcllen]; exact hc)
          refine ⟨?_, by rw [List.length_set]; exact hcllen,
            by rw [hgetc]; exact hew, ?_⟩
          · intro r hr
            unfold closestSlotOK
            by_cases hrc : r = c
            · rw [hrc, hgetc]
              exact Or.inr ⟨hew, hef, het, hcross, htouch⟩
            · rw [getD_set_ne_of_ne _ _ (fun hh => hrc hh.symm)]
              have hPr := hPcl r hr
              unfold closestSlotOK at hPr
              exact hPr
          · intro r hr hfil
            by_cases hrc : r = c
            · rw [hrc, hgetc]
              exact hew
            · rw [getD_set_ne_of_ne _ _ (fun hh => hrc hh.symm)]
              exact hfil
        · rw [if_neg hcond]
          push_neg at hcond
          refine ⟨hPcl, hcllen, ?_, fun r hr h => h⟩
          have hPc := hPcl c hc
          unfold closestSlotOK at hPc
          rcases hPc with h | h
          · exact absurd h hcond.1
          · exact h.1
      obtain ⟨u1P, u1len, u1c, u1keep⟩ := hupd closest
        (findSet fuel s e.from_.toNat).2
        (by rw [hc0]; exact rootD_lt hWF0 hef) hlen (Or.inl hc0.symm) hP
      obtain ⟨u2P, u2len, u2c, u2keep⟩ := hupd _
        (findSet fuel (findSet fuel s e.from_.toNat).1 e.to_.toNat).2
        (by rw [hc1]; exact rootD_lt hWF0 het) u1len (Or.inr hc1.symm) u1P
      obtain ⟨ihP, ihlen, ihfill⟩ := ih _ _ h1wf helems1 hedges1 hrd1 u2len u2P
      refine ⟨ihP, ihlen, ?_⟩
      intro r hr hcase
      apply ihfill r hr
      rcases hcase with hfil | ⟨e', he', hcr', ht'⟩
      · exact Or.inl (u2keep r hr (u1keep r hr hfil))
      · rcases List.mem_cons.mp he' with rfl | hmem
        · refine Or.inl ?_
          rcases ht' with hq | hq
          · have hr0 : r = (findSet fuel s e'.from_.toNat).2 := by
              rw [hc0, hq]
            rw [hr0]
            exact u2keep _ (by rw [hc0]; exact rootD_lt hWF0 hef) u1c
          · have hr1 : r =
                (findSet fuel (findSet fuel s e'.from_.toNat).1 e'.to_.toNat).2 := by
              rw [hc1, hq]
            rw [hr1]
            exact u2c
        · exact Or.inr ⟨e', hmem, hcr', ht'⟩
    · rw [if_neg hcne]
      push_neg at hcne
      have hsame : rootD s0 e.from_.toNat = rootD s0 e.to_.toNat := by
        rw [← hc0, ← hc1]; exact hcne
      obtain ⟨ihP, ihlen, ihfill⟩ := ih _ _ h1wf helems1 hedges1 hrd1 hlen hP
      refine ⟨ihP, ihlen, ?_⟩
      intro r hr hcase
      apply ihfill r hr
      rcases hcase with hfil | ⟨e', he', hcr', ht'⟩
      · exact Or.inl hfil
      · rcases List.mem_cons.mp he' with rfl | hmem
        · exact absurd hsame hcr'
        · exact Or.inr ⟨e', hmem, hcr', ht'⟩

/-- The add-to-MST loop only coarsens the partition, and after it every
processed non-sentinel slot has its two endpoints in the same component. -/
theorem boruvkaAddLoop_merges (fuel : Nat) (closest : List Edge) :
    ∀ (count j : Nat) (s : Set) (edgesMST : Nat) (mstList : List Edge), WF s →
    (∀ k, (closest.getD k default).weight ≠ INT_MAX →
      (closest.getD k default).from_.toNat < s.elements ∧
      (closest.getD k default).to_.toNat < s.elements) →
    s.elements ≤ fuel →
    (∀ x y, x < s.elements → y < s.elements → rootD s x = rootD s y →
      rootD (boruvkaAddLoop fuel closest count j s edgesMST mstList).1 x =
      rootD (boruvkaAddLoop fuel closest count j s edgesMST mstList).1 y) ∧
    (∀ k, j ≤ k → k < j + count →
      (closest.getD k default).weight ≠ INT_MAX →
      rootD (boruvkaAddLoop fuel closest count j s edgesMST mstList).1
        (closest.getD k default).from_.toNat =
      rootD (boruvkaAddLoop fuel closest count j s edgesMST mstList).1
        (closest.getD k default).to_.toNat) := by
  intro count
  induction count with
  | zero =>
    intro j s edgesMST mstList hWF hcl hfuel
    exact ⟨fun x y hx hy hxy => hxy, fun k hk1 hk2 _ => absurd hk2 (by omega)⟩
  | succ count ih =>
    intro j s edgesMST mstList hWF hcl hfuel
    rw [boruvkaAddLoop]
    dsimp only
    by_cases hw : (closest.getD j default).weight ≠ INT_MAX
    · rw [if_pos hw]
      obtain ⟨hef, het⟩ := hcl j hw
      obtain ⟨_, _, h0wf, h0elems, _, h0iff, _, _⟩ := findSet_wf hWF hef hfuel
      have hto : (closest.getD j default).to_.toNat <
          (findSet fuel s (closest.getD j default).from_.toNat).1.elements := by
        rw [h0elems]; exact het
      have hfl : (findSet fuel s (closest.getD j default).from_.toNat).1.elements ≤
          fuel := by rw [h0elems]; exact hfuel
      obtain ⟨_, _, h1wf, h1elems, _, h1iff, _, _⟩ := findSet_wf h0wf hto hfl
      have helems1 : (findSet fuel (findSet fuel s
          (closest.getD j default).from_.toNat).1
          (closest.getD j default).to_.toNat).1.elements = s.elements := by
        rw [h1elems, h0elems]
      have hiff1 : ∀ x rx, Rooted (findSet fuel (findSet fuel s
          (closest.getD j default).from_.toNat).1
          (closest.getD j default).to_.toNat).1 x rx ↔ Rooted s x rx :=
        fun x rx => (h1iff x rx).trans (h0iff x rx)
      have hr0 : (findSet fuel s (closest.getD j default).from_.toNat).2 =
          rootD s (closest.getD j default).from_.toNat :=
        findSet_snd_eq_rootD hWF hef hfuel
      have hr1 : (findSet fuel (findSet fuel s
          (closest.getD j default).from_.toNat).1
          (closest.getD j default).to_.toNat).2 =
          rootD (findSet fuel s (closest.getD j default).from_.toNat).1
            (closest.getD j default).to_.toNat :=
        findSet_snd_eq_rootD h0wf hto hfl
      have hrt : rootD (findSet fuel s (closest.getD j default).from_.toNat).1
          (closest.getD j default).to_.toNat =
          rootD s (closest.getD j default).to_.toNat :=
        rootD_congr hWF h0wf h0elems h0iff het
      have hreq : ∀ v, v < s.elements → rootD (findSet fuel (findSet fuel s
          (closest.getD j default).from_.toNat).1
          (closest.getD j default).to_.toNat).1 v = rootD s v :=
        fun v hv => rootD_congr hWF h1wf helems1 hiff1 hv
      have hfu : (findSet fuel (findSet fuel s
          (closest.getD j default).from_.toNat).1
          (closest.getD j default).to_.toNat).1.elements ≤ fuel := by
        rw [helems1]; exact hfuel
      have hef1 : (closest.getD j default).from_.toNat < (findSet fuel (findSet fuel s
          (closest.getD j default).from_.toNat).1
          (closest.getD j default).to_.toNat).1.elements := by
        rw [helems1]; exact hef
      have het1 : (closest.getD j default).to_.toNat < (findSet fuel (findSet fuel s
          (closest.getD j default).from_.toNat).1
          (closest.getD j default).to_.toNat).1.elements := by
        rw [helems1]; exact het
      by_cases hc : (findSet fuel s (closest.getD j default).from_.toNat).2 ≠
          (findSet fuel (findSet fuel s (closest.getD j default).from_.toNat).1
            (closest.getD j default).to_.toNat).2
      · rw [if_pos hc]
        have hne : rootD (findSet fuel (findSet fuel s
            (closest.getD j default).from_.toNat).1
            (closest.getD j default).to_.toNat).1
              (closest.getD j default).from_.toNat ≠
            rootD (findSet fuel (findSet fuel s
            (closest.getD j default).from_.toNat).1
            (closest.getD j default).to_.toNat).1
              (closest.getD j default).to_.toNat := by
          rw [hreq _ hef, hreq _ het]
          intro hh
          apply hc
          rw [hr0, hr1, hrt, hh]
        obtain ⟨huwf, huelems, _⟩ := unionSet_card h1wf hef1 het1 hfu hne
        have hcoar : ∀ x y, x < s.elements → y < s.elements →
            rootD s x = rootD s y →
            rootD (unionSet fuel (findSet fuel (findSet fuel s
              (closest.getD j default).from_.toNat).1
              (closest.getD j default).to_.toNat).1
              (closest.getD j default).from_.toNat
              (closest.getD j default).to_.toNat) x =
            rootD (unionSet fuel (findSet fuel (findSet fuel s
              (closest.getD j default).from_.toNat).1
              (closest.getD j default).to_.toNat).1
              (closest.getD j default).from_.toNat
              (closest.getD j default).to_.toNat) y := by
          intro x y hx hy hxy
          apply unionSet_rootD_coarsen h1wf hef1 het1 hfu
            (by rw [helems1]; exact hx) (by rw [helems1]; exact hy)
          rw [hreq x hx, hreq y hy]
          exact hxy
        have huni : rootD (unionSet fuel (findSet fuel (findSet fuel s
            (closest.getD j default).from_.toNat).1
            (closest.getD j default).to_.toNat).1
            (closest.getD j default).from_.toNat
            (closest.getD j default).to_.toNat)
              (closest.getD j default).from_.toNat =
            rootD (unionSet fuel (findSet fuel (findSet fuel s
            (closest.getD j default).from_.toNat).1
            (closest.getD j default).to_.toNat).1
            (closest.getD j default).from_.toNat
            (closest.getD j default).to_.toNat)
              (closest.getD j default).to_.toNat :=
          unionSet_rootD_unites h1wf hef1 het1 hfu
        obtain ⟨ih1, ih2⟩ := ih (j + 1) _ (edgesMST + 1) _ huwf
          (by
            intro k hk
            rw [huelems, helems1]
            exact hcl k hk)
          (by rw [huelems, helems1]; exact hfuel)
        refine ⟨?_, ?_⟩
        · intro x y hx hy hxy
          exact ih1 x y (by rw [huelems, helems1]; exact hx)
            (by rw [huelems, helems1]; exact hy) (hcoar x y hx hy hxy)
        · intro k hk1 hk2 hkw
          by_cases hkj : k = j
          · rw [hkj]
            exact ih1 _ _ (by rw [huelems, helems1]; exact hef)
              (by rw [huelems, helems1]; exact het) huni
          · exact ih2 k (by omega) (by omega) hkw
      · rw [if_neg hc]
        push_neg at hc
        have hseq : rootD s (closest.getD j default).from_.toNat =
            rootD s (closest.getD j default).to_.toNat := by
          rw [← hr0, hc, hr1, hrt]
        obtain ⟨ih1, ih2⟩ := ih (j + 1) _ edgesMST mstList h1wf
          (by
            intro k hk
            rw [helems1]
            exact hcl k hk)
          hfu
        refine ⟨?_, ?_⟩
        · intro x y hx hy hxy
          exact ih1 x y (by rw [helems1]; exact hx) (by rw [helems1]; exact hy)
            (by rw [hreq x hx, hreq y hy]; exact hxy)
        · intro k hk1 hk2 hkw
          by_cases hkj : k = j
          · rw [hkj]
            exact ih1 _ _ (by rw [helems1]; exact hef) (by rw [helems1]; exact het)
              (by rw [hreq _ hef, hreq _ het]; exact hseq)
          · exact ih2 k (by omega) (by omega) hkw
    · rw [if_neg hw]
      obtain ⟨ih1, ih2⟩ := ih (j + 1) s edgesMST mstList hWF hcl hfuel
      refine ⟨ih1, ?_⟩
      intro k hk1 hk2 hkw
      by_cases hkj : k = j
      · rw [hkj] at hkw
        exact absurd hkw hw
      · exact ih2 k (by omega) (by omega) hkw

/-- The closest-edge scratch list of a phase is the searched slot array; its
length is that of the incoming scratch list. -/
theorem mstBoruvkaPhase_closest (fuel vertices : Nat) (edgeList : List Edge)
    (st : Set × Nat × List Edge × List Edge) :
    (mstBoruvkaPhase fuel vertices edgeList st).2.2.2.length = st.2.2.2.length := by
  show (boruvkaFindClosest fuel st.1 (resetClosest st.2.2.2) edgeList).2.length = _
  rw [boruvkaFindClosest_length, resetClosest_length]

/-- Abstract halving step: if after a phase every old root's slot got filled,
filled slots have merged endpoints, and the new forest only coarsens the old
partition, then the root count at least halves. -/
theorem boruvkaHalving (s0 sA : Set) (cl : List Edge) (hWF0 : WF s0)
    (hWFA : WF sA) (helemsA : sA.elements = s0.elements)
    (hsub : rootsFinset sA ⊆ rootsFinset s0)
    (hcoar : ∀ x y, x < s0.elements → y < s0.elements →
      rootD s0 x = rootD s0 y → rootD sA x = rootD sA y)
    (hP : ∀ r, r < s0.elements → closestSlotOK s0 cl r)
    (hfill : ∀ r ∈ rootsFinset s0, (cl.getD r default).weight < INT_MAX)
    (hm2 : ∀ k, k < s0.elements → (cl.getD k default).weight ≠ INT_MAX →
      rootD sA (cl.getD k default).from_.toNat =
      rootD sA (cl.getD k default).to_.toNat) :
    2 * (rootsFinset sA).card ≤ (rootsFinset s0).card := by
  have hidem : ∀ x, x < s0.elements → rootD s0 (rootD s0 x) = rootD s0 x :=
    fun x hx => rootD_self_of_root hWF0 (rootD_lt hWF0 hx) (rootD_isRoot hWF0 hx)
  have hmem : ∀ r ∈ rootsFinset s0, rootD sA r ∈ rootsFinset sA := by
    intro r hr
    exact rootD_mem_rootsFinset hWFA
      (by rw [helemsA]; exact (mem_rootsFinset.mp hr).1)
  have hfix : ∀ n ∈ rootsFinset sA, rootD sA n = n := by
    intro n hn
    obtain ⟨hn1, hn2⟩ := mem_rootsFinset.mp hn
    exact rootD_self_of_root hWFA hn1 hn2
  have hkey : ∀ r ∈ rootsFinset s0, ∃ r2, r2 ∈ rootsFinset s0 ∧ r2 ≠ r ∧
      rootD sA r2 = rootD sA r := by
    intro r hr
    obtain ⟨hrlt, hrroot⟩ := mem_rootsFinset.mp hr
    have hfr := hfill r hr
    have hPr := hP r hrlt
    unfold closestSlotOK at hPr
    rcases hPr with hs | ⟨hw, hf, ht, hcr, htouch⟩
    · rw [hs] at hfr
      exact absurd hfr (lt_irrefl _)
    · have hm := hm2 r hrlt (ne_of_lt hw)
      have hrr : rootD s0 r = r := rootD_self_of_root hWF0 hrlt hrroot
      rcases htouch with hq | hq
      · refine ⟨rootD s0 (cl.getD r default).to_.toNat,
          rootD_mem_rootsFinset hWF0 ht, ?_, ?_⟩
        · intro hh
          apply hcr
          rw [hq]
          exact hh.symm
        · have h1 : rootD sA (rootD s0 (cl.getD r default).to_.toNat) =
              rootD sA (cl.getD r default).to_.toNat :=
            hcoar _ _ (rootD_lt hWF0 ht) ht (hidem _ ht)
          have h2 : rootD sA (cl.getD r default).from_.toNat = rootD sA r :=
            hcoar _ _ hf hrlt (by rw [hq, hrr])
          rw [h1, ← hm, h2]
      · refine ⟨rootD s0 (cl.getD r default).from_.toNat,
          rootD_mem_rootsFinset hWF0 hf, ?_, ?_⟩
        · intro hh
          apply hcr
          rw [hq]
          exact hh
        · have h1 : rootD sA (rootD s0 (cl.getD r default).from_.toNat) =
              rootD sA (cl.getD r default).from_.toNat :=
            hcoar _ _ (rootD_lt hWF0 hf) hf (hidem _ hf)
          have h2 : rootD sA (cl.getD r default).to_.toNat = rootD sA r :=
            hcoar _ _ ht hrlt (by rw [hq, hrr])
          rw [h1, hm, h2]
  have hsum := Finset.card_eq_sum_card_fiberwise hmem
  have hlb : ∀ n ∈ rootsFinset sA, 2 ≤
      ((rootsFinset s0).filter (fun r => rootD sA r = n)).card := by
    intro n hn
    obtain ⟨r2, hr2R, hr2ne, hr2phi⟩ := hkey n (hsub hn)
    have hnmem : n ∈ (rootsFinset s0).filter (fun r => rootD sA r = n) :=
      Finset.mem_filter.mpr ⟨hsub hn, hfix n hn⟩
    have hr2mem : r2 ∈ (rootsFinset s0).filter (fun r => rootD sA r = n) :=
      Finset.mem_filter.mpr ⟨hr2R, by rw [hr2phi]; exact hfix n hn⟩
    have hpair : ({r2, n} : Finset Nat) ⊆
        (rootsFinset s0).filter (fun r => rootD sA r = n) := by
      intro x hx
      rcases Finset.mem_insert.mp hx with rfl | hx2
      · exact hr2mem
      · rw [Finset.mem_singleton.mp hx2]
        exact hnmem
    calc 2 = ({r2, n} : Finset Nat).card := (Finset.card_pair hr2ne).symm
      _ ≤ _ := Finset.card_le_card hpair
  calc 2 * (rootsFinset sA).card = ∑ _n ∈ rootsFinset sA, 2 := by
        rw [Finset.sum_const, smul_eq_mul, mul_comm]
    _ ≤ ∑ n ∈ rootsFinset sA,
        ((rootsFinset s0).filter (fun r => rootD sA r = n)).card :=
        Finset.sum_le_sum hlb
    _ = (rootsFinset s0).card := hsum.symm

/-- On a connected graph whose edges all weigh less than `INT_MAX`, one
Borůvka phase at least halves the number of components, as long as more than
one component remains. -/
theorem mstBoruvkaPhase_halves (fuel vertices : Nat) (edgeList : List Edge)
    (st : Set × Nat × List Edge × List Edge) (hWF : WF st.1)
    (helems : st.1.elements = vertices)
    (hedges : ∀ e ∈ edgeList, e.from_.toNat < vertices ∧
      e.to_.toNat < vertices ∧ e.weight < INT_MAX)
    (hfuel : vertices ≤ fuel) (hV : 1 ≤ vertices)
    (hconn : connectedOn vertices edgeList)
    (hlen : st.2.2.2.length = vertices)
    (hcard2 : 2 ≤ (rootsFinset st.1).card) :
    2 * (rootsFinset (mstBoruvkaPhase fuel vertices edgeList st).1).card ≤
      (rootsFinset st.1).card := by
  have hedges2 : ∀ e ∈ edgeList, e.from_.toNat < st.1.elements ∧
      e.to_.toNat < st.1.elements := by
    intro e he
    rw [helems]
    exact ⟨(hedges e he).1, (hedges e he).2.1⟩
  have hfuel' : st.1.elements ≤ fuel := by rw [helems]; exact hfuel
  obtain ⟨f1, f2, f3, f4⟩ := boruvkaFindClosest_inv fuel edgeList st.1
    (resetClosest st.2.2.2) hWF hedges2 hfuel'
  have hedges0 : ∀ e ∈ edgeList, e.from_.toNat < st.1.elements ∧
      e.to_.toNat < st.1.elements ∧ e.weight < INT_MAX := by
    intro e he
    rw [helems]
    exact hedges e he
  have hlen0 : (resetClosest st.2.2.2).length = st.1.elements := by
    rw [resetClosest_length, hlen, helems]
  have hP0 : ∀ r, r < st.1.elements →
      closestSlotOK st.1 (resetClosest st.2.2.2) r := by
    intro r hr
    unfold closestSlotOK
    exact Or.inl (resetClosest_getD_weight st.2.2.2 r
      (by rw [hlen, ← helems]; exact hr))
  obtain ⟨ihP, fclen, ihfill⟩ := boruvkaFindClosest_fills fuel st.1 hWF hfuel'
    edgeList st.1 (resetClosest st.2.2.2) hWF rfl hedges0 (fun x _ => rfl)
    hlen0 hP0
  have hfillR : ∀ r ∈ rootsFinset st.1,
      (((boruvkaFindClosest fuel st.1 (resetClosest st.2.2.2) edgeList).2.getD r
        default).weight : Int) < INT_MAX := by
    intro r hrR
    obtain ⟨hrlt, hrroot⟩ := mem_rootsFinset.mp hrR
    apply ihfill r hrlt
    right
    have hone : 1 < (rootsFinset st.1).card := by omega
    obtain ⟨r2, hr2R, hr2ne⟩ := Finset.exists_ne_of_one_lt_card hone r
    have hproper : ¬ Finset.range vertices ⊆
        (Finset.range vertices).filter (fun x => rootD st.1 x = r) := by
      intro hsub2
      obtain ⟨hr2lt, hr2root⟩ := mem_rootsFinset.mp hr2R
      have hr2mem : r2 ∈ Finset.range vertices :=
        Finset.mem_range.mpr (by rw [← helems]; exact hr2lt)
      have hval := (Finset.mem_filter.mp (hsub2 hr2mem)).2
      exact hr2ne ((rootD_self_of_root hWF hr2lt hr2root).symm.trans hval)
    obtain ⟨e, heE, hcase⟩ := hconn
      ((Finset.range vertices).filter (fun x => rootD st.1 x = r))
      (Finset.filter_subset _ _)
      ⟨r, Finset.mem_filter.mpr ⟨Finset.mem_range.mpr
        (by rw [← helems]; exact hrlt),
        rootD_self_of_root hWF hrlt hrroot⟩⟩
      hproper
    rcases hcase with ⟨hin, hout⟩ | ⟨hin, hout⟩
    · refine ⟨e, heE, ?_, Or.inl (Finset.mem_filter.mp hin).2⟩
      rw [(Finset.mem_filter.mp hin).2]
      intro hh
      apply hout
      exact Finset.mem_filter.mpr
        ⟨Finset.mem_range.mpr (hedges e heE).2.1, hh.symm⟩
    · refine ⟨e, heE, ?_, Or.inr (Finset.mem_filter.mp hin).2⟩
      intro hh
      apply hout
      exact Finset.mem_filter.mpr
        ⟨Finset.mem_range.mpr (hedges e heE).1,
          hh.trans (Finset.mem_filter.mp hin).2⟩
  have hslotsA : ∀ k,
      (((boruvkaFindClosest fuel st.1 (resetClosest st.2.2.2) edgeList).2.getD k
        default).weight ≠ INT_MAX →
        ((boruvkaFindClosest fuel st.1 (resetClosest st.2.2.2) edgeList).2.getD k
          default).from_.toNat <
          (boruvkaFindClosest fuel st.1 (resetClosest st.2.2.2) edgeList).1.elements ∧
        ((boruvkaFindClosest fuel st.1 (resetClosest st.2.2.2) edgeList).2.getD k
          default).to_.toNat <
          (boruvkaFindClosest fuel st.1 (resetClosest st.2.2.2) edgeList).1.elements) := by
    intro k hk
    by_cases hklt : k < st.1.elements
    · have hPk := ihP k hklt
      unfold closestSlotOK at hPk
      rcases hPk with hs | ⟨_, hf, ht, _, _⟩
      · exact absurd hs hk
      · rw [f2]
        exact ⟨hf, ht⟩
    · rw [List.getD_eq_default _ _ (by rw [fclen]; omega)] at hk ⊢
      rw [f2, helems]
      constructor <;> exact hV
  have hfuel2 : (boruvkaFindClosest fuel st.1 (resetClosest st.2.2.2)
      edgeList).1.elements ≤ fuel := by
    rw [f2]; exact hfuel'
  obtain ⟨m1, m2⟩ := boruvkaAddLoop_merges fuel
    (boruvkaFindClosest fuel st.1 (resetClosest st.2.2.2) edgeList).2 vertices 0
    (boruvkaFindClosest fuel st.1 (resetClosest st.2.2.2) edgeList).1 st.2.1
    st.2.2.1 f1 hslotsA hfuel2
  obtain ⟨a1, a2, a3, a4⟩ := boruvkaAddLoop_inv fuel
    (boruvkaFindClosest fuel st.1 (resetClosest st.2.2.2) edgeList).2 vertices 0
    (boruvkaFindClosest fuel st.1 (resetClosest st.2.2.2) edgeList).1 st.2.1
    st.2.2.1 f1 hslotsA hfuel2
  have hfc : ∀ x, x < st.1.elements →
      rootD (boruvkaFindClosest fuel st.1 (resetClosest st.2.2.2) edgeList).1 x =
      rootD st.1 x := fun x hx => rootD_congr hWF f1 f2 f3 hx
  show 2 * (rootsFinset (boruvkaAddLoop fuel
    (boruvkaFindClosest fuel st.1 (resetClosest st.2.2.2) edgeList).2 vertices 0
    (boruvkaFindClosest fuel st.1 (resetClosest st.2.2.2) edgeList).1 st.2.1
    st.2.2.1).1).card ≤ (rootsFinset st.1).card
  refine boruvkaHalving st.1 _ _ hWF a1 (a2.trans f2) ?_ ?_ ihP hfillR ?_
  · rw [← f4]
    exact a4
  · intro x y hx hy hxy
    refine m1 x y (by rw [f2]; exact hx) (by rw [f2]; exact hy) ?_
    rw [hfc x hx, hfc y hy]
    exact hxy
  · intro k hk hkw
    refine m2 k (Nat.zero_le k) ?_ hkw
    rw [helems] at hk
    omega

/-- Exit analysis of the phase-loop guard: when the guard fails and the
doubling counter dominates the component count, exactly `vertices - 1` MST
edges have been collected. -/
theorem boruvkaExit (vertices i : Nat) (st : Set × Nat × List Edge × List Edge)
    (hWF : WF st.1) (helems : st.1.elements = vertices) (hV : 1 ≤ vertices)
    (hsum : st.2.1 + (rootsFinset st.1).card = vertices)
    (hci : (rootsFinset st.1).card * i ≤ vertices)
    (hguard : ¬(i < vertices ∧ st.2.1 < vertices - 1)) :
    st.2.1 = vertices - 1 := by
  have hpos : 0 < (rootsFinset st.1).card :=
    Finset.card_pos.mpr ⟨rootD st.1 0,
      rootD_mem_rootsFinset hWF (by rw [helems]; exact hV)⟩
  push_neg at hguard
  by_cases hiv : i < vertices
  · have := hguard hiv
    omega
  · have h1 : (rootsFinset st.1).card * vertices ≤ vertices :=
      le_trans (Nat.mul_le_mul le_rfl (le_of_not_lt hiv)) hci
    have hcard1 : (rootsFinset st.1).card = 1 := by
      by_contra hne
      have hc2 : 2 ≤ (rootsFinset st.1).card := by omega
      have h2 : 2 * vertices ≤ (rootsFinset st.1).card * vertices :=
        Nat.mul_le_mul hc2 le_rfl
      omega
    omega

/-- On a connected graph with all edge weights below `INT_MAX`, whenever the
phase loop returns, it returns with exactly `vertices - 1` MST edges: each
pass at least halves the component count while the counter `i` doubles, so
either the early-exit or the `i < vertices` exit fires with one component
left. -/
theorem mstBoruvkaLoop_connected (fuelFind vertices : Nat) (edgeList : List Edge)
    (hedges : ∀ e ∈ edgeList, e.from_.toNat < vertices ∧
      e.to_.toNat < vertices ∧ e.weight < INT_MAX)
    (hfuel : vertices ≤ fuelFind) (hV : 1 ≤ vertices)
    (hconn : connectedOn vertices edgeList) :
    ∀ (fuelPhase i : Nat) (st out : Set × Nat × List Edge × List Edge),
    WF st.1 → st.1.elements = vertices → st.2.2.2.length = vertices →
    st.2.1 + (rootsFinset st.1).card = vertices →
    (rootsFinset st.1).card * i ≤ vertices →
    mstBoruvkaLoop fuelFind vertices edgeList fuelPhase i st = some out →
    out.2.1 = vertices - 1 := by
  have hedges2 : ∀ e ∈ edgeList, e.from_.toNat < vertices ∧
      e.to_.toNat < vertices :=
    fun e he => ⟨(hedges e he).1, (hedges e he).2.1⟩
  intro fuelPhase
  induction fuelPhase with
  | zero =>
    intro i st out hWF helems hlen hsum hci heq
    rw [mstBoruvkaLoop] at heq
    by_cases hg : i < vertices ∧ st.2.1 < vertices - 1
    · rw [if_pos hg] at heq
      exact Option.noConfusion heq
    · rw [if_neg hg] at heq
      have hso := Option.some.inj heq
      subst hso
      exact boruvkaExit vertices i st hWF helems hV hsum hci hg
  | succ fp ih =>
    intro i st out hWF helems hlen hsum hci heq
    rw [mstBoruvkaLoop] at heq
    by_cases hg : i < vertices ∧ st.2.1 < vertices - 1
    · rw [if_pos hg] at heq
      have hcard2 : 2 ≤ (rootsFinset st.1).card := by omega
      have halve := mstBoruvkaPhase_halves fuelFind vertices edgeList st hWF
        helems hedges hfuel hV hconn hlen hcard2
      obtain ⟨p1, p2, p3⟩ := mstBoruvkaPhase_inv fuelFind vertices edgeList st
        hWF helems hedges2 hfuel hV
      have hlen2 : (mstBoruvkaPhase fuelFind vertices edgeList st).2.2.2.length =
          vertices := (mstBoruvkaPhase_closest fuelFind vertices edgeList st).trans hlen
      have hsum2 : (mstBoruvkaPhase fuelFind vertices edgeList st).2.1 +
          (rootsFinset (mstBoruvkaPhase fuelFind vertices edgeList st).1).card =
          vertices := p3.trans hsum
      have hci2 : (rootsFinset (mstBoruvkaPhase fuelFind vertices
          edgeList st).1).card * (i * 2) ≤ vertices := by
        have h4 : 2 * (rootsFinset (mstBoruvkaPhase fuelFind vertices
            edgeList st).1).card * i ≤ (rootsFinset st.1).card * i :=
          Nat.mul_le_mul halve le_rfl
        calc (rootsFinset (mstBoruvkaPhase fuelFind vertices
              edgeList st).1).card * (i * 2)
            = 2 * (rootsFinset (mstBoruvkaPhase fuelFind vertices
              edgeList st).1).card * i := by ring
          _ ≤ (rootsFinset st.1).card * i := h4
          _ ≤ vertices := hci
      exact ih (i * 2) _ out p1 p2 hlen2 hsum2 hci2 heq
    · rw [if_neg hg] at heq
      have hso := Option.some.inj heq
      subst hso
      exact boruvkaExit vertices i st hWF helems hV hsum hci hg

/-- A two-vertex graph with one edge between its vertices is connected. -/
theorem connectedOn_two (w : Int) : connectedOn 2 [⟨0, 1, w⟩] := by
  intro A hsub hne hproper
  refine ⟨⟨0, 1, w⟩, List.mem_singleton_self _, ?_⟩
  have h01 : ¬(0 ∈ A ∧ 1 ∈ A) := by
    intro hboth
    apply hproper
    intro x hx
    have hx2 : x < 2 := Finset.mem_range.mp hx
    have hx01 : x = 0 ∨ x = 1 := by omega
    rcases hx01 with rfl | rfl
    · exact hboth.1
    · exact hboth.2
  obtain ⟨a, ha⟩ := hne
  have ha2 : a < 2 := Finset.mem_range.mp (hsub ha)
  have ha01 : a = 0 ∨ a = 1 := by omega
  show (0 ∈ A ∧ 1 ∉ A) ∨ (1 ∈ A ∧ 0 ∉ A)
  rcases ha01 with rfl | rfl
  · exact Or.inl ⟨ha, fun h1 => h01 ⟨ha, h1⟩⟩
  · exact Or.inr ⟨ha, fun h0 => h01 ⟨h0, ha⟩⟩

/-- C9: with fuel `⌈log₂ V⌉` the Borůvka phase loop always returns (at most
that many phases run, the counter `i` doubling past `V`), it returns
immediately once `edgesMST` reaches `V − 1`, and the final count satisfies
`edgesMST + #components = V`; on a connected input **whose edge weights are
all below `INT_MAX`** exactly `V − 1` edges are collected.  (The weight bound
is the correction: a genuine `INT_MAX`-weight edge is mistaken for the unset
sentinel and dropped, see the counterexample.) -/
theorem claim_C9_boruvka_phases (graph mst : WeightedGraph)
    (hV : 1 ≤ graph.vertices)
    (hedges : ∀ e ∈ graph.edgeList, e.from_.toNat < graph.vertices ∧
      e.to_.toNat < graph.vertices) :
    (∃ out, mstBoruvka (Nat.clog 2 graph.vertices) graph mst = some out ∧
      out.2.1 + (rootsFinset out.1).card = graph.vertices ∧
      ((∀ e ∈ graph.edgeList, e.weight < INT_MAX) →
        connectedOn graph.vertices graph.edgeList →
        out.2.1 = graph.vertices - 1)) ∧
    (∀ (fuelPhase i : Nat) (st : Set × Nat × List Edge × List Edge),
      graph.vertices - 1 ≤ st.2.1 →
      mstBoruvkaLoop graph.vertices graph.vertices graph.edgeList fuelPhase i
        st = some st) := by
  constructor
  · obtain ⟨out, hout⟩ := mstBoruvkaLoop_terminates graph.vertices
      graph.vertices graph.edgeList (Nat.clog 2 graph.vertices) 1
      (newSet graph.vertices, 0, mst.edgeList,
        List.replicate graph.vertices (default : Edge))
      (by rw [one_mul]; exact Nat.le_pow_clog (by norm_num) _)
    refine ⟨out, hout, ?_, ?_⟩
    · obtain ⟨_, _, hsum⟩ := mstBoruvkaLoop_inv graph.vertices graph.vertices
        graph.edgeList hedges le_rfl hV (Nat.clog 2 graph.vertices) 1 _ out
        (WF_newSet _) rfl hout
      rw [hsum]
      show 0 + (rootsFinset (newSet graph.vertices)).card = graph.vertices
      rw [rootsFinset_newSet, Finset.card_range, Nat.zero_add]
    · intro hwts hconn
      refine mstBoruvkaLoop_connected graph.vertices graph.vertices
        graph.edgeList
        (fun e he => ⟨(hedges e he).1, (hedges e he).2, hwts e he⟩)
        le_rfl hV hconn (Nat.clog 2 graph.vertices) 1 _ out (WF_newSet _) rfl
        ?_ ?_ ?_ hout
      · exact List.length_replicate _ _
      · show 0 + (rootsFinset (newSet graph.vertices)).card = graph.vertices
        rw [rootsFinset_newSet, Finset.card_range, Nat.zero_add]
      · show (rootsFinset (newSet graph.vertices)).card * 1 ≤ graph.vertices
        rw [rootsFinset_newSet, Finset.card_range, Nat.mul_one]
  · intro fuelPhase i st h
    exact mstBoruvkaLoop_early_exit graph.vertices graph.vertices
      graph.edgeList fuelPhase i st h

theorem claim_C9_boruvka_phases_witness :
    ((1 ≤ 2 ∧ ∀ e ∈ ([⟨0, 1, 5⟩] : List Edge), e.from_.toNat < 2 ∧
        e.to_.toNat < 2) ∧
      (∃ out, mstBoruvka (Nat.clog 2 2) ⟨1, 2, [⟨0, 1, 5⟩]⟩
          ⟨1, 2, [(default : Edge)]⟩ = some out ∧
        out.2.1 + (rootsFinset out.1).card = 2 ∧
        ((∀ e ∈ ([⟨0, 1, 5⟩] : List Edge), e.weight < INT_MAX) →
          connectedOn 2 [⟨0, 1, 5⟩] → out.2.1 = 2 - 1)) ∧
      (∀ (fuelPhase i : Nat) (st : Set × Nat × List Edge × List Edge),
        2 - 1 ≤ st.2.1 →
        mstBoruvkaLoop 2 2 [⟨0, 1, 5⟩] fuelPhase i st = some st)) :=
  ⟨⟨by decide, by decide⟩,
    claim_C9_boruvka_phases ⟨1, 2, [⟨0, 1, 5⟩]⟩ ⟨1, 2, [(default : Edge)]⟩
      (by decide) (by decide)⟩

/-- C9 counterexample to the unconditional claim: the connected two-vertex
graph whose single edge weighs exactly `INT_MAX` terminates with `0` MST
edges for every positive phase fuel — the best-edge table cannot distinguish
the genuine weight from its unset sentinel — instead of `V - 1 = 1`. -/
theorem claim_C9_counterexample :
    connectedOn 2 [⟨0, 1, INT_MAX⟩] ∧
    ∀ fuelPhase : Nat,
      (mstBoruvka (fuelPhase + 1) ⟨1, 2, [⟨0, 1, INT_MAX⟩]⟩
        ⟨1, 2, [(default : Edge)]⟩).map (fun out => out.2.1) = some 0 := by
  refine ⟨connectedOn_two INT_MAX, ?_⟩
  intro fuelPhase
  have hph : (mstBoruvkaPhase 2 2 [⟨0, 1, INT_MAX⟩]
      (newSet 2, 0, [(default : Edge)],
        List.replicate 2 (default : Edge))).2.1 = 0 := by decide
  show (mstBoruvkaLoop 2 2 [⟨0, 1, INT_MAX⟩] (fuelPhase + 1) 1
    (newSet 2, 0, [(default : Edge)],
      List.replicate 2 (default : Edge))).map (fun out => out.2.1) = some 0
  rw [mstBoruvkaLoop, if_pos (by decide)]
  cases fuelPhase with
  | zero =>
    rw [mstBoruvkaLoop, if_neg (fun hc => absurd hc.1 (by omega))]
    show some ((mstBoruvkaPhase 2 2 [⟨0, 1, INT_MAX⟩]
      (newSet 2, 0, [(default : Edge)],
        List.replicate 2 (default : Edge))).2.1) = some 0
    rw [hph]
  | succ fp =>
    rw [mstBoruvkaLoop, if_neg (fun hc => absurd hc.1 (by omega))]
    show some ((mstBoruvkaPhase 2 2 [⟨0, 1, INT_MAX⟩]
      (newSet 2, 0, [(default : Edge)],
        List.replicate 2 (default : Edge))).2.1) = some 0
    rw [hph]

end MST
